import Mathlib

/-!
# Verification of the zyzzyva-dawg DAWG compiler / decompiler

Shallow embedding of `zyzzyva-dawg.cpp` (namespace `Dawg`).  Machine
integers are modelled as `Nat` with explicit reductions modulo `2^32`
where the 32-bit arithmetic of the source can overflow.  Words read from
the input stream are modelled as lists of byte values (`List Nat`); the
whitespace tokenisation performed by `operator>>` is modelled by giving
the reader the list of tokens directly.  Fallible operations return
`Except DawgError`.
-/

namespace DawgModel

/-- `MAX_CHARS` from the source: size of the root edge group. -/
def MAX_CHARS : Nat := 256

/-- `HASH_TABLE_SIZE` from the source (a prime). -/
def HASH_TABLE_SIZE : Nat := 240007

/-- Error taxonomy of the source (each `throw` site).  `internal` models an
out-of-bounds `std::vector` access (undefined behaviour in C++); it is
reachable only from states that the program itself never produces. -/
inductive DawgError where
  | outOfOrder
  | prefixOverflow
  | danglingEdges
  | hashTableFull
  | corruptFile
  | internal
deriving DecidableEq, Repr

/-- `struct Node`: a single packed 32-bit edge record (field `value`). -/
structure Node where
  value : Nat
deriving DecidableEq, Repr

instance : Inhabited Node := ⟨⟨0⟩⟩

namespace Node

/-- `letter_mask = 0xff000000`. -/
def letter_mask : Nat := 0xff000000
/-- `end_of_word = 0x00800000`. -/
def end_of_word : Nat := 0x00800000
/-- `end_of_node = 0x00400000`. -/
def end_of_node : Nat := 0x00400000
/-- `offset_mask = 0x001fffff`. -/
def offset_mask : Nat := 0x001fffff
/-- `letter_shift = 24`. -/
def letter_shift : Nat := 24

/-- `Node(unsigned char letter, bool ends_word)`.  A byte `letter < 256` is
shifted into the top byte; the `unsigned char` conversion is `% 256`. -/
def make (letter : Nat) (ends_word : Bool) : Node :=
  ⟨((letter % 256) <<< letter_shift) ||| (if ends_word then end_of_word else 0)⟩

/-- `isEndOfWord`. -/
def isEndOfWord (n : Node) : Bool := n.value &&& end_of_word ≠ 0

/-- `isEndOfNode`. -/
def isEndOfNode (n : Node) : Bool := n.value &&& end_of_node ≠ 0

/-- `getOffset`. -/
def getOffset (n : Node) : Nat := n.value &&& offset_mask

/-- `getChar`. -/
def getChar (n : Node) : Nat := (n.value &&& letter_mask) >>> letter_shift

/-- `setEndOfNode` (returns the updated node). -/
def setEndOfNode (n : Node) : Node := ⟨n.value ||| end_of_node⟩

/-- `setChildOffset(uint32_t node)`: the `size_t → uint32_t` argument
conversion is reduction modulo `2^32`, then only the low 21 bits are
OR-ed into the value. -/
def setChildOffset (n : Node) (node : Nat) : Node :=
  ⟨n.value ||| ((node % 4294967296) &&& offset_mask)⟩

/-- `hash_fn(uint32_t r, Node n) = n.value ^ ((r << 1) | (r >> 31))`:
a 32-bit left-rotate of the accumulator XOR-ed with the node value.
The `% 2^32` keeps the rotate inside 32 bits. -/
def hash_fn (r : Nat) (n : Node) : Nat :=
  n.value ^^^ (((r <<< 1) % 4294967296) ||| (r >>> 31))

end Node

/-- `EdgeList::hash`: `std::accumulate` is a left fold starting from `0`;
the result is reduced modulo `HASH_TABLE_SIZE`. -/
def EdgeList.hash (edges : List Node) : Nat :=
  (edges.foldl Node.hash_fn 0) % HASH_TABLE_SIZE

/-- `EdgeList::equal(start)` where `start = dawg.begin() + v`:
`std::equal` compares exactly `edges.length` elements, i.e. asks whether
`edges` is a prefix of the arena suffix starting at `v`.  (When the arena
holds fewer than `edges.length` elements after `v` the C++ read would be
out of bounds; the model returns `false`, which is the only case the
program can reach under its invariant that every stored group ends in an
`end_of_node` edge.) -/
def edgesEqualAt (edges : List Node) (dawg : List Node) (v : Nat) : Bool :=
  go edges (dawg.drop v)
where
  go : List Node → List Node → Bool
    | [], _ => true
    | _ :: _, [] => false
    | a :: as, b :: bs => a = b && go as bs

/-- The builder state: the node arena (`std::vector<Node> dawg`) and the
open-addressed table (`std::array<size_t, HASH_TABLE_SIZE> hash_table`),
modelled as a total function (every index the program uses is reduced
modulo `HASH_TABLE_SIZE`). -/
structure DawgState where
  dawg : List Node
  hash_table : Nat → Nat

/-- `Dawg::Dawg()`: 256 default (zero) nodes reserved for the root group,
hash table filled with `0`. -/
def Dawg.init : DawgState :=
  ⟨List.replicate MAX_CHARS ⟨0⟩, fun _ => 0⟩

/-- `hash_modulo_increment`: add then conditionally subtract
`HASH_TABLE_SIZE`. -/
def hash_modulo_increment (base inc : Nat) : Nat :=
  if base + inc ≥ HASH_TABLE_SIZE then base + inc - HASH_TABLE_SIZE else base + inc

/-- The probe loop of `Dawg::insertEdges` (its `do … while (hash != initial_hash)`
body).  One fuel unit is one slot examination; the fuel
`HASH_TABLE_SIZE` given by `Dawg.insertEdges` can never be exhausted
before the probe sequence wraps around to `initial`, so the `0` case
returns the same error the wrap-around would. -/
def insertEdgesLoop (d : DawgState) (edges : List Node) (initial : Nat) :
    Nat → Nat → Nat → Except DawgError (DawgState × Nat)
  | _, _, 0 => .error .hashTableFull
  | hash, inc, fuel + 1 =>
    if d.hash_table hash = 0 then
      .ok (⟨d.dawg ++ edges, Function.update d.hash_table hash d.dawg.length⟩,
           d.dawg.length + 1)
    else if edgesEqualAt edges d.dawg (d.hash_table hash) then
      .ok (d, d.hash_table hash + 1)
    else
      let hash' := hash_modulo_increment hash inc
      let inc' := hash_modulo_increment inc 8
      if hash' = initial then .error .hashTableFull
      else insertEdgesLoop d edges initial hash' inc' fuel

/-- `Dawg::insertEdges`: probe from the edge-list hash with initial
increment 9; on an empty slot record `dawg.size()` and append the edges,
returning that index plus one; on a match return the stored index plus
one. -/
def Dawg.insertEdges (d : DawgState) (edges : List Node) :
    Except DawgError (DawgState × Nat) :=
  insertEdgesLoop d edges (EdgeList.hash edges) (EdgeList.hash edges) 9 HASH_TABLE_SIZE

/-! ## WordBuffer -/

/-- `struct WordBuffer`: the remaining input tokens (the whitespace
tokenisation of `operator>>`) and the previously yielded word
(`std::string current`). -/
structure WordBuffer where
  tokens : List (List Nat)
  current : List Nat

/-- The skip loop `while ((input >> s) && s.size() < 2)`: drop tokens of
length < 2; return the first remaining token and the tokens after it, or
`none` at end of input (where `s` is left empty). -/
def skipShort : List (List Nat) → Option (List Nat × List (List Nat))
  | [] => none
  | t :: ts => if t.length < 2 then skipShort ts else some (t, ts)

/-- `current[idx]` as read through `current.data()`, which is
null-terminated: positions at or beyond the size read `0`.  (Reads more
than one byte past the size are undefined behaviour in the source; the
model extends the zero padding, which coincides with the defined
behaviour whenever the new token has no zero byte.) -/
def charAtZ (l : List Nat) (i : Nat) : Nat := l.getD i 0

/-- `std::mismatch(s.cbegin(), s.cend(), current.data())`: the index of
the first position where `s` and the null-padded `current` differ
(`s.length` if `s` is exhausted first). -/
def mismatchIdx : List Nat → List Nat → Nat
  | [], _ => 0
  | a :: s, [] => if a = 0 then mismatchIdx s [] + 1 else 0
  | a :: s, b :: prev => if a = b then mismatchIdx s prev + 1 else 0

/-- `WordBuffer::next`: skip short tokens, compute the mismatch position
`p` against the previous word, throw `OutOfOrder` when the non-empty new
token is a prefix of (or equal to) the previous word or is smaller at the
mismatch position, otherwise yield `(p, word)` and remember the word. -/
def WordBuffer.next (wb : WordBuffer) : Except DawgError (Nat × List Nat × WordBuffer) :=
  let sr := match skipShort wb.tokens with
    | none => (([] : List Nat), ([] : List (List Nat)))
    | some (t, ts) => (t, ts)
  let s := sr.1
  let p := mismatchIdx s wb.current
  if s ≠ [] ∧ (p = s.length ∨ charAtZ s p < charAtZ wb.current p) then
    .error .outOfOrder
  else
    .ok (p, s, ⟨sr.2, s⟩)

/-! ## The builder (`Dawg::parse`) -/

/-- Set `end_of_node` on the last edge of a list
(`edges.back().setEndOfNode()`). -/
def setEndOfNodeLast : List Node → List Node
  | [] => []
  | [a] => [a.setEndOfNode]
  | a :: b :: rest => a :: setEndOfNodeLast (b :: rest)

/-- Set the child offset on the last edge of a list
(`edges.back().setChildOffset(offset)`). -/
def setChildOffsetLast (off : Nat) : List Node → List Node
  | [] => []
  | [a] => [a.setChildOffset off]
  | a :: b :: rest => a :: setChildOffsetLast off (b :: rest)

/-- One iteration of the unwind loop in `Dawg::parse`: pop the top edge
list; if it is non-empty, terminate it with `end_of_node`, intern it, and
record the returned offset on the last edge of the new top list.  The
stack is head-is-top; an access to a missing `back()` is the
`internal` (undefined-behaviour) case, unreachable from `Dawg.parse`. -/
def unwindOne (d : DawgState) :
    List (List Node) → Except DawgError (DawgState × List (List Node))
  | [] => .error .internal
  | ready :: rest =>
    if ready.isEmpty then .ok (d, rest)
    else
      match Dawg.insertEdges d (setEndOfNodeLast ready) with
      | .error e => .error e
      | .ok (d', off) =>
        match rest with
        | [] => .error .internal
        | parent :: rs =>
          if parent.isEmpty then .error .internal
          else .ok (d', setChildOffsetLast off parent :: rs)

/-- The unwind loop run `n = idx - p` times. -/
def unwind (d : DawgState) (edges : List (List Node)) :
    Nat → Except DawgError (DawgState × List (List Node))
  | 0 => .ok (d, edges)
  | n + 1 =>
    match unwindOne d edges with
    | .error e => .error e
    | .ok (d', edges') => unwind d' edges' n

/-- The extend loop of `Dawg::parse`: while `idx < word.size()`, append a
new edge `(word[idx], idx+1 == word.size())` to the top list and push a
fresh empty list.  The loop is driven by the remaining characters
`w.drop idx` (so `total = w.length` fixes the end-of-word test), which
makes the recursion structural. -/
def extendFrom (edges : List (List Node)) (idx total : Nat) :
    List Nat → Except DawgError (List (List Node) × Nat)
  | [] => .ok (edges, idx)
  | c :: rest =>
    match edges with
    | [] => .error .internal
    | top :: es =>
      extendFrom ([] :: (top ++ [Node.make c (decide (idx + 1 = total))]) :: es)
        (idx + 1) total rest

/-- The extend loop entered at position `idx` of the word `w`. -/
def extendSpine (w : List Nat) (edges : List (List Node)) (idx : Nat) :
    Except DawgError (List (List Node) × Nat) :=
  extendFrom edges idx w.length (w.drop idx)

/-- `wb.next` consumes at least one token when it yields a non-empty
word (used for the termination of the parse loop). -/
theorem next_tokens_lt {wb : WordBuffer} {p : Nat} {s : List Nat} {wb' : WordBuffer}
    (h : WordBuffer.next wb = .ok (p, s, wb')) (hs : ¬ s = []) :
    wb'.tokens.length < wb.tokens.length := by
  have hskip : ∀ (toks : List (List Nat)) t ts, skipShort toks = some (t, ts) →
      ts.length < toks.length := by
    intro toks
    induction toks with
    | nil => intro t ts h; simp [skipShort] at h
    | cons a as ih =>
      intro t ts h
      simp only [skipShort] at h
      by_cases ha : a.length < 2
      · simp [ha] at h
        exact Nat.lt_trans (ih t ts h) (by simp)
      · simp [ha] at h
        simp [← h.2]
  unfold WordBuffer.next at h
  rcases hsk : skipShort wb.tokens with _ | ⟨t, ts⟩ <;>
      rw [hsk] at h <;> simp only at h <;> split at h <;>
      first
        | exact Except.noConfusion h
        | (injection h with h'
           injection h' with ha h'
           injection h' with hb hc
           subst hb
           first
             | exact absurd rfl hs
             | (rw [← hc]; exact hskip wb.tokens t ts hsk))

/-- The main loop of `Dawg::parse` (the `for (;;)` loop): read the next
word, validate the common-prefix length, unwind and commit back to the
common point, stop on the empty word, otherwise extend the spine with the
new characters.  The fuel makes the recursion structural; one fuel unit
covers one loop iteration, and every continuing iteration consumes at
least one input token, so the fuel `wb.tokens.length + 1` supplied by
`Dawg.parse` can never run out (`parseLoop_fuel` below); the `0` case is
therefore an unreachable `internal` marker. -/
def parseLoop : Nat → DawgState → List (List Node) → Nat → WordBuffer →
    Except DawgError (DawgState × List (List Node))
  | 0, _, _, _, _ => .error .internal
  | fuel + 1, d, edges, idx, wb =>
    match WordBuffer.next wb with
    | .error e => .error e
    | .ok (p, s, wb') =>
      if idx < p then .error .prefixOverflow
      else
        match unwind d edges (idx - p) with
        | .error e => .error e
        | .ok (d', edges') =>
          if s = [] then
            if p ≠ 0 then .error .danglingEdges else .ok (d', edges')
          else
            match extendSpine s edges' p with
            | .error e => .error e
            | .ok (edges'', idx'') => parseLoop fuel d' edges'' idx'' wb'

/-- `extendSpine` reaches the end of the word: the returned index is
`w.length` whenever the entry index is at most `w.length`. -/
theorem extendFrom_idx (total : Nat) :
    ∀ (rest : List Nat) (edges : List (List Node)) (idx : Nat) r,
      extendFrom edges idx total rest = .ok r → r.2 = idx + rest.length := by
  intro rest
  induction rest with
  | nil =>
    intro edges idx r h
    cases h
    simp
  | cons c cs ih =>
    intro edges idx r h
    cases edges with
    | nil => exact Except.noConfusion h
    | cons top es =>
      have := ih _ _ _ h
      simp only [List.length_cons]
      omega

/-- The fuel argument of `parseLoop` is irrelevant as soon as it exceeds
the number of remaining input tokens (each continuing iteration consumes
at least one token). -/
theorem parseLoop_fuel :
    ∀ (f1 f2 : Nat) (d : DawgState) (edges : List (List Node)) (idx : Nat)
      (wb : WordBuffer), wb.tokens.length < f1 → wb.tokens.length < f2 →
      parseLoop f1 d edges idx wb = parseLoop f2 d edges idx wb := by
  intro f1
  induction f1 with
  | zero => intro f2 d edges idx wb h1; omega
  | succ f1 ih =>
    intro f2 d edges idx wb h1 h2
    cases f2 with
    | zero => omega
    | succ f2 =>
      simp only [parseLoop]
      cases hn : WordBuffer.next wb with
      | error e => rfl
      | ok r =>
        obtain ⟨p, s, wb'⟩ := r
        by_cases hip : idx < p
        · simp [hip]
        · simp only [if_neg hip]
          cases hu : unwind d edges (idx - p) with
          | error e => rfl
          | ok du =>
            obtain ⟨d', edges'⟩ := du
            by_cases hs : s = []
            · simp [hs]
            · simp only [if_neg hs]
              cases hx : extendSpine s edges' p with
              | error e => rfl
              | ok r' =>
                obtain ⟨edges'', i''⟩ := r'
                have hlt := next_tokens_lt hn hs
                exact ih f2 d' edges'' i'' wb' (by omega) (by omega)

/-- Resize a node list to length `n` (`std::vector::resize`): truncate or
pad with default (zero) nodes. -/
def listResize (l : List Node) (n : Nat) : List Node :=
  l.take n ++ List.replicate (n - l.length) ⟨0⟩

/-- The finalisation at the end of `Dawg::parse`: terminate the root edge
list, pad it to 256 entries, force `end_of_node` on entry 255, and copy
it over the first 256 arena slots. -/
def finalizeRoot (d : DawgState) (root : List Node) : DawgState :=
  let root1 := if root.isEmpty then root else setEndOfNodeLast root
  let root2 := setEndOfNodeLast (listResize root1 MAX_CHARS)
  ⟨root2 ++ d.dawg.drop MAX_CHARS, d.hash_table⟩

/-- `Dawg::parse` on a token stream: run the loop from one empty pending
edge list, then finalise the root group. -/
def Dawg.parse (d : DawgState) (tokens : List (List Nat)) :
    Except DawgError DawgState :=
  match parseLoop (tokens.length + 1) d [[]] 0 ⟨tokens, []⟩ with
  | .error e => .error e
  | .ok (d', edges') =>
    match edges' with
    | [] => .error .internal
    | root :: _ => .ok (finalizeRoot d' root)

/-- The `create` command: parse the token stream starting from the
freshly constructed `Dawg`. -/
def dawgCreate (tokens : List (List Nat)) : Except DawgError DawgState :=
  Dawg.parse Dawg.init tokens

/-! ## File codec (`Dawg::save` / `Dawg::load`) -/

/-- `Dawg::save` at 32-bit word granularity: the edge count
(`static_cast<uint32_t>(dawg.size())`) followed by the node values. -/
def saveWords (d : DawgState) : List Nat :=
  (d.dawg.length % 4294967296) :: d.dawg.map Node.value

/-- Little-endian serialisation of one 32-bit word. -/
def le4 (v : Nat) : List Nat :=
  [v % 256, v / 256 % 256, v / 65536 % 256, v / 16777216 % 256]

/-- `Dawg::save` at byte granularity (the file contents on disk,
little-endian). -/
def saveBytes (d : DawgState) : List Nat :=
  (saveWords d).flatMap le4

/-- The little-endian 32-bit word read from `file` at byte position `i`;
bytes past the end of the file read `0` (the read buffer is
zero-initialised by `dawg.resize`). -/
def le32At (file : List Nat) (i : Nat) : Nat :=
  charAtZ file i + 256 * charAtZ file (i + 1) + 65536 * charAtZ file (i + 2) +
    16777216 * charAtZ file (i + 3)

/-- `Dawg::load` on the byte contents of a file (assumed to hold at least
the 4 header bytes; a shorter file leaves `edges` uninitialised in the
C++ and is outside the model's domain).  The size check
`edges * 4 + 4 != size` is carried out in 32-bit unsigned arithmetic, so
both operations wrap modulo `2^32`; on success the arena is resized to
`N` zero nodes and as many leading nodes as the file provides are read
over them. -/
def dawgLoad (file : List Nat) : Except DawgError DawgState :=
  if (le32At file 0 * 4 % 4294967296 + 4) % 4294967296 ≠ file.length then
    .error .corruptFile
  else
    .ok ⟨(List.range (le32At file 0)).map (fun i => ⟨le32At file (4 + 4 * i)⟩),
         fun _ => 0⟩

/-! ## The dump traversal (`Dawg::dump`)

The traversal is a small-step stack machine.  The stack holds the node
pointers of the C++ (`std::vector<Node const*>`), modelled as arena
indices with the head of the list being `stack.back()`.  An index is
dereferenced without any range check at the top of the outer loop, so the
machine distinguishes an explicit `oobAccess` outcome (undefined
behaviour in the source) from the range-checked `dawg.at(next-1)`, whose
failure is the caught `std::out_of_range` (`corruptGraph`). -/

/-- Outcome of a dump run. -/
inductive DumpStatus where
  | done
  | corruptGraph
  | oobAccess
  | fuelOut
deriving DecidableEq, Repr

/-- The word spelled by the stack: `getChar` of each stack entry from the
bottom of the stack to the top (`for (auto const& n : stack)`). -/
def stackWord (dawg : List Node) (stack : List Nat) : List Nat :=
  stack.reverse.map (fun j => (dawg.getD j ⟨0⟩).getChar)

/-- The inner loop
`while (!stack.empty() && (stack.back()++)->isEndOfNode()) stack.pop_back();`:
pop finished groups, then advance the top pointer by one edge.  `none`
models dereferencing an out-of-range pointer during the test (impossible
when every stack entry is in range). -/
def popAdvance (dawg : List Node) : List Nat → Option (List Nat)
  | [] => some []
  | i :: stk =>
    if h : i < dawg.length then
      if (dawg.get ⟨i, h⟩).isEndOfNode then popAdvance dawg stk
      else some ((i + 1) :: stk)
    else none

/-- One iteration of the outer dump loop on a configuration
`(stack, output)`: `.inl` is the next configuration, `.inr` a finished
run.  The top-of-stack dereference is unchecked in the source
(`oobAccess`); the child dereference goes through `dawg.at` whose failure
is caught (`corruptGraph`). -/
def dumpStep (dawg : List Node) (stack : List Nat) (out : List (List Nat)) :
    (List Nat × List (List Nat)) ⊕ (List (List Nat) × DumpStatus) :=
  match stack with
  | [] => .inr (out, .done)
  | i :: stk =>
    if h : i < dawg.length then
      let n := dawg.get ⟨i, h⟩
      let out' := if n.isEndOfWord then out ++ [stackWord dawg (i :: stk)] else out
      if n.getOffset ≠ 0 then
        if n.getOffset - 1 < dawg.length then
          .inl ((n.getOffset - 1) :: i :: stk, out')
        else .inr (out', .corruptGraph)
      else
        match popAdvance dawg (i :: stk) with
        | some stk' => .inl (stk', out')
        | none => .inr (out', .oobAccess)
    else .inr (out, .oobAccess)

/-- The outer `while (!stack.empty())` loop, fuel-indexed (traversals of
corrupt arenas can loop forever in the C++; `fuelOut` never occurs for
large enough fuel on terminating runs). -/
def dumpLoop (dawg : List Node) : List Nat → List (List Nat) → Nat →
    List (List Nat) × DumpStatus
  | _, out, 0 => (out, .fuelOut)
  | stack, out, fuel + 1 =>
    match dumpStep dawg stack out with
    | .inl (stack', out') => dumpLoop dawg stack' out' fuel
    | .inr r => r

/-- `Dawg::dump`: run the machine from the stack `{ &dawg[0] }` with
empty output. -/
def Dawg.dump (d : DawgState) (fuel : Nat) : List (List Nat) × DumpStatus :=
  dumpLoop d.dawg [0] [] fuel

/-- The traversal terminates with status `done` and output `out` for some
fuel (equivalently, the C++ loop terminates producing `out`). -/
def DumpCompletes (dawg : List Node) (out : List (List Nat)) : Prop :=
  ∃ fuel, dumpLoop dawg [0] [] fuel = (out, .done)

/-- Exit code of the `dump` CLI command: only an exception escaping to
`main` (a `load` failure) yields 1; `CorruptGraph` is caught inside
`Dawg::dump`, so the process exits 0 whenever `load` succeeded. -/
def dumpCommandExit (file : List Nat) : Nat :=
  match dawgLoad file with
  | .error _ => 1
  | .ok _ => 0

/-! ## General helper lemmas -/

/-- OR-ing a value whose masked part is zero: the mask then only sees the
other operand. -/
theorem or_and_of_and_eq_zero {x m : Nat} (y : Nat) (h : x &&& m = 0) :
    (x ||| y) &&& m = y &&& m := by
  apply Nat.eq_of_testBit_eq
  intro i
  have hx : (x &&& m).testBit i = false := by rw [h]; simp
  simp only [Nat.testBit_and, Nat.testBit_or] at *
  cases hmi : m.testBit i with
  | false => simp [hmi]
  | true =>
    simp only [hmi, Bool.and_true] at hx ⊢
    simp [hx]

/-! ## C10: `setChildOffset` silently truncates offsets to 21 bits -/

/-- C10: `Node::setChildOffset` performs no range check: for every
argument it bitwise-ORs exactly the low 21 bits into the node value, so
on a node whose offset field is clear the stored offset equals the
argument reduced modulo `2^21`, silently and without error; and
`insertEdges` can return offsets `≥ 2^21` (here `2200001` on an arena of
2,200,000 edges), which `setChildOffset` would truncate. -/
theorem setChildOffset_truncates :
    (∀ (n : Node) (v : Nat),
        (n.setChildOffset v).value = n.value ||| (v % 2097152)
        ∧ (n.getOffset = 0 → (n.setChildOffset v).getOffset = v % 2097152))
    ∧ (∀ m : Nat, (Dawg.insertEdges ⟨List.replicate m ⟨0⟩, fun _ => 0⟩
          [Node.make 97 true]).toOption.map Prod.snd = some (m + 1))
    ∧ 2 ^ 21 ≤ 2200000 + 1 := by
  have hmask : ∀ w : Nat, w &&& Node.offset_mask = w % 2097152 := by
    intro w
    have h1 : Node.offset_mask = 2 ^ 21 - 1 := by norm_num [Node.offset_mask]
    rw [h1, Nat.and_pow_two_sub_one_eq_mod]
  have hlow : ∀ v : Nat, v % 4294967296 &&& Node.offset_mask = v % 2097152 := by
    intro v
    rw [hmask, Nat.mod_mod_of_dvd]
    norm_num
  refine ⟨fun n v => ⟨?_, ?_⟩, ?_, by norm_num⟩
  · show n.value ||| (v % 4294967296 &&& Node.offset_mask) = _
    rw [hlow]
  · intro h0
    have h0' : n.value &&& Node.offset_mask = 0 := h0
    show (n.value ||| (v % 4294967296 &&& Node.offset_mask)) &&& Node.offset_mask = _
    rw [or_and_of_and_eq_zero _ h0', Nat.and_assoc, Nat.and_self, hlow]
  · intro m
    rw [Dawg.insertEdges, show HASH_TABLE_SIZE = 240006 + 1 from rfl]
    simp [insertEdgesLoop, Except.toOption]

/-- Witness for C10 at a concrete node and offset: setting child offset
`2^21 + 5` on a fresh node `(letter 'a', no end-of-word)` stores offset
`5`. -/
theorem setChildOffset_truncates_witness :
    ((Node.make 97 false).setChildOffset 2097157).getOffset = 5 := by
  have h := (setChildOffset_truncates.1 (Node.make 97 false) 2097157).2
    (by decide)
  rw [h]

/-! ## C7: the `load` size check wraps modulo `2^32` -/

/-- The 32-bit computation `edges * 4 + 4` of the source equals
`4 * (N + 1)` reduced modulo `2^32`. -/
theorem load_check_arith (N : Nat) :
    (N * 4 % 4294967296 + 4) % 4294967296 = 4 * (N + 1) % 4294967296 := by
  rw [Nat.mod_add_mod]
  ring_nf

/-- C7 counterexample: the 4-byte file `[0,0,0,64]` declares
`N = 2^30` edges, so its size `4` differs from `4 * (N + 1)`, yet
`load` succeeds because the size check is computed in wrapping 32-bit
arithmetic (`4 * 2^30 + 4 ≡ 4`): the claimed "fails exactly when
`S ≠ 4 * (N + 1)`" is false. -/
theorem dawgLoad_wrap : (dawgLoad [0, 0, 0, 64]).isOk = true
    ∧ ([0, 0, 0, 64] : List Nat).length ≠ 4 * (le32At [0, 0, 0, 64] 0 + 1) := by
  exact ⟨rfl, by decide⟩

/-- C7 (amended): `Dawg::load` fails with `CorruptFile` exactly when the
file size `S` differs from `4 * (N + 1)` reduced modulo `2^32` (the
check is carried out in wrapping 32-bit unsigned arithmetic); when the
check passes, the arena is resized to `N` nodes which are filled from
the bytes the file provides (missing bytes read as zero). -/
theorem dawgLoad_spec (file : List Nat) (h4 : 4 ≤ file.length) :
    (dawgLoad file = .error .corruptFile ↔
      file.length ≠ 4 * (le32At file 0 + 1) % 4294967296)
    ∧ ∀ d, dawgLoad file = .ok d → d.dawg.length = le32At file 0 := by
  have hb := load_check_arith (le32At file 0)
  unfold dawgLoad
  by_cases hc : (le32At file 0 * 4 % 4294967296 + 4) % 4294967296 ≠ file.length
  · rw [if_pos hc]
    refine ⟨⟨fun _ => ?_, fun _ => rfl⟩, fun d hd => absurd hd (by simp)⟩
    rw [← hb]
    exact Ne.symm hc
  · rw [if_neg hc]
    push_neg at hc
    refine ⟨⟨fun h => absurd h (by simp), fun hne => ?_⟩, fun d hd => ?_⟩
    · rw [← hb, hc] at hne
      exact absurd rfl hne
    · cases hd
      simp

/-- Witness for C7 at the concrete file `[0,0,0,2]` (size 4, `N = 2^25`,
no wrap-around): `load` fails with `CorruptFile`. -/
theorem dawgLoad_spec_witness : dawgLoad [0, 0, 0, 2] = .error .corruptFile := by
  exact (dawgLoad_spec [0, 0, 0, 2] (by decide)).1.mpr (by decide)

/-! ## C3: `create` on an empty lexicon -/

/-- The skip loop discards every token of length below 2, so on an input
of only such tokens it reaches the end of the stream. -/
theorem skipShort_none_of_short : ∀ (toks : List (List Nat)),
    (∀ t ∈ toks, t.length < 2) → skipShort toks = none := by
  intro toks
  induction toks with
  | nil => intro _; rfl
  | cons a as ih =>
    intro h
    simp only [skipShort]
    rw [if_pos (h a (by simp))]
    exact ih (fun t ht => h t (by simp [ht]))

/-- On an input with no tokens of length at least 2, the first parse-loop
iteration reads the empty word at mismatch position 0 and returns the
entry state unchanged. -/
theorem parseLoop_all_short (fuel : Nat) (d : DawgState)
    (edges : List (List Node)) (tokens : List (List Nat)) (cur : List Nat)
    (hshort : ∀ t ∈ tokens, t.length < 2) :
    parseLoop (fuel + 1) d edges 0 ⟨tokens, cur⟩ = .ok (d, edges) := by
  have hnext : WordBuffer.next ⟨tokens, cur⟩ = .ok (0, [], ⟨[], []⟩) := by
    unfold WordBuffer.next
    rw [skipShort_none_of_short tokens hshort]
    rfl
  simp only [parseLoop]
  rw [hnext]
  rfl

/-- `create` on any input with no tokens of length at least 2 behaves as
on the empty input. -/
theorem dawgCreate_all_short {tokens : List (List Nat)}
    (hshort : ∀ t ∈ tokens, t.length < 2) :
    dawgCreate tokens = dawgCreate [] := by
  unfold dawgCreate Dawg.parse
  rw [parseLoop_all_short tokens.length Dawg.init [[]] tokens [] hshort,
    parseLoop_all_short ([] : List (List Nat)).length Dawg.init [[]] [] []
      (fun t ht => absurd ht (List.not_mem_nil t))]

set_option maxRecDepth 8000 in
/-- C3 counterexample: on inputs with no tokens of length ≥ 2 — the
empty input and an input of one short token alike — `create` does *not*
produce the 4-byte file `00 00 00 00`: the constructor reserves the 256
root slots and the finalisation pads the (empty) root list to 256
entries, so the file holds `N = 256` and the root group. -/
theorem emptyLexicon_not_four_zero_bytes :
    (dawgCreate []).toOption.map saveBytes ≠ some [0, 0, 0, 0] ∧
    (dawgCreate [[97]]).toOption.map saveBytes ≠ some [0, 0, 0, 0] := by
  constructor <;> decide

set_option maxRecDepth 8000 in
/-- C3 (amended): on any input with no tokens of length at least 2 —
empty or consisting solely of shorter tokens, which the skip loop
discards — `create` writes the count `N = 256` followed by the 256-entry
root group — 255 zero nodes and a final node with only `end_of_node`
(`0x400000`) set — and `dump` of the resulting arena produces empty
output. -/
theorem emptyLexicon_output (tokens : List (List Nat))
    (hshort : ∀ t ∈ tokens, t.length < 2) :
    (dawgCreate tokens).toOption.map saveWords
        = some (256 :: (List.replicate 255 0 ++ [4194304]))
    ∧ (dawgCreate tokens).toOption.map (fun st => dumpLoop st.dawg [0] [] 300)
        = some ([], .done) := by
  rw [dawgCreate_all_short hshort]
  constructor <;> decide

set_option maxRecDepth 8000 in
/-- Witness for C3 (amended) at the input of the single short token
`"a"`: the skip loop discards it and `create` emits the padded root
group with `N = 256`; dump output is empty. -/
theorem emptyLexicon_output_witness :
    (∀ t ∈ [[97]], List.length t < 2) ∧
    ((dawgCreate [[97]]).toOption.map saveWords
        = some (256 :: (List.replicate 255 0 ++ [4194304]))
    ∧ (dawgCreate [[97]]).toOption.map (fun st => dumpLoop st.dawg [0] [] 300)
        = some ([], .done)) :=
  ⟨by decide, emptyLexicon_output [[97]] (by decide)⟩

/-! ## C5: the `WordBuffer::next` order check -/

/-- The length of the longest common prefix of two lists (the reference
notion against which the source's `std::mismatch` index is compared). -/
def lcpLen : List Nat → List Nat → Nat
  | [], _ => 0
  | _, [] => 0
  | a :: s, b :: t => if a = b then lcpLen s t + 1 else 0

theorem lcpLen_le_left : ∀ s t : List Nat, lcpLen s t ≤ s.length := by
  intro s
  induction s with
  | nil => intro t; cases t <;> simp [lcpLen]
  | cons a s ih =>
    intro t
    cases t with
    | nil => simp [lcpLen]
    | cons b t =>
      by_cases hab : a = b <;> simp [lcpLen, hab]
      exact ih t

theorem lcpLen_le_right : ∀ s t : List Nat, lcpLen s t ≤ t.length := by
  intro s
  induction s with
  | nil => intro t; cases t <;> simp [lcpLen]
  | cons a s ih =>
    intro t
    cases t with
    | nil => simp [lcpLen]
    | cons b t =>
      by_cases hab : a = b <;> simp [lcpLen, hab]
      exact ih t

/-- The mismatch index equals the list length exactly when the first list
is a prefix of the second. -/
theorem lcpLen_eq_left_iff : ∀ s t : List Nat, lcpLen s t = s.length ↔ s <+: t := by
  intro s
  induction s with
  | nil => intro t; cases t <;> simp [lcpLen]
  | cons a s ih =>
    intro t
    cases t with
    | nil => simp [lcpLen]
    | cons b t =>
      by_cases hab : a = b
      · subst hab
        simp [lcpLen, List.cons_prefix_cons]
        exact ih t
      · simp [lcpLen, hab, List.cons_prefix_cons]

/-- On tokens without zero bytes, the `std::mismatch` position computed
against the null-padded previous word is the longest-common-prefix
length. -/
theorem mismatchIdx_eq_lcpLen : ∀ s t : List Nat, (0 : Nat) ∉ s →
    mismatchIdx s t = lcpLen s t := by
  intro s
  induction s with
  | nil => intro t _; cases t <;> rfl
  | cons a s ih =>
    intro t hnz
    have ha : a ≠ 0 := by
      intro h
      exact hnz (by simp [h])
    have hs : (0 : Nat) ∉ s := fun h => hnz (by simp [h])
    cases t with
    | nil => simp [mismatchIdx, lcpLen, ha]
    | cons b t =>
      by_cases hab : a = b <;> simp [mismatchIdx, lcpLen, hab, ih t hs]

/-- What `skipShort` yields: a token of length at least 2 from the input
list, together with the tokens after it. -/
theorem skipShort_some : ∀ (toks : List (List Nat)) t ts,
    skipShort toks = some (t, ts) →
    2 ≤ t.length ∧ t ∈ toks ∧ ∀ x ∈ ts, x ∈ toks := by
  intro toks
  induction toks with
  | nil => intro t ts h; exact Option.noConfusion h
  | cons a as ih =>
    intro t ts h
    simp only [skipShort] at h
    by_cases ha : a.length < 2
    · rw [if_pos ha] at h
      obtain ⟨h1, h2, h3⟩ := ih t ts h
      exact ⟨h1, by simp [h2], fun x hx => by simp [h3 x hx]⟩
    · rw [if_neg ha] at h
      obtain ⟨rfl, rfl⟩ := Prod.mk.inj (Option.some.inj h)
      exact ⟨by omega, by simp, fun x hx => by simp [hx]⟩

/-- Reduction of `WordBuffer::next` once the skip loop's result is
known. -/
theorem next_reduce (wb : WordBuffer) (s : List Nat) (rest : List (List Nat))
    (hsk : skipShort wb.tokens = some (s, rest)) :
    WordBuffer.next wb =
      if s ≠ [] ∧ (mismatchIdx s wb.current = s.length ∨
          charAtZ s (mismatchIdx s wb.current) <
            charAtZ wb.current (mismatchIdx s wb.current)) then
        .error .outOfOrder
      else .ok (mismatchIdx s wb.current, s, ⟨rest, s⟩) := by
  unfold WordBuffer.next
  rw [hsk]

/-- C5: `WordBuffer::next`, for the non-empty token `s` it reads (tokens
carry no zero byte), fails with `OutOfOrder` exactly when `s` is equal to
or a prefix of the previous word, or is smaller at the first mismatch
position; otherwise it yields the mismatch position — the length of the
longest common prefix with the previous word — together with the word.
In particular a token equal to the previous one is rejected. -/
theorem wordBuffer_next_spec (wb : WordBuffer) (s : List Nat) (rest : List (List Nat))
    (hsk : skipShort wb.tokens = some (s, rest)) (hnz : (0 : Nat) ∉ s) :
    (WordBuffer.next wb = .error .outOfOrder ↔
      (s <+: wb.current ∨
        (lcpLen s wb.current < s.length ∧ lcpLen s wb.current < wb.current.length ∧
          s.getD (lcpLen s wb.current) 0 < wb.current.getD (lcpLen s wb.current) 0)))
    ∧ ∀ p w wb', WordBuffer.next wb = .ok (p, w, wb') →
        p = lcpLen s wb.current ∧ w = s ∧ wb' = ⟨rest, s⟩ := by
  have hred := next_reduce wb s rest hsk
  have hlen : 2 ≤ s.length := (skipShort_some _ _ _ hsk).1
  have hne : s ≠ [] := by
    intro h
    rw [h] at hlen
    simp at hlen
  have hmm := mismatchIdx_eq_lcpLen s wb.current hnz
  rw [hmm] at hred
  set p := lcpLen s wb.current with hp
  have hps : p ≤ s.length := lcpLen_le_left s wb.current
  have hpc : p ≤ wb.current.length := lcpLen_le_right s wb.current
  have hcond : (s ≠ [] ∧ (p = s.length ∨ charAtZ s p < charAtZ wb.current p)) ↔
      (s <+: wb.current ∨
        (p < s.length ∧ p < wb.current.length ∧
          s.getD p 0 < wb.current.getD p 0)) := by
    rw [← lcpLen_eq_left_iff s wb.current, ← hp]
    constructor
    · rintro ⟨-, h | h⟩
      · exact Or.inl h
      · by_cases hpl : p = s.length
        · exact Or.inl hpl
        · have h1 : p < s.length := lt_of_le_of_ne hps hpl
          by_cases hpc' : p < wb.current.length
          · exact Or.inr ⟨h1, hpc', h⟩
          · exfalso
            have : wb.current.length ≤ p := le_of_not_lt hpc'
            have hz : charAtZ wb.current p = 0 := by
              unfold charAtZ
              exact List.getD_eq_default _ _ this
            rw [hz] at h
            exact Nat.not_lt_zero _ h
    · rintro (h | ⟨h1, h2, h3⟩)
      · exact ⟨hne, Or.inl h⟩
      · exact ⟨hne, Or.inr h3⟩
  constructor
  · rw [hred]
    constructor
    · intro h
      by_cases hc : s ≠ [] ∧ (p = s.length ∨ charAtZ s p < charAtZ wb.current p)
      · exact hcond.mp hc
      · rw [if_neg hc] at h
        exact Except.noConfusion h
    · intro h
      rw [if_pos (hcond.mpr h)]
  · intro q w wb' h
    rw [hred] at h
    by_cases hc : s ≠ [] ∧ (p = s.length ∨ charAtZ s p < charAtZ wb.current p)
    · rw [if_pos hc] at h
      exact Except.noConfusion h
    · rw [if_neg hc] at h
      obtain ⟨h1, h23⟩ := Prod.mk.inj (Except.ok.inj h)
      obtain ⟨h2, h3⟩ := Prod.mk.inj h23
      exact ⟨h1.symm, h2.symm, h3.symm⟩

/-- Witness for C5: with previous word `"at"` and incoming token `"ab"`
(`ab < at`), the reader fails with `OutOfOrder`. -/
theorem wordBuffer_next_spec_witness :
    WordBuffer.next ⟨[[97, 98]], [97, 116]⟩ = .error .outOfOrder := by
  exact (wordBuffer_next_spec ⟨[[97, 98]], [97, 116]⟩ [97, 98] [] (by decide)
    (by decide)).1.mpr (Or.inr (by decide))

/-! ## C6: the double-hashing probe sequence -/

/-- `hash_modulo_increment` is addition modulo `HASH_TABLE_SIZE` on
in-range arguments. -/
theorem hash_modulo_increment_eq_mod (base inc : Nat)
    (hb : base < HASH_TABLE_SIZE) (hi : inc < HASH_TABLE_SIZE) :
    hash_modulo_increment base inc = (base + inc) % HASH_TABLE_SIZE := by
  unfold hash_modulo_increment
  by_cases h : base + inc ≥ HASH_TABLE_SIZE
  · have h2 : base + inc - HASH_TABLE_SIZE < HASH_TABLE_SIZE := by omega
    rw [if_pos h, Nat.mod_eq_sub_mod h, Nat.mod_eq_of_lt h2]
  · rw [if_neg h]
    rw [Nat.mod_eq_of_lt (by omega)]

/-- C6: `insertEdges` starts probing at the slot obtained by folding
`hash_fn` (`h' = node.value XOR rotl1(h)`) from `0` over the edge list
and reducing modulo 240007, with initial increment 9 and full fuel; after
a miss the probe index advances by the increment and the increment by 8,
both modulo 240007 (`HASH_TABLE_SIZE`), and coming back to the initial
slot fails with `HashTableFull` instead. -/
theorem insertEdges_probing :
    (∀ (d : DawgState) (edges : List Node),
      Dawg.insertEdges d edges =
        insertEdgesLoop d edges ((edges.foldl Node.hash_fn 0) % 240007)
          ((edges.foldl Node.hash_fn 0) % 240007) 9 240007)
    ∧ ∀ (d : DawgState) (edges : List Node) (initial hash inc fuel : Nat),
        hash < 240007 → inc < 240007 →
        insertEdgesLoop d edges initial hash inc (fuel + 1) =
          if d.hash_table hash = 0 then
            .ok (⟨d.dawg ++ edges, Function.update d.hash_table hash d.dawg.length⟩,
                 d.dawg.length + 1)
          else if edgesEqualAt edges d.dawg (d.hash_table hash) then
            .ok (d, d.hash_table hash + 1)
          else if (hash + inc) % 240007 = initial then .error .hashTableFull
          else insertEdgesLoop d edges initial ((hash + inc) % 240007)
            ((inc + 8) % 240007) fuel := by
  constructor
  · intro d edges
    rfl
  · intro d edges initial hash inc fuel hh hi
    show (if d.hash_table hash = 0 then _ else _) = _
    by_cases h0 : d.hash_table hash = 0
    · rw [if_pos h0, if_pos h0]
    · rw [if_neg h0, if_neg h0]
      by_cases heq : edgesEqualAt edges d.dawg (d.hash_table hash) = true
      · rw [if_pos heq, if_pos heq]
      · rw [if_neg heq, if_neg heq]
        have e1 : hash_modulo_increment hash inc = (hash + inc) % 240007 :=
          hash_modulo_increment_eq_mod hash inc hh hi
        have e2 : hash_modulo_increment inc 8 = (inc + 8) % 240007 :=
          hash_modulo_increment_eq_mod inc 8 hi (by norm_num [HASH_TABLE_SIZE])
        simp only [e1, e2]

/-- Witness for C6 at concrete arguments: one probe step from slot 240000
with increment 9 on the all-empty table of the fresh builder lands in the
empty-slot branch. -/
theorem insertEdges_probing_witness :
    insertEdgesLoop Dawg.init [Node.make 97 true] 5 240000 9 3 =
      .ok (⟨Dawg.init.dawg ++ [Node.make 97 true],
            Function.update Dawg.init.hash_table 240000 Dawg.init.dawg.length⟩,
           Dawg.init.dawg.length + 1) := by
  rw [insertEdges_probing.2 Dawg.init [Node.make 97 true] 5 240000 9 2
    (by norm_num) (by norm_num)]
  rfl

/-! ## C9: committed arena entries never move or mutate -/

/-- Inversion for the probe loop: a successful `insertEdges` either found
an empty slot — appending the edges at the end of the arena and storing
the previous arena size in that single slot — or found a match, leaving
the state untouched. -/
theorem insertEdgesLoop_inv (d : DawgState) (edges : List Node) (initial : Nat) :
    ∀ (fuel hash inc : Nat) (d' : DawgState) (o : Nat),
      insertEdgesLoop d edges initial hash inc fuel = .ok (d', o) →
      (∃ s, d.hash_table s = 0 ∧
          d' = ⟨d.dawg ++ edges, Function.update d.hash_table s d.dawg.length⟩ ∧
          o = d.dawg.length + 1)
      ∨ (d' = d ∧ ∃ s, d.hash_table s ≠ 0 ∧
          edgesEqualAt edges d.dawg (d.hash_table s) ∧ o = d.hash_table s + 1) := by
  intro fuel
  induction fuel with
  | zero => intro hash inc d' o h; exact Except.noConfusion h
  | succ fuel ih =>
    intro hash inc d' o h
    simp only [insertEdgesLoop] at h
    by_cases h0 : d.hash_table hash = 0
    · rw [if_pos h0] at h
      obtain ⟨h1, h2⟩ := Prod.mk.inj (Except.ok.inj h)
      exact Or.inl ⟨hash, h0, h1.symm, h2.symm⟩
    · rw [if_neg h0] at h
      by_cases heq : edgesEqualAt edges d.dawg (d.hash_table hash) = true
      · rw [if_pos heq] at h
        obtain ⟨h1, h2⟩ := Prod.mk.inj (Except.ok.inj h)
        exact Or.inr ⟨h1.symm, hash, h0, heq, h2.symm⟩
      · rw [if_neg heq] at h
        by_cases hw : hash_modulo_increment hash inc = initial
        · rw [if_pos hw] at h
          exact Except.noConfusion h
        · rw [if_neg hw] at h
          exact ih _ _ _ _ h

/-- `setEndOfNodeLast` preserves the length of an edge list. -/
theorem setEndOfNodeLast_length : ∀ l : List Node,
    (setEndOfNodeLast l).length = l.length := by
  intro l
  induction l with
  | nil => rfl
  | cons a l ih =>
    cases l with
    | nil => rfl
    | cons b t => simpa [setEndOfNodeLast] using ih

/-- C9: during construction, committed arena entries never move or
mutate.  A successful `insertEdges` only appends at the end of the arena
(the old arena is a prefix of the new one) and never overwrites a
previously occupied hash-table slot; the finalisation step only replaces
arena indices 0..255 with the padded root group, leaving everything from
index 256 on — and the hash table — untouched. -/
theorem commit_frame :
    (∀ (d : DawgState) (edges : List Node) (d' : DawgState) (o : Nat),
      Dawg.insertEdges d edges = .ok (d', o) →
      d.dawg <+: d'.dawg ∧
        ∀ s, d.hash_table s ≠ 0 → d'.hash_table s = d.hash_table s)
    ∧ (∀ (d : DawgState) (root : List Node), 256 ≤ d.dawg.length →
        (finalizeRoot d root).dawg.drop 256 = d.dawg.drop 256
        ∧ (finalizeRoot d root).dawg.length = d.dawg.length
        ∧ (finalizeRoot d root).hash_table = d.hash_table) := by
  constructor
  · intro d edges d' o h
    rcases insertEdgesLoop_inv d edges _ _ _ _ _ _ h with
      ⟨s, hs0, hd', _⟩ | ⟨hd', _⟩
    · subst hd'
      refine ⟨List.prefix_append _ _, fun t ht => ?_⟩
      show Function.update d.hash_table s d.dawg.length t = d.hash_table t
      have hts : t ≠ s := fun h => ht (h ▸ hs0)
      exact Function.update_noteq hts _ _
    · subst hd'
      exact ⟨List.prefix_refl _, fun _ _ => rfl⟩
  · intro d root h256
    have hres : ∀ l : List Node, (listResize l MAX_CHARS).length = 256 := by
      intro l
      unfold listResize MAX_CHARS
      simp only [List.length_append, List.length_take, List.length_replicate]
      omega
    have hlen : ∀ l : List Node,
        (setEndOfNodeLast (listResize l MAX_CHARS)).length = 256 := by
      intro l
      rw [setEndOfNodeLast_length, hres]
    refine ⟨?_, ?_, rfl⟩
    · show ((setEndOfNodeLast (listResize _ MAX_CHARS)) ++ d.dawg.drop MAX_CHARS).drop 256
          = d.dawg.drop 256
      rw [List.drop_append_of_le_length (le_of_eq (hlen _).symm),
        List.drop_eq_nil_of_le (le_of_eq (hlen _))]
      simp [MAX_CHARS]
    · show ((setEndOfNodeLast (listResize _ MAX_CHARS)) ++ d.dawg.drop MAX_CHARS).length
          = d.dawg.length
      rw [List.length_append, hlen, List.length_drop]
      unfold MAX_CHARS
      omega

/-- Witness for C9: inserting one edge list into the fresh builder keeps
the 256 reserved root slots as a prefix, and finalising an arbitrary root
over the fresh builder leaves the tail of the arena unchanged. -/
theorem commit_frame_witness :
    (Dawg.insertEdges Dawg.init [Node.make 97 true] =
        .ok (⟨Dawg.init.dawg ++ [Node.make 97 true],
              Function.update Dawg.init.hash_table
                (EdgeList.hash [Node.make 97 true]) 256⟩, 257) →
      Dawg.init.dawg <+:
        (Dawg.init.dawg ++ [Node.make 97 true] : List Node))
    ∧ (finalizeRoot Dawg.init []).dawg.drop 256 = Dawg.init.dawg.drop 256 := by
  constructor
  · intro h
    exact ((commit_frame.1 Dawg.init [Node.make 97 true] _ 257) h).1
  · exact (commit_frame.2 Dawg.init []
      (by simp only [Dawg.init, List.length_replicate, MAX_CHARS]; exact le_refl 256)).1

/-! ## C2: interning is injective on well-terminated edge lists -/

/-- The precondition of C2 on an edge list: non-empty, with `end_of_node`
set on exactly the last edge. -/
def EONOnlyAtEnd (l : List Node) : Prop :=
  l ≠ [] ∧ ∀ i (hi : i < l.length),
    ((l.get ⟨i, hi⟩).isEndOfNode = true ↔ i + 1 = l.length)

/-- Hash-table well-formedness: the arena is non-empty (`insertEdges`
uses `dawg.size()` as a non-zero occupancy marker) and every occupied
slot points at a stored copy of some well-terminated edge list. -/
def HTWf (d : DawgState) : Prop :=
  0 < d.dawg.length ∧ ∀ s, d.hash_table s ≠ 0 →
    ∃ l, EONOnlyAtEnd l ∧ edgesEqualAt l d.dawg (d.hash_table s) = true

/-- `edgesEqualAt` is the prefix test on the arena suffix. -/
theorem edgesEqualAt_iff (A dawg : List Node) (v : Nat) :
    edgesEqualAt A dawg v = true ↔ A <+: dawg.drop v := by
  have go_iff : ∀ a b : List Node, edgesEqualAt.go a b = true ↔ a <+: b := by
    intro a
    induction a with
    | nil => intro b; simp [edgesEqualAt.go]
    | cons x xs ih =>
      intro b
      cases b with
      | nil => simp [edgesEqualAt.go]
      | cons y ys =>
        simp [edgesEqualAt.go, Bool.and_eq_true, decide_eq_true_eq, ih ys,
          List.cons_prefix_cons]
  exact go_iff A (dawg.drop v)

/-- Two well-terminated edge lists where one is a prefix of the other are
equal: the `end_of_node` bit pins down the length. -/
theorem EON_prefix_eq {A B : List Node} (hA : EONOnlyAtEnd A) (hB : EONOnlyAtEnd B)
    (h : A <+: B) : A = B := by
  obtain ⟨hAne, hAe⟩ := hA
  obtain ⟨hBne, hBe⟩ := hB
  have hlen : A.length ≤ B.length := h.length_le
  have hApos : 0 < A.length := List.length_pos.mpr hAne
  have hi : A.length - 1 < A.length := by omega
  have hib : A.length - 1 < B.length := by omega
  have he : A.get ⟨A.length - 1, hi⟩ = B.get ⟨A.length - 1, hib⟩ := by
    simp only [List.get_eq_getElem]
    exact h.getElem hi
  have h1 : (A.get ⟨A.length - 1, hi⟩).isEndOfNode = true := (hAe _ hi).mpr (by omega)
  have h2 : A.length - 1 + 1 = B.length := (hBe _ hib).mp (by rw [← he]; exact h1)
  exact h.eq_of_length (by omega)

/-- A stored well-terminated list forces its slot index to lie strictly
inside the arena. -/
theorem stored_lt_length {l dawg : List Node} {v : Nat} (hl : EONOnlyAtEnd l)
    (h : l <+: dawg.drop v) : v < dawg.length := by
  by_contra hc
  rw [List.drop_eq_nil_of_le (by omega)] at h
  exact hl.1 (List.prefix_nil.mp h)

/-- A miss against a stored well-terminated list stays a miss after the
arena is extended: appending `A` cannot turn the stored group into a
prefix of `A`'s own copy because the stored `end_of_node` bit would land
strictly inside `A`. -/
theorem miss_stays_miss {A l dawg : List Node} {v : Nat}
    (hA : EONOnlyAtEnd A) (hl : EONOnlyAtEnd l) (hlst : l <+: dawg.drop v)
    (hmiss : ¬ A <+: dawg.drop v) : ¬ A <+: (dawg ++ A).drop v := by
  have hv : v < dawg.length := stored_lt_length hl hlst
  rw [List.drop_append_of_le_length (le_of_lt hv)]
  intro hpre
  by_cases hlen : A.length ≤ (dawg.drop v).length
  · apply hmiss
    have ht : A = ((dawg.drop v) ++ A).take A.length := List.prefix_iff_eq_take.mp hpre
    rw [List.take_append_of_le_length hlen] at ht
    rw [ht]
    exact List.take_prefix _ _
  · have hlD : l.length ≤ (dawg.drop v).length := hlst.length_le
    have hlpos : 0 < l.length := List.length_pos.mpr hl.1
    have hiA : l.length - 1 < A.length := by omega
    have hiD : l.length - 1 < (dawg.drop v).length := by omega
    have hil : l.length - 1 < l.length := by omega
    have e1 : A.get ⟨l.length - 1, hiA⟩
        = ((dawg.drop v) ++ A).get ⟨l.length - 1, by simp; omega⟩ := by
      simp only [List.get_eq_getElem]
      exact hpre.getElem hiA
    have e2 : ((dawg.drop v) ++ A).get ⟨l.length - 1, by simp; omega⟩
        = (dawg.drop v).get ⟨l.length - 1, hiD⟩ := by
      simp only [List.get_eq_getElem]
      exact List.getElem_append_left hiD
    have e3 : l.get ⟨l.length - 1, hil⟩ = (dawg.drop v).get ⟨l.length - 1, hiD⟩ := by
      simp only [List.get_eq_getElem]
      exact hlst.getElem hil
    have hEONl : (l.get ⟨l.length - 1, hil⟩).isEndOfNode = true :=
      (hl.2 _ hil).mpr (by omega)
    have hEONA : (A.get ⟨l.length - 1, hiA⟩).isEndOfNode = true := by
      rw [e1, e2, ← e3]
      exact hEONl
    have := (hA.2 _ hiA).mp hEONA
    omega

/-- Stability of interning: re-interning the same well-terminated list in
the state a successful intern produced finds it again, at the same
offset, without changing the state. -/
theorem insertEdgesLoop_stable {A : List Node} (hA : EONOnlyAtEnd A)
    {d : DawgState} (hwf : HTWf d) :
    ∀ (fuel hash inc initial : Nat) (d' : DawgState) (o : Nat),
      insertEdgesLoop d A initial hash inc fuel = .ok (d', o) →
      insertEdgesLoop d' A initial hash inc fuel = .ok (d', o) := by
  intro fuel
  induction fuel with
  | zero => intro _ _ _ _ _ h; exact Except.noConfusion h
  | succ fuel ih =>
    intro hash inc initial d' o h
    simp only [insertEdgesLoop] at h ⊢
    by_cases h0 : d.hash_table hash = 0
    · rw [if_pos h0] at h
      obtain ⟨hd', ho⟩ := Prod.mk.inj (Except.ok.inj h)
      subst hd'
      subst ho
      have hx0 : (Function.update d.hash_table hash d.dawg.length) hash
          = d.dawg.length := Function.update_same _ _ _
      have hne : (Function.update d.hash_table hash d.dawg.length) hash ≠ 0 := by
        rw [hx0]
        have := hwf.1
        omega
      have heq : edgesEqualAt A (d.dawg ++ A)
          ((Function.update d.hash_table hash d.dawg.length) hash) = true := by
        rw [hx0, edgesEqualAt_iff, List.drop_left]
      dsimp only
      rw [if_neg hne, if_pos heq, hx0]
    · rw [if_neg h0] at h
      by_cases heq : edgesEqualAt A d.dawg (d.hash_table hash) = true
      · rw [if_pos heq] at h
        obtain ⟨hd', ho⟩ := Prod.mk.inj (Except.ok.inj h)
        subst hd'
        subst ho
        rw [if_neg h0, if_pos heq]
      · rw [if_neg heq] at h
        by_cases hw : hash_modulo_increment hash inc = initial
        · rw [if_pos hw] at h
          exact Except.noConfusion h
        · rw [if_neg hw] at h
          have hrec := ih _ _ _ _ _ h
          rcases insertEdgesLoop_inv d A initial fuel _ _ _ _ h with
            ⟨s, hs0, hd', ho⟩ | ⟨hd', -⟩
          · subst hd'
            dsimp only
            have hs_ne : hash ≠ s := fun hc => h0 (hc ▸ hs0)
            have hxh : (Function.update d.hash_table s d.dawg.length) hash
                = d.hash_table hash := Function.update_noteq hs_ne _ _
            obtain ⟨l, hl, hlst⟩ := hwf.2 hash h0
            rw [edgesEqualAt_iff] at hlst
            have hmiss' : ¬ A <+: (d.dawg ++ A).drop (d.hash_table hash) :=
              miss_stays_miss hA hl hlst
                (fun hc => heq ((edgesEqualAt_iff _ _ _).mpr hc))
            rw [if_neg (by rw [hxh]; exact h0),
              if_neg (by
                rw [hxh]
                exact fun hc => hmiss' ((edgesEqualAt_iff _ _ _).mp hc)),
              if_neg hw]
            exact hrec
          · subst hd'
            rw [if_neg h0, if_neg heq, if_neg hw]
            exact hrec

/-- C2: under the precondition that the edge lists passed to
`insertEdges` are non-empty with `end_of_node` set on exactly the last
edge (and a well-formed hash table), two edge lists intern to the same
1-based offset if and only if they have the same length and pairwise
identical 32-bit node values, i.e. are equal lists. -/
theorem intern_offset_iff (d : DawgState) (hwf : HTWf d) {A B : List Node}
    (hA : EONOnlyAtEnd A) (hB : EONOnlyAtEnd B) {d1 d2 : DawgState} {oA oB : Nat}
    (h1 : Dawg.insertEdges d A = .ok (d1, oA))
    (h2 : Dawg.insertEdges d1 B = .ok (d2, oB)) :
    oA = oB ↔ A = B := by
  constructor
  · intro hoo
    rcases insertEdgesLoop_inv d A _ _ _ _ _ _ h1 with
      ⟨sA, hsA0, hd1, hoA⟩ | ⟨hd1, sA, hvA, heqA, hoA⟩
    · subst hd1
      rcases insertEdgesLoop_inv _ B _ _ _ _ _ _ h2 with
        ⟨sB, hsB0, hd2, hoB⟩ | ⟨hd2, sB, hvB, heqB, hoB⟩
      · exfalso
        rw [hoA, hoB] at hoo
        dsimp only at hoo
        rw [List.length_append] at hoo
        have : A.length = 0 := by omega
        exact hA.1 (List.length_eq_zero.mp this)
      · rw [edgesEqualAt_iff] at heqB
        dsimp only at heqB hoB
        have hv : Function.update d.hash_table sA d.dawg.length sB = d.dawg.length := by
          omega
        rw [hv, List.drop_left] at heqB
        exact (EON_prefix_eq hB hA heqB).symm
    · rw [hd1] at h2
      have hvAlt : d.hash_table sA < d.dawg.length := by
        rw [edgesEqualAt_iff] at heqA
        exact stored_lt_length hA heqA
      rcases insertEdgesLoop_inv d B _ _ _ _ _ _ h2 with
        ⟨sB, hsB0, hd2, hoB⟩ | ⟨hd2, sB, hvB, heqB, hoB⟩
      · exfalso
        rw [hoA, hoB] at hoo
        omega
      · rw [edgesEqualAt_iff] at heqA heqB
        have hvv : d.hash_table sA = d.hash_table sB := by omega
        rw [← hvv] at heqB
        rcases List.prefix_or_prefix_of_prefix heqA heqB with hab | hba
        · exact EON_prefix_eq hA hB hab
        · exact (EON_prefix_eq hB hA hba).symm
  · intro hab
    subst hab
    have hst := insertEdgesLoop_stable hA hwf _ _ _ _ _ _ h1
    have h2' : insertEdgesLoop d1 A (EdgeList.hash A) (EdgeList.hash A) 9
        HASH_TABLE_SIZE = .ok (d2, oB) := h2
    exact (Prod.mk.inj (Except.ok.inj (hst.symm.trans h2'))).2

set_option maxRecDepth 8000 in
/-- Witness for C2: interning the single-edge list for letter `'a'`
(end-of-word and end-of-node set) into the fresh builder and then
interning the same list again yields the same offset. -/
theorem intern_offset_iff_witness :
    (Dawg.init.dawg.length + 1 = Dawg.init.dawg.length + 1 ↔
      ([(Node.make 97 true).setEndOfNode] : List Node)
        = [(Node.make 97 true).setEndOfNode]) := by
  have hwf : HTWf Dawg.init :=
    ⟨by simp only [Dawg.init, List.length_replicate]; norm_num [MAX_CHARS],
     fun s h => absurd rfl h⟩
  have hA : EONOnlyAtEnd [(Node.make 97 true).setEndOfNode] := by
    refine ⟨by simp, ?_⟩
    intro i hi
    have hi0 : i = 0 := by
      simp only [List.length_singleton] at hi
      omega
    subst hi0
    refine ⟨fun _ => rfl, fun _ => ?_⟩
    show ((Node.make 97 true).setEndOfNode).isEndOfNode = true
    decide
  have h1 : Dawg.insertEdges Dawg.init [(Node.make 97 true).setEndOfNode] =
      .ok (⟨Dawg.init.dawg ++ [(Node.make 97 true).setEndOfNode],
            Function.update Dawg.init.hash_table
              (EdgeList.hash [(Node.make 97 true).setEndOfNode])
              Dawg.init.dawg.length⟩,
           Dawg.init.dawg.length + 1) := by rfl
  have h2 : Dawg.insertEdges
      (⟨Dawg.init.dawg ++ [(Node.make 97 true).setEndOfNode],
        Function.update Dawg.init.hash_table
          (EdgeList.hash [(Node.make 97 true).setEndOfNode])
          Dawg.init.dawg.length⟩ : DawgState)
      [(Node.make 97 true).setEndOfNode] =
      .ok (⟨Dawg.init.dawg ++ [(Node.make 97 true).setEndOfNode],
            Function.update Dawg.init.hash_table
              (EdgeList.hash [(Node.make 97 true).setEndOfNode])
              Dawg.init.dawg.length⟩,
           Dawg.init.dawg.length + 1) := by rfl
  exact intern_offset_iff Dawg.init hwf hA hA h1 h2

/-! ## C8: the `PrefixOverflow` branch is unreachable -/

/-- `next` can only fail with `OutOfOrder`. -/
theorem next_error_eq {wb : WordBuffer} {e : DawgError}
    (h : WordBuffer.next wb = .error e) : e = .outOfOrder := by
  unfold WordBuffer.next at h
  cases hsk : skipShort wb.tokens with
  | none =>
    rw [hsk] at h
    dsimp only at h
    split at h
    · exact (Except.error.inj h).symm
    · exact Except.noConfusion h
  | some tr =>
    obtain ⟨t, ts⟩ := tr
    rw [hsk] at h
    dsimp only at h
    split at h
    · exact (Except.error.inj h).symm
    · exact Except.noConfusion h

/-- The probe loop can only fail with `HashTableFull`. -/
theorem insertEdgesLoop_error (d : DawgState) (edges : List Node) (initial : Nat) :
    ∀ (fuel hash inc : Nat) (e : DawgError),
      insertEdgesLoop d edges initial hash inc fuel = .error e →
      e = .hashTableFull := by
  intro fuel
  induction fuel with
  | zero => intro _ _ e h; exact (Except.error.inj h).symm
  | succ fuel ih =>
    intro hash inc e h
    simp only [insertEdgesLoop] at h
    by_cases h0 : d.hash_table hash = 0
    · rw [if_pos h0] at h
      exact Except.noConfusion h
    · rw [if_neg h0] at h
      by_cases heq : edgesEqualAt edges d.dawg (d.hash_table hash) = true
      · rw [if_pos heq] at h
        exact Except.noConfusion h
      · rw [if_neg heq] at h
        by_cases hw : hash_modulo_increment hash inc = initial
        · rw [if_pos hw] at h
          exact (Except.error.inj h).symm
        · rw [if_neg hw] at h
          exact ih _ _ _ h

/-- One unwind step can only fail with `internal` (unreachable vector
misuse) or `HashTableFull` (from interning). -/
theorem unwindOne_error (d : DawgState) (edges : List (List Node)) (e : DawgError)
    (h : unwindOne d edges = .error e) : e = .internal ∨ e = .hashTableFull := by
  unfold unwindOne at h
  cases edges with
  | nil =>
    dsimp only at h
    exact Or.inl (Except.error.inj h).symm
  | cons ready rest =>
    dsimp only at h
    by_cases hr : ready.isEmpty
    · rw [if_pos hr] at h
      exact Except.noConfusion h
    · rw [if_neg hr] at h
      cases hins : Dawg.insertEdges d (setEndOfNodeLast ready) with
      | error e' =>
        rw [hins] at h
        have := insertEdgesLoop_error d (setEndOfNodeLast ready) _ _ _ _ _ hins
        rw [(Except.error.inj h).symm]
        exact Or.inr this
      | ok r =>
        obtain ⟨d', off⟩ := r
        rw [hins] at h
        dsimp only at h
        cases rest with
        | nil => exact Or.inl (Except.error.inj h).symm
        | cons parent rs =>
          dsimp only at h
          by_cases hp : parent.isEmpty
          · rw [if_pos hp] at h
            exact Or.inl (Except.error.inj h).symm
          · rw [if_neg hp] at h
            exact Except.noConfusion h

/-- The unwind loop can only fail with `internal` or `HashTableFull`. -/
theorem unwind_error : ∀ (n : Nat) (d : DawgState) (edges : List (List Node))
    (e : DawgError), unwind d edges n = .error e →
    e = .internal ∨ e = .hashTableFull := by
  intro n
  induction n with
  | zero => intro d edges e h; exact Except.noConfusion h
  | succ n ih =>
    intro d edges e h
    unfold unwind at h
    cases h1 : unwindOne d edges with
    | error e' =>
      rw [h1] at h
      rw [(Except.error.inj h).symm] at *
      exact unwindOne_error d edges _ h1
    | ok r =>
      obtain ⟨d', edges'⟩ := r
      rw [h1] at h
      exact ih d' edges' e h

/-- The extend loop can only fail with `internal`. -/
theorem extendFrom_error (total : Nat) : ∀ (rest : List Nat)
    (edges : List (List Node)) (idx : Nat) (e : DawgError),
    extendFrom edges idx total rest = .error e → e = .internal := by
  intro rest
  induction rest with
  | nil => intro edges idx e h; exact Except.noConfusion h
  | cons c cs ih =>
    intro edges idx e h
    cases edges with
    | nil => exact (Except.error.inj h).symm
    | cons top es => exact ih _ _ _ h

/-- The mismatch index never exceeds the new token's length. -/
theorem mismatchIdx_le_left : ∀ s t : List Nat, mismatchIdx s t ≤ s.length := by
  intro s
  induction s with
  | nil => intro t; cases t <;> simp [mismatchIdx]
  | cons a s ih =>
    intro t
    cases t with
    | nil =>
      by_cases h : a = 0 <;> simp [mismatchIdx, h]
      exact ih []
    | cons b t =>
      by_cases h : a = b <;> simp [mismatchIdx, h]
      exact ih t

/-- Reduction of `next` at end of input. -/
theorem next_reduce_none (wb : WordBuffer) (hsk : skipShort wb.tokens = none) :
    WordBuffer.next wb = .ok (0, [], ⟨[], []⟩) := by
  unfold WordBuffer.next
  rw [hsk]
  rfl

/-- No run of the parse loop started with `idx` equal to the previous
word's length on NUL-free tokens can fail with `PrefixOverflow`. -/
theorem parseLoop_no_PO : ∀ (fuel : Nat) (d : DawgState) (edges : List (List Node))
    (idx : Nat) (wb : WordBuffer), idx = wb.current.length →
    (∀ t ∈ wb.tokens, (0 : Nat) ∉ t) → (0 : Nat) ∉ wb.current →
    parseLoop fuel d edges idx wb ≠ .error .prefixOverflow := by
  intro fuel
  induction fuel with
  | zero =>
    intro d edges idx wb hidx htok hcur h
    exact DawgError.noConfusion (Except.error.inj h)
  | succ fuel ih =>
    intro d edges idx wb hidx htok hcur h
    simp only [parseLoop] at h
    cases hn : WordBuffer.next wb with
    | error e =>
      rw [hn] at h
      have he := next_error_eq hn
      rw [he] at h
      exact DawgError.noConfusion (Except.error.inj h)
    | ok r =>
      obtain ⟨p, s, wb'⟩ := r
      rw [hn] at h
      have hple : p ≤ wb.current.length ∧ p ≤ s.length ∧ wb'.current = s ∧
          (∀ t ∈ wb'.tokens, (0 : Nat) ∉ t) ∧ (0 : Nat) ∉ s := by
        cases hsk : skipShort wb.tokens with
        | none =>
          have := (next_reduce_none wb hsk).symm.trans hn
          obtain ⟨h1, h23⟩ := Prod.mk.inj (Except.ok.inj this)
          obtain ⟨h2, h3⟩ := Prod.mk.inj h23
          subst h1
          subst h2
          subst h3
          exact ⟨Nat.zero_le _, Nat.zero_le _, rfl, by simp, by simp⟩
        | some tr =>
          obtain ⟨t, ts⟩ := tr
          have hred := (next_reduce wb t ts hsk).symm.trans hn
          obtain ⟨ht2, htmem, htsub⟩ := skipShort_some _ _ _ hsk
          have htnz : (0 : Nat) ∉ t := htok t htmem
          split at hred
          · exact Except.noConfusion hred
          · obtain ⟨h1, h23⟩ := Prod.mk.inj (Except.ok.inj hred)
            obtain ⟨h2, h3⟩ := Prod.mk.inj h23
            subst h1
            subst h2
            subst h3
            refine ⟨?_, mismatchIdx_le_left _ _, rfl,
              fun x hx => htok x (htsub x hx), htnz⟩
            rw [mismatchIdx_eq_lcpLen _ _ htnz]
            exact lcpLen_le_right _ _
      obtain ⟨hp1, hp2, hp3, hp4, hp5⟩ := hple
      dsimp only at h
      rw [if_neg (show ¬ idx < p by omega)] at h
      cases hu : unwind d edges (idx - p) with
      | error e =>
        rw [hu] at h
        rcases unwind_error _ _ _ _ hu with he | he <;>
          · rw [he] at h
            exact DawgError.noConfusion (Except.error.inj h)
      | ok r' =>
        obtain ⟨d', edges'⟩ := r'
        rw [hu] at h
        dsimp only at h
        by_cases hs : s = []
        · rw [if_pos hs] at h
          by_cases hp0 : p ≠ 0
          · rw [if_pos hp0] at h
            exact DawgError.noConfusion (Except.error.inj h)
          · rw [if_neg hp0] at h
            exact Except.noConfusion h
        · rw [if_neg hs] at h
          cases hx : extendSpine s edges' p with
          | error e =>
            rw [hx] at h
            rw [extendFrom_error _ _ _ _ _ hx] at h
            exact DawgError.noConfusion (Except.error.inj h)
          | ok r'' =>
            obtain ⟨edges'', idx''⟩ := r''
            rw [hx] at h
            dsimp only at h
            have hidx'' : idx'' = s.length := by
              have := extendFrom_idx s.length _ _ _ _ hx
              simp only [List.length_drop] at this
              omega
            rw [hidx'', ← hp3] at h
            exact ih d' edges'' wb'.current.length wb' rfl hp4 (hp3 ▸ hp5) h

/-- C8: `Dawg::parse` never fails with `PrefixOverflow` on token streams
without NUL bytes: `WordBuffer::next` never reports a common-prefix
length larger than the previous word's length, which the spine depth
tracks, so the defensive branch is dead. -/
theorem parse_no_prefixOverflow (d0 : DawgState) (tokens : List (List Nat))
    (hwf : ∀ t ∈ tokens, (0 : Nat) ∉ t) :
    Dawg.parse d0 tokens ≠ .error .prefixOverflow := by
  intro hcontra
  unfold Dawg.parse at hcontra
  cases hp : parseLoop (tokens.length + 1) d0 [[]] 0 ⟨tokens, []⟩ with
  | error e =>
    rw [hp] at hcontra
    have he := Except.error.inj hcontra
    rw [he] at hp
    exact parseLoop_no_PO (tokens.length + 1) d0 [[]] 0 ⟨tokens, []⟩ rfl hwf
      (by simp) hp
  | ok r =>
    obtain ⟨d', edges'⟩ := r
    rw [hp] at hcontra
    cases edges' with
    | nil => exact DawgError.noConfusion (Except.error.inj hcontra)
    | cons root rest => exact Except.noConfusion hcontra

/-- Witness for C8: the two-word stream `"at" "ax"` parses without a
`PrefixOverflow` failure. -/
theorem parse_no_prefixOverflow_witness :
    Dawg.parse Dawg.init [[97, 116], [97, 120]] ≠ .error .prefixOverflow :=
  parse_no_prefixOverflow Dawg.init [[97, 116], [97, 120]] (by decide)

/-! ## C4: dump bounds checking -/

/-- C4 counterexample: the loadable 8-byte file declaring one all-zero
node (no `end_of_node` anywhere) drives the dump traversal past the end
of the arena through the *unchecked* sibling-advance dereference: dump
does perform an out-of-bounds arena access on this corrupt arena. -/
theorem dump_oob_on_corrupt :
    (dawgLoad [1, 0, 0, 0, 0, 0, 0, 0]).toOption.map
        (fun d => dumpLoop d.dawg [0] [] 5) = some ([], .oobAccess) := by
  decide

/-- `popAdvance` stays inside the arena when every stack entry is in
range and the arena's last node carries `end_of_node`. -/
theorem popAdvance_safe (dawg : List Node) (hne : dawg ≠ [])
    (hlast : (dawg.getLast hne).isEndOfNode = true) :
    ∀ stack : List Nat, (∀ i ∈ stack, i < dawg.length) →
      ∃ stk', popAdvance dawg stack = some stk' ∧ ∀ j ∈ stk', j < dawg.length := by
  intro stack
  induction stack with
  | nil => exact fun _ => ⟨[], rfl, by simp⟩
  | cons i stk ih =>
    intro hmem
    have hi : i < dawg.length := hmem i (by simp)
    unfold popAdvance
    rw [dif_pos hi]
    by_cases he : (dawg.get ⟨i, hi⟩).isEndOfNode = true
    · rw [if_pos he]
      exact ih (fun j hj => hmem j (by simp [hj]))
    · rw [if_neg he]
      refine ⟨(i + 1) :: stk, rfl, ?_⟩
      have hi1 : i ≠ dawg.length - 1 := by
        intro hc
        apply he
        subst hc
        rw [List.getLast_eq_getElem] at hlast
        simpa only [List.get_eq_getElem] using hlast
      intro j hj
      rcases List.mem_cons.mp hj with rfl | hj'
      · have := List.length_pos.mpr hne
        omega
      · exact hmem j (by simp [hj'])

/-- The dump machine never dereferences out of the arena when the
arena's last node has `end_of_node` set (every pushed child index is
range-checked by `dawg.at`, and the sibling advance cannot run past the
terminated final group). -/
theorem dumpLoop_no_oob (dawg : List Node) (hne : dawg ≠ [])
    (hlast : (dawg.getLast hne).isEndOfNode = true) :
    ∀ (fuel : Nat) (stack : List Nat) (out : List (List Nat)),
      (∀ i ∈ stack, i < dawg.length) →
      (dumpLoop dawg stack out fuel).2 ≠ .oobAccess := by
  intro fuel
  induction fuel with
  | zero => intro stack out hmem h; exact DumpStatus.noConfusion h
  | succ fuel ih =>
    intro stack out hmem
    simp only [dumpLoop, dumpStep]
    cases stack with
    | nil => intro h; exact DumpStatus.noConfusion h
    | cons i stk =>
      have hi : i < dawg.length := hmem i (by simp)
      dsimp only
      rw [dif_pos hi]
      by_cases hoff : (dawg.get ⟨i, hi⟩).getOffset ≠ 0
      · rw [if_pos hoff]
        by_cases hrange : (dawg.get ⟨i, hi⟩).getOffset - 1 < dawg.length
        · rw [if_pos hrange]
          apply ih
          intro j hj
          rcases List.mem_cons.mp hj with rfl | hj' <;>
            [exact hrange; exact hmem j hj']
        · rw [if_neg hrange]
          intro h
          exact DumpStatus.noConfusion h
      · rw [if_neg hoff]
        obtain ⟨stk', hpa, hmem'⟩ :=
          popAdvance_safe dawg hne hlast (i :: stk) hmem
        rw [hpa]
        exact ih stk' _ hmem'

/-- C4 (amended): dereferences that follow a non-zero `offset` are
range-checked (`dawg.at`), a failure aborts the traversal with the
handled `CorruptGraph` report, and the `dump` command exits 0 whenever
`load` succeeded; but the sibling-advance dereference is *not* checked,
so dump is free of out-of-bounds accesses only when the loaded arena is
non-empty with `end_of_node` set on its last node — a property every
arena written by `create` has, but not every loadable file. -/
theorem dump_safety :
    (∀ (dawg : List Node) (hne : dawg ≠ []),
      (dawg.getLast hne).isEndOfNode = true →
      ∀ fuel : Nat, (Dawg.dump ⟨dawg, fun _ => 0⟩ fuel).2 ≠ .oobAccess)
    ∧ (∀ (file : List Nat) (d : DawgState), dawgLoad file = .ok d →
        dumpCommandExit file = 0) := by
  constructor
  · intro dawg hne hlast fuel
    apply dumpLoop_no_oob dawg hne hlast
    intro i hi
    rcases List.mem_singleton.mp hi with rfl
    exact List.length_pos.mpr hne
  · intro file d h
    unfold dumpCommandExit
    rw [h]

/-- Witness for C4 (amended): the arena produced by `create` on the
single word `"at"` is dumped without any out-of-bounds access, and a
successfully loaded file exits with code 0. -/
theorem dump_safety_witness :
    (Dawg.dump ⟨[(Node.make 97 true).setEndOfNode], fun _ => 0⟩ 10).2 ≠ .oobAccess
    ∧ dumpCommandExit [0, 0, 0, 0] = 0 := by
  constructor
  · exact dump_safety.1 [(Node.make 97 true).setEndOfNode] (by simp)
      (by decide) 10
  · exact dump_safety.2 [0, 0, 0, 0] ⟨[], fun _ => 0⟩ (by rfl)

/-! ## C1: round-trip `dump (create L) = L`

The proof relates three views of the program: the builder run
(`parseLoop`), a recursive denotation of the arena (`groupWords`), and
the dump stack machine (`dumpStep`).  The ghost data is the list `cs` of
committed edge groups, in commit order; commit `j` starts at arena index
`commitStart cs j`. -/

/-- The recursive denotation of the arena: the words spelled by the edge
group starting at index `g`, each including the group's own letters.
`fuel` bounds the child depth (each committed child group lies strictly
earlier in the arena, so any fuel beyond the commit index is enough). -/
def groupWords (dawg : List Node) : Nat → Nat → List (List Nat)
  | fuel, g =>
    if h : g < dawg.length then
      let n := dawg.get ⟨g, h⟩
      ((if n.isEndOfWord then [[n.getChar]] else []) ++
        (match fuel with
         | 0 => []
         | fuel' + 1 =>
           if n.getOffset ≠ 0 then
             (groupWords dawg fuel' (n.getOffset - 1)).map (n.getChar :: ·)
           else [])) ++
      (if n.isEndOfNode then [] else groupWords dawg fuel (g + 1))
    else []
termination_by fuel g => (fuel, dawg.length - g)

/-- The words contributed by a single already-committed edge: its letter
if it ends a word, plus its letter prefixed to its child group's words. -/
def edgeWords (dawg : List Node) (cf : Nat) (n : Node) : List (List Nat) :=
  (if n.isEndOfWord then [[n.getChar]] else []) ++
  (if n.getOffset ≠ 0 then
    (groupWords dawg cf (n.getOffset - 1)).map (n.getChar :: ·)
  else [])

/-- The words of an edge list all of whose children are committed. -/
def closedWords (dawg : List Node) (cf : Nat) (l : List Node) : List (List Nat) :=
  l.flatMap (edgeWords dawg cf)

/-- One builder level wrapped around the denotation of the levels above
it: its last edge is the spine edge whose children are the inner
levels. -/
def wrapLevel (dawg : List Node) (cf : Nat) (l : List Node)
    (inner : List (List Nat)) : List (List Nat) :=
  match l.getLast? with
  | none => []
  | some e =>
    closedWords dawg cf l.dropLast ++
      ((if e.isEndOfWord then [[e.getChar]] else []) ++
        inner.map (e.getChar :: ·))

/-- The denotation of the builder's edge-list stack (head is the top
level, i.e. the deepest). -/
def stackDen (dawg : List Node) (cf : Nat) : List (List Node) → List (List Nat)
  | [] => []
  | top :: rest => rest.foldl (fun inner l => wrapLevel dawg cf l inner)
      (closedWords dawg cf top)

/-- Arena start index of commit `j`. -/
def commitStart (cs : List (List Node)) (j : Nat) : Nat :=
  MAX_CHARS + ((cs.take j).flatten).length

/-- An edge whose child pointer is absent or points at the start of a
commit with index `< j`. -/
def OffOkLt (cs : List (List Node)) (j : Nat) (e : Node) : Prop :=
  e.getOffset = 0 ∨ ∃ j' < j, e.getOffset = commitStart cs j' + 1

/-- An edge whose child pointer is absent or points at some commit. -/
def OffOk (cs : List (List Node)) (e : Node) : Prop :=
  OffOkLt cs cs.length e

/-- Commit-list well-formedness: every commit is a non-empty
`end_of_node`-terminated group whose edges point only at earlier
commits. -/
def OffWF (cs : List (List Node)) : Prop :=
  ∀ j (hj : j < cs.length), EONOnlyAtEnd (cs.get ⟨j, hj⟩) ∧
    ∀ e ∈ cs.get ⟨j, hj⟩, OffOkLt cs j e

/-- The arena holds every commit at its start index. -/
def Contains (dawg : List Node) (cs : List (List Node)) : Prop :=
  ∀ j (hj : j < cs.length), cs.get ⟨j, hj⟩ <+: dawg.drop (commitStart cs j)

/-- The builder arena is the 256 root slots followed by the commits in
commit order. -/
def Built (d : DawgState) (cs : List (List Node)) : Prop :=
  d.dawg = List.replicate MAX_CHARS ⟨0⟩ ++ cs.flatten ∧ OffWF cs

/-- Every occupied hash slot stores the start index of some commit. -/
def HTBuilt (d : DawgState) (cs : List (List Node)) : Prop :=
  ∀ s, d.hash_table s ≠ 0 → ∃ j, j < cs.length ∧ d.hash_table s = commitStart cs j

/-! ### Node accessor characterisations and preservation lemmas -/

theorem or_shiftRight_distrib (a b n : Nat) : (a ||| b) >>> n = (a >>> n) ||| (b >>> n) := by
  apply Nat.eq_of_testBit_eq
  intro i
  simp [Nat.testBit_shiftRight, Nat.testBit_or]

theorem and_shiftRight_distrib (a b n : Nat) : (a &&& b) >>> n = (a >>> n) &&& (b >>> n) := by
  apply Nat.eq_of_testBit_eq
  intro i
  simp [Nat.testBit_shiftRight, Nat.testBit_and]

theorem mod_two_pow_or (a b n : Nat) : (a ||| b) % 2 ^ n = a % 2 ^ n ||| b % 2 ^ n := by
  apply Nat.eq_of_testBit_eq
  intro i
  simp [Nat.testBit_mod_two_pow, Nat.testBit_or, Bool.and_or_distrib_left]

/-- `getChar` reads the top byte. -/
theorem getChar_eq (n : Node) : n.getChar = (n.value >>> 24) % 256 := by
  show (n.value &&& Node.letter_mask) >>> Node.letter_shift = _
  rw [Node.letter_shift, and_shiftRight_distrib]
  rw [show Node.letter_mask >>> 24 = 255 from by decide]
  rw [show (255 : Nat) = 2 ^ 8 - 1 from by decide, Nat.and_pow_two_sub_one_eq_mod]

/-- `getOffset` reads the low 21 bits. -/
theorem getOffset_eq (n : Node) : n.getOffset = n.value % 2 ^ 21 := by
  show n.value &&& Node.offset_mask = _
  rw [show Node.offset_mask = 2 ^ 21 - 1 from by decide, Nat.and_pow_two_sub_one_eq_mod]

/-- `isEndOfWord` reads bit 23. -/
theorem isEndOfWord_eq (n : Node) : n.isEndOfWord = n.value.testBit 23 := by
  show decide (n.value &&& Node.end_of_word ≠ 0) = _
  rw [show Node.end_of_word = 2 ^ 23 from by decide, Nat.and_two_pow]
  cases h : n.value.testBit 23 <;> simp [h]

/-- `isEndOfNode` reads bit 22. -/
theorem isEndOfNode_eq (n : Node) : n.isEndOfNode = n.value.testBit 22 := by
  show decide (n.value &&& Node.end_of_node ≠ 0) = _
  rw [show Node.end_of_node = 2 ^ 22 from by decide, Nat.and_two_pow]
  cases h : n.value.testBit 22 <;> simp [h]

theorem setEndOfNode_getChar (n : Node) : n.setEndOfNode.getChar = n.getChar := by
  rw [getChar_eq, getChar_eq]
  show ((n.value ||| Node.end_of_node) >>> 24) % 256 = _
  rw [or_shiftRight_distrib, show Node.end_of_node >>> 24 = 0 from by decide,
    Nat.or_zero]

theorem setEndOfNode_isEndOfWord (n : Node) :
    n.setEndOfNode.isEndOfWord = n.isEndOfWord := by
  rw [isEndOfWord_eq, isEndOfWord_eq]
  show (n.value ||| Node.end_of_node).testBit 23 = _
  rw [Nat.testBit_or, show Node.end_of_node.testBit 23 = false from by decide,
    Bool.or_false]

theorem setEndOfNode_getOffset (n : Node) :
    n.setEndOfNode.getOffset = n.getOffset := by
  rw [getOffset_eq, getOffset_eq]
  show (n.value ||| Node.end_of_node) % 2 ^ 21 = _
  rw [mod_two_pow_or, show Node.end_of_node % 2 ^ 21 = 0 from by decide,
    Nat.or_zero]

theorem setEndOfNode_isEndOfNode (n : Node) :
    n.setEndOfNode.isEndOfNode = true := by
  rw [isEndOfNode_eq]
  show (n.value ||| Node.end_of_node).testBit 22 = true
  rw [Nat.testBit_or, show Node.end_of_node.testBit 22 = true from by decide,
    Bool.or_true]

/-- `setEndOfNode` is idempotent. -/
theorem setEndOfNode_idem (n : Node) :
    n.setEndOfNode.setEndOfNode = n.setEndOfNode := by
  show (⟨(n.value ||| Node.end_of_node) ||| Node.end_of_node⟩ : Node) = _
  rw [Nat.lor_assoc]
  congr 1

theorem setChildOffset_getChar (n : Node) (v : Nat) :
    (n.setChildOffset v).getChar = n.getChar := by
  rw [getChar_eq, getChar_eq]
  show ((n.value ||| (v % 4294967296 &&& Node.offset_mask)) >>> 24) % 256 = _
  rw [or_shiftRight_distrib]
  have h : (v % 4294967296 &&& Node.offset_mask) >>> 24 = 0 := by
    rw [show Node.offset_mask = 2 ^ 21 - 1 from by decide,
      Nat.and_pow_two_sub_one_eq_mod]
    have : v % 4294967296 % 2 ^ 21 < 2 ^ 21 := Nat.mod_lt _ (by norm_num)
    rw [Nat.shiftRight_eq_div_pow]
    exact Nat.div_eq_of_lt (lt_of_lt_of_le this (by norm_num))
  rw [h, Nat.or_zero]

theorem setChildOffset_isEndOfWord (n : Node) (v : Nat) :
    (n.setChildOffset v).isEndOfWord = n.isEndOfWord := by
  rw [isEndOfWord_eq, isEndOfWord_eq]
  show (n.value ||| (v % 4294967296 &&& Node.offset_mask)).testBit 23 = _
  rw [Nat.testBit_or]
  have h : (v % 4294967296 &&& Node.offset_mask).testBit 23 = false := by
    rw [show Node.offset_mask = 2 ^ 21 - 1 from by decide,
      Nat.and_pow_two_sub_one_eq_mod, Nat.testBit_mod_two_pow]
    simp
  rw [h, Bool.or_false]

theorem setChildOffset_isEndOfNode (n : Node) (v : Nat) :
    (n.setChildOffset v).isEndOfNode = n.isEndOfNode := by
  rw [isEndOfNode_eq, isEndOfNode_eq]
  show (n.value ||| (v % 4294967296 &&& Node.offset_mask)).testBit 22 = _
  rw [Nat.testBit_or]
  have h : (v % 4294967296 &&& Node.offset_mask).testBit 22 = false := by
    rw [show Node.offset_mask = 2 ^ 21 - 1 from by decide,
      Nat.and_pow_two_sub_one_eq_mod, Nat.testBit_mod_two_pow]
    simp
  rw [h, Bool.or_false]

/-- On a node with a clear offset field, `setChildOffset` with an
in-range value stores it exactly. -/
theorem setChildOffset_getOffset_small (n : Node) (v : Nat)
    (h0 : n.getOffset = 0) (hv : v < 2097152) :
    (n.setChildOffset v).getOffset = v := by
  rw [(setChildOffset_truncates.1 n v).2 h0, Nat.mod_eq_of_lt hv]

theorem make_getChar (c : Nat) (b : Bool) (hc : c < 256) :
    (Node.make c b).getChar = c := by
  rw [getChar_eq]
  show (((c % 256) <<< Node.letter_shift |||
      (if b then Node.end_of_word else 0)) >>> 24) % 256 = c
  rw [Node.letter_shift, or_shiftRight_distrib]
  have h1 : (c % 256) <<< 24 >>> 24 = c := by
    rw [Nat.shiftLeft_eq, Nat.shiftRight_eq_div_pow,
      Nat.mul_div_cancel _ (by norm_num), Nat.mod_eq_of_lt hc]
  have h2 : (if b then Node.end_of_word else 0) >>> 24 = 0 := by
    cases b <;> decide
  rw [h1, h2, Nat.or_zero, Nat.mod_eq_of_lt hc]

theorem make_isEndOfWord (c : Nat) (b : Bool) :
    (Node.make c b).isEndOfWord = b := by
  rw [isEndOfWord_eq]
  show ((c % 256) <<< Node.letter_shift |||
      (if b then Node.end_of_word else 0)).testBit 23 = b
  rw [Node.letter_shift, Nat.testBit_or]
  have h1 : ((c % 256) <<< 24).testBit 23 = false := by
    rw [Nat.testBit_shiftLeft]
    simp
  have h2 : (if b then Node.end_of_word else 0).testBit 23 = b := by
    cases b <;> decide
  rw [h1, h2, Bool.false_or]

theorem make_isEndOfNode (c : Nat) (b : Bool) :
    (Node.make c b).isEndOfNode = false := by
  rw [isEndOfNode_eq]
  show ((c % 256) <<< Node.letter_shift |||
      (if b then Node.end_of_word else 0)).testBit 22 = false
  rw [Node.letter_shift, Nat.testBit_or]
  have h1 : ((c % 256) <<< 24).testBit 22 = false := by
    rw [Nat.testBit_shiftLeft]
    simp
  have h2 : (if b then Node.end_of_word else 0).testBit 22 = false := by
    cases b <;> decide
  rw [h1, h2]
  rfl

theorem make_getOffset (c : Nat) (b : Bool) : (Node.make c b).getOffset = 0 := by
  rw [getOffset_eq]
  show ((c % 256) <<< Node.letter_shift |||
      (if b then Node.end_of_word else 0)) % 2 ^ 21 = 0
  rw [Node.letter_shift, mod_two_pow_or]
  have h1 : (c % 256) <<< 24 % 2 ^ 21 = 0 := by
    rw [Nat.shiftLeft_eq, show (2 : Nat) ^ 24 = 8 * 2 ^ 21 from by norm_num,
      ← Nat.mul_assoc]
    exact Nat.mul_mod_left _ _
  have h2 : (if b then Node.end_of_word else 0) % 2 ^ 21 = 0 := by
    cases b <;> decide
  rw [h1, h2]
  rfl

/-- `getChar` is always a byte value. -/
theorem getChar_lt (n : Node) : n.getChar < 256 := by
  rw [getChar_eq]
  exact Nat.mod_lt _ (by norm_num)

/-! ### Shifting and building `EONOnlyAtEnd` -/

theorem EONOnlyAtEnd_cons {e : Node} {l : List Node} (h : EONOnlyAtEnd (e :: l)) :
    (l = [] ∧ e.isEndOfNode = true) ∨
    (l ≠ [] ∧ e.isEndOfNode = false ∧ EONOnlyAtEnd l) := by
  obtain ⟨-, he⟩ := h
  cases l with
  | nil =>
    refine Or.inl ⟨rfl, ?_⟩
    exact (he 0 (by simp)).mpr (by simp)
  | cons b t =>
    refine Or.inr ⟨by simp, ?_, by simp, ?_⟩
    · by_contra hc
      have h1 : e.isEndOfNode = true := by
        revert hc
        cases e.isEndOfNode <;> simp
      have h2 := (he 0 (by simp)).mp h1
      simp at h2
    · intro i hi
      have h2 := he (i + 1) (by simpa using Nat.succ_lt_succ hi)
      simpa using h2

theorem EONOnlyAtEnd_single {e : Node} (h : e.isEndOfNode = true) :
    EONOnlyAtEnd [e] := by
  refine ⟨by simp, ?_⟩
  intro i hi
  have : i = 0 := by simpa using hi
  subst this
  simpa using h

theorem EONOnlyAtEnd_cons_of {e : Node} {l : List Node} (he : e.isEndOfNode = false)
    (hl : EONOnlyAtEnd l) : EONOnlyAtEnd (e :: l) := by
  refine ⟨by simp, ?_⟩
  intro i hi
  cases i with
  | zero =>
    simp only [List.get]
    rw [he]
    have := List.length_pos.mpr hl.1
    constructor
    · intro hc
      exact Bool.noConfusion hc
    · intro hc
      simp only [List.length_cons] at hc
      omega
  | succ i =>
    have hi' : i < l.length := by simpa using hi
    have := hl.2 i hi'
    simpa using this

/-- `setEndOfNodeLast` on `l ++ [e]`. -/
theorem setEndOfNodeLast_append : ∀ (l : List Node) (e : Node),
    setEndOfNodeLast (l ++ [e]) = l ++ [e.setEndOfNode] := by
  intro l
  induction l with
  | nil => intro e; rfl
  | cons a t ih =>
    intro e
    cases t with
    | nil => rfl
    | cons b t' =>
      show a :: setEndOfNodeLast ((b :: t') ++ [e]) = _
      rw [ih e]
      rfl

/-- `setChildOffsetLast` on `l ++ [e]`. -/
theorem setChildOffsetLast_append : ∀ (l : List Node) (e : Node) (off : Nat),
    setChildOffsetLast off (l ++ [e]) = l ++ [e.setChildOffset off] := by
  intro l
  induction l with
  | nil => intro e off; rfl
  | cons a t ih =>
    intro e off
    cases t with
    | nil => rfl
    | cons b t' =>
      show a :: setChildOffsetLast off ((b :: t') ++ [e]) = _
      rw [ih e off]
      rfl

theorem EONOnlyAtEnd_append_single : ∀ (t : List Node) (x : Node),
    (∀ a ∈ t, a.isEndOfNode = false) → x.isEndOfNode = true →
    EONOnlyAtEnd (t ++ [x]) := by
  intro t
  induction t with
  | nil => intro x _ hx; exact EONOnlyAtEnd_single hx
  | cons a t ih =>
    intro x hall hx
    exact EONOnlyAtEnd_cons_of (hall a (by simp))
      (ih x (fun b hb => hall b (by simp [hb])) hx)

/-- Terminating an `end_of_node`-free non-empty list yields a
well-terminated group. -/
theorem EONOnlyAtEnd_setEndOfNodeLast {l : List Node} (hne : l ≠ [])
    (hall : ∀ e ∈ l, e.isEndOfNode = false) :
    EONOnlyAtEnd (setEndOfNodeLast l) := by
  obtain ⟨l', e, rfl⟩ : ∃ l' e, l = l' ++ [e] := by
    refine ⟨l.dropLast, l.getLast hne, ?_⟩
    rw [List.dropLast_concat_getLast hne]
  rw [setEndOfNodeLast_append]
  exact EONOnlyAtEnd_append_single l' _
    (fun a ha => hall a (by simp [ha])) (setEndOfNode_isEndOfNode e)

/-! ### Unfolding `groupWords` along a stored group -/

theorem prefix_drop_lt {e : Node} {l' dawg : List Node} {g : Nat}
    (h : (e :: l') <+: dawg.drop g) : g < dawg.length := by
  by_contra hc
  rw [List.drop_eq_nil_of_le (by omega)] at h
  exact List.cons_ne_nil e l' (List.prefix_nil.mp h)

theorem prefix_drop_get {e : Node} {l' dawg : List Node} {g : Nat}
    (h : (e :: l') <+: dawg.drop g) (hg : g < dawg.length) :
    dawg.get ⟨g, hg⟩ = e := by
  obtain ⟨t, ht⟩ := h
  have h0 : (dawg.drop g).get ⟨0, by rw [← ht]; simp⟩ = e := by
    simp [← ht]
  rw [← h0]
  simp [List.get_eq_getElem, List.getElem_drop]

theorem prefix_drop_succ {e : Node} {l' dawg : List Node} {g : Nat}
    (h : (e :: l') <+: dawg.drop g) : l' <+: dawg.drop (g + 1) := by
  obtain ⟨t, ht⟩ := h
  refine ⟨t, ?_⟩
  have : dawg.drop (g + 1) = (dawg.drop g).drop 1 := by
    rw [List.drop_drop]
  rw [this, ← ht]
  rfl

theorem closedWords_append (dawg : List Node) (cf : Nat) (l1 l2 : List Node) :
    closedWords dawg cf (l1 ++ l2) =
      closedWords dawg cf l1 ++ closedWords dawg cf l2 := by
  simp [closedWords]

/-- The central unfolding lemma: the denotation of a group stored at `g`
is the denotation of its edge list. -/
theorem groupWords_slice (dawg : List Node) :
    ∀ (l : List Node) (g F : Nat), EONOnlyAtEnd l → l <+: dawg.drop g →
      groupWords dawg (F + 1) g = closedWords dawg F l := by
  intro l
  induction l with
  | nil => intro g F h _; exact absurd rfl h.1
  | cons e l' ih =>
    intro g F h hpre
    have hg : g < dawg.length := prefix_drop_lt hpre
    have hget : dawg.get ⟨g, hg⟩ = e := prefix_drop_get hpre hg
    rw [groupWords, dif_pos hg]
    dsimp only
    rw [hget]
    rcases EONOnlyAtEnd_cons h with ⟨rfl, heon⟩ | ⟨hne, heon, hwf'⟩
    · rw [heon]
      simp [closedWords, edgeWords]
    · rw [heon]
      simp only [Bool.false_eq_true, if_false]
      rw [ih (g + 1) F hwf' (prefix_drop_succ hpre)]
      simp [closedWords, edgeWords, List.append_assoc]

/-! ### Stability of the denotation across arenas and fuel -/

theorem commitStart_pos (cs : List (List Node)) (j : Nat) : 0 < commitStart cs j := by
  unfold commitStart MAX_CHARS
  omega

/-- Appending a commit does not move the starts of existing commits. -/
theorem commitStart_append (cs : List (List Node)) (A : List Node) {j : Nat}
    (hj : j ≤ cs.length) : commitStart (cs ++ [A]) j = commitStart cs j := by
  unfold commitStart
  rw [List.take_append_of_le_length hj]

/-- An edge pointing below `j` also points below any larger bound. -/
theorem OffOkLt_mono {cs : List (List Node)} {j k : Nat} {e : Node}
    (h : OffOkLt cs j e) (hjk : j ≤ k) : OffOkLt cs k e := by
  rcases h with h0 | ⟨j', hj', he⟩
  · exact Or.inl h0
  · exact Or.inr ⟨j', by omega, he⟩

/-- `OffOk` is preserved when the commit list grows. -/
theorem OffOk_append {cs : List (List Node)} {A : List Node} {e : Node}
    (h : OffOk cs e) : OffOk (cs ++ [A]) e := by
  rcases h with h0 | ⟨j', hj', he⟩
  · exact Or.inl h0
  · refine Or.inr ⟨j', by simp; omega, ?_⟩
    rw [commitStart_append cs A (le_of_lt hj')]
    exact he

/-- Master stability lemma: the denotation of a commit's group is the
same in any two arenas containing the commits, at any two sufficient
fuels. -/
theorem groupWords_master (cs : List (List Node)) (hwf : OffWF cs)
    (dawg1 dawg2 : List Node) (hc1 : Contains dawg1 cs) (hc2 : Contains dawg2 cs) :
    ∀ j, ∀ hj : j < cs.length, ∀ F1 F2, j < F1 → j < F2 →
      groupWords dawg1 F1 (commitStart cs j) =
        groupWords dawg2 F2 (commitStart cs j) := by
  intro j
  induction j using Nat.strong_induction_on with
  | _ j ihj =>
    intro hj F1 F2 hF1 hF2
    obtain ⟨F1', rfl⟩ : ∃ F, F1 = F + 1 := ⟨F1 - 1, by omega⟩
    obtain ⟨F2', rfl⟩ : ∃ F, F2 = F + 1 := ⟨F2 - 1, by omega⟩
    obtain ⟨heon, hoff⟩ := hwf j hj
    rw [groupWords_slice dawg1 _ _ F1' heon (hc1 j hj),
        groupWords_slice dawg2 _ _ F2' heon (hc2 j hj)]
    have hstep : ∀ j', j' < j → ∀ G1 G2, j' < G1 → j' < G2 →
        groupWords dawg1 G1 (commitStart cs j') =
          groupWords dawg2 G2 (commitStart cs j') := by
      intro j' hj' G1 G2 hG1 hG2
      exact ihj j' hj' (by omega) G1 G2 hG1 hG2
    revert hoff
    generalize cs.get ⟨j, hj⟩ = l
    intro hoff
    induction l with
    | nil => rfl
    | cons e t iht =>
      rw [show (e :: t) = [e] ++ t from rfl, closedWords_append, closedWords_append,
        iht (fun x hx => hoff x (by simp [hx]))]
      congr 1
      rcases hoff e (by simp) with h0 | ⟨j', hj', he⟩
      · simp [closedWords, edgeWords, h0]
      · have hne : e.getOffset ≠ 0 := by
          rw [he]
          omega
        have hcs : e.getOffset - 1 = commitStart cs j' := by
          rw [he]
          omega
        simp only [closedWords, List.flatMap_cons, List.flatMap_nil,
          List.append_nil, edgeWords, if_pos hne, hcs]
        rw [hstep j' hj' F1' F2' (by omega) (by omega)]

/-- Per-edge form of the master lemma. -/
theorem edgeWords_master (cs : List (List Node)) (hwf : OffWF cs)
    (dawg1 dawg2 : List Node) (hc1 : Contains dawg1 cs) (hc2 : Contains dawg2 cs)
    (e : Node) (he : OffOk cs e) (F1 F2 : Nat)
    (h1 : cs.length ≤ F1) (h2 : cs.length ≤ F2) :
    edgeWords dawg1 F1 e = edgeWords dawg2 F2 e := by
  rcases he with h0 | ⟨j', hj', hoffj⟩
  · simp [edgeWords, h0]
  · have hne : e.getOffset ≠ 0 := by
      rw [hoffj]
      omega
    have hcs : e.getOffset - 1 = commitStart cs j' := by
      rw [hoffj]
      omega
    simp only [edgeWords, if_pos hne, hcs]
    rw [groupWords_master cs hwf dawg1 dawg2 hc1 hc2 j' hj' F1 F2 (by omega) (by omega)]

/-- Master lemma for closed edge lists. -/
theorem closedWords_master (cs : List (List Node)) (hwf : OffWF cs)
    (dawg1 dawg2 : List Node) (hc1 : Contains dawg1 cs) (hc2 : Contains dawg2 cs)
    (l : List Node) (hoff : ∀ e ∈ l, OffOk cs e) (F1 F2 : Nat)
    (h1 : cs.length ≤ F1) (h2 : cs.length ≤ F2) :
    closedWords dawg1 F1 l = closedWords dawg2 F2 l := by
  induction l with
  | nil => rfl
  | cons e t iht =>
    rw [show (e :: t) = [e] ++ t from rfl, closedWords_append, closedWords_append,
      iht (fun x hx => hoff x (by simp [hx]))]
    congr 1
    simp only [closedWords, List.flatMap_cons, List.flatMap_nil, List.append_nil]
    exact edgeWords_master cs hwf dawg1 dawg2 hc1 hc2 e (hoff e (by simp)) F1 F2 h1 h2

/-- Master lemma for one wrapped level. -/
theorem wrapLevel_master (cs : List (List Node)) (hwf : OffWF cs)
    (dawg1 dawg2 : List Node) (hc1 : Contains dawg1 cs) (hc2 : Contains dawg2 cs)
    (l : List Node) (hoff : ∀ e ∈ l, OffOk cs e) (inner : List (List Nat))
    (F1 F2 : Nat) (h1 : cs.length ≤ F1) (h2 : cs.length ≤ F2) :
    wrapLevel dawg1 F1 l inner = wrapLevel dawg2 F2 l inner := by
  unfold wrapLevel
  cases hl : l.getLast? with
  | none => rfl
  | some e =>
    rw [closedWords_master cs hwf dawg1 dawg2 hc1 hc2 l.dropLast
      (fun x hx => hoff x (List.dropLast_sublist l |>.mem hx)) F1 F2 h1 h2]

/-- Master lemma for the whole stack denotation. -/
theorem stackDen_master (cs : List (List Node)) (hwf : OffWF cs)
    (dawg1 dawg2 : List Node) (hc1 : Contains dawg1 cs) (hc2 : Contains dawg2 cs) :
    ∀ (ts : List (List Node)), (∀ l ∈ ts, ∀ e ∈ l, OffOk cs e) →
      ∀ (F1 F2 : Nat), cs.length ≤ F1 → cs.length ≤ F2 →
      stackDen dawg1 F1 ts = stackDen dawg2 F2 ts := by
  have hfold : ∀ (rest : List (List Node)) (inn1 inn2 : List (List Nat)),
      inn1 = inn2 → (∀ l ∈ rest, ∀ e ∈ l, OffOk cs e) →
      ∀ (F1 F2 : Nat), cs.length ≤ F1 → cs.length ≤ F2 →
      rest.foldl (fun inner l => wrapLevel dawg1 F1 l inner) inn1 =
        rest.foldl (fun inner l => wrapLevel dawg2 F2 l inner) inn2 := by
    intro rest
    induction rest with
    | nil => intro inn1 inn2 h _ _ _ _ _; exact h
    | cons l ls ih =>
      intro inn1 inn2 h hoff F1 F2 h1 h2
      show ls.foldl _ (wrapLevel dawg1 F1 l inn1) = ls.foldl _ (wrapLevel dawg2 F2 l inn2)
      refine ih _ _ ?_ (fun x hx => hoff x (by simp [hx])) F1 F2 h1 h2
      rw [h]
      exact wrapLevel_master cs hwf dawg1 dawg2 hc1 hc2 l
        (hoff l (by simp)) inn2 F1 F2 h1 h2
  intro ts hoff F1 F2 h1 h2
  cases ts with
  | nil => rfl
  | cons top rest =>
    show rest.foldl _ (closedWords dawg1 F1 top) = rest.foldl _ (closedWords dawg2 F2 top)
    exact hfold rest _ _
      (closedWords_master cs hwf dawg1 dawg2 hc1 hc2 top
        (hoff top (by simp)) F1 F2 h1 h2)
      (fun x hx => hoff x (by simp [hx])) F1 F2 h1 h2

/-! ### The commit lemma: what `insertEdges` does to a built arena -/

/-- A built arena contains its commits. -/
theorem built_contains {d : DawgState} {cs : List (List Node)} (hb : Built d cs) :
    Contains d.dawg cs := by
  intro j hj
  rw [hb.1]
  have hsplit : cs = cs.take j ++ cs.drop j := (List.take_append_drop j cs).symm
  have hflat : cs.flatten = (cs.take j).flatten ++ (cs.drop j).flatten := by
    conv_lhs => rw [hsplit]
    rw [List.flatten_append]
  rw [hflat]
  unfold commitStart
  rw [show List.replicate MAX_CHARS (⟨0⟩ : Node) ++
      ((cs.take j).flatten ++ (cs.drop j).flatten) =
      (List.replicate MAX_CHARS (⟨0⟩ : Node) ++ (cs.take j).flatten) ++
      (cs.drop j).flatten from by rw [List.append_assoc]]
  rw [List.drop_left' (by simp only [List.length_append, List.length_replicate])]
  have hdropj : cs.drop j = cs.get ⟨j, hj⟩ :: cs.drop (j + 1) := by
    rw [List.drop_eq_getElem_cons hj]
    rfl
  rw [hdropj]
  show cs.get ⟨j, hj⟩ <+: cs.get ⟨j, hj⟩ ++ (cs.drop (j + 1)).flatten
  exact List.prefix_append _ _

/-- The arena length of a built state is where the next commit starts. -/
theorem built_length {d : DawgState} {cs : List (List Node)} (hb : Built d cs) :
    d.dawg.length = commitStart cs cs.length := by
  rw [hb.1]
  unfold commitStart
  simp

/-- The commit lemma: a successful `insertEdges` of a well-terminated
list whose children are commits yields a built state again, and the
returned offset is one plus the start of a commit holding exactly the
inserted list. -/
theorem insert_commit {d : DawgState} {cs : List (List Node)} {A : List Node}
    (hb : Built d cs) (hht : HTBuilt d cs) (hA : EONOnlyAtEnd A)
    (hAoff : ∀ e ∈ A, OffOk cs e)
    {d' : DawgState} {off : Nat} (h : Dawg.insertEdges d A = .ok (d', off)) :
    ∃ cs', Built d' cs' ∧ HTBuilt d' cs' ∧ (cs' = cs ∨ cs' = cs ++ [A]) ∧
      ∃ j, ∃ hj : j < cs'.length, off = commitStart cs' j + 1 ∧
        cs'.get ⟨j, hj⟩ = A := by
  rcases insertEdgesLoop_inv d A _ _ _ _ _ _ h with
    ⟨s, hs0, hd', hoff⟩ | ⟨hd', s, hv, heq, hoff⟩
  · refine ⟨cs ++ [A], ?_, ?_, Or.inr rfl, cs.length, by simp, ?_, ?_⟩
    · constructor
      · rw [hd']
        show d.dawg ++ A = _
        rw [hb.1]
        simp [List.append_assoc]
      · intro j hj
        rcases Nat.lt_or_ge j cs.length with hlt | hge
        · have hget : (cs ++ [A]).get ⟨j, hj⟩ = cs.get ⟨j, hlt⟩ := by
            simp [List.get_eq_getElem, List.getElem_append_left hlt]
          rw [hget]
          obtain ⟨he1, he2⟩ := hb.2 j hlt
          refine ⟨he1, fun e he => ?_⟩
          rcases he2 e he with h0 | ⟨j', hj', hoffj⟩
          · exact Or.inl h0
          · refine Or.inr ⟨j', hj', ?_⟩
            rw [commitStart_append cs A (by omega)]
            exact hoffj
        · have hj' : j = cs.length := by
            simp at hj
            omega
          subst hj'
          have hget : (cs ++ [A]).get ⟨cs.length, hj⟩ = A := by
            simp [List.get_eq_getElem]
          rw [hget]
          refine ⟨hA, fun e he => ?_⟩
          rcases hAoff e he with h0 | ⟨j', hj', hoffj⟩
          · exact Or.inl h0
          · refine Or.inr ⟨j', hj', ?_⟩
            rw [commitStart_append cs A (by omega)]
            exact hoffj
    · intro t ht
      rw [hd'] at ht ⊢
      dsimp only at ht ⊢
      by_cases hts : t = s
      · subst hts
        rw [Function.update_same] at ht ⊢
        refine ⟨cs.length, by simp, ?_⟩
        rw [commitStart_append cs A (le_refl _), ← built_length hb]
      · rw [Function.update_noteq hts] at ht ⊢
        obtain ⟨j, hj, hjs⟩ := hht t ht
        refine ⟨j, by simp; omega, ?_⟩
        rw [commitStart_append cs A (by omega)]
        exact hjs
    · rw [hoff, commitStart_append cs A (le_refl _), ← built_length hb]
    · simp [List.get_eq_getElem]
  · subst hd'
    obtain ⟨j, hj, hjs⟩ := hht s hv
    rw [edgesEqualAt_iff, hjs] at heq
    have hcj := built_contains hb j hj
    have hAeq : A = cs.get ⟨j, hj⟩ := by
      rcases List.prefix_or_prefix_of_prefix heq hcj with hab | hba
      · exact EON_prefix_eq hA (hb.2 j hj).1 hab
      · exact (EON_prefix_eq (hb.2 j hj).1 hA hba).symm
    exact ⟨cs, hb, hht, Or.inl rfl, j, hj, by rw [hoff, hjs], hAeq.symm⟩

/-! ### Stack levels: well-formedness of the builder's edge-list stack -/

/-- The letter of the last edge of a level (`0` for an empty level). -/
def lastChar (l : List Node) : Nat := ((l.map Node.getChar).getLast?).getD 0

/-- The letters of the last edges of all levels below the top, from the
root level up: the spine of the word currently held on the stack. -/
def spineChars (ls : List (List Node)) : List Nat :=
  (ls.tail.map lastChar).reverse

/-- A stack edge during building: `end_of_node` still clear, child
pointer absent or pointing at a commit, value within 32 bits. -/
def EdgeOk (cs : List (List Node)) (e : Node) : Prop :=
  e.isEndOfNode = false ∧ OffOk cs e ∧ e.value < 2 ^ 32

/-- Well-formedness of the builder's level stack (head is the deepest
level): every edge is a valid stack edge, the letters of each level are
strictly increasing, and every level below the top is non-empty with a
clear child pointer on its last edge. -/
def LevelsWF (cs : List (List Node)) (ls : List (List Node)) : Prop :=
  (∀ l ∈ ls, (∀ e ∈ l, EdgeOk cs e) ∧
    List.Chain' (fun a b => a < b) (l.map Node.getChar)) ∧
  (∀ l ∈ ls.tail, ∃ t e, l = t ++ [e] ∧ e.getOffset = 0)

/-- All committed edges have 32-bit values. -/
def ValBound (cs : List (List Node)) : Prop :=
  ∀ A ∈ cs, ∀ e ∈ A, e.value < 2 ^ 32

theorem make_value_lt (c : Nat) (b : Bool) : (Node.make c b).value < 2 ^ 32 := by
  show ((c % 256) <<< Node.letter_shift ||| (if b then Node.end_of_word else 0))
    < 2 ^ 32
  apply Nat.or_lt_two_pow
  · rw [Node.letter_shift, Nat.shiftLeft_eq]
    have hm : c % 256 ≤ 255 := by omega
    calc c % 256 * 2 ^ 24 ≤ 255 * 2 ^ 24 := Nat.mul_le_mul_right _ hm
      _ < 2 ^ 32 := by norm_num
  · cases b <;> simp [Node.end_of_word] <;> norm_num

theorem setEndOfNode_value_lt {n : Node} (h : n.value < 2 ^ 32) :
    n.setEndOfNode.value < 2 ^ 32 := by
  show n.value ||| Node.end_of_node < 2 ^ 32
  exact Nat.or_lt_two_pow h (by norm_num [Node.end_of_node])

theorem setChildOffset_value_lt {n : Node} (v : Nat) (h : n.value < 2 ^ 32) :
    (n.setChildOffset v).value < 2 ^ 32 := by
  show n.value ||| (v % 4294967296 &&& Node.offset_mask) < 2 ^ 32
  apply Nat.or_lt_two_pow h
  calc v % 4294967296 &&& Node.offset_mask ≤ Node.offset_mask := Nat.and_le_right
    _ < 2 ^ 32 := by norm_num [Node.offset_mask]

theorem lastChar_concat (t : List Node) (e : Node) :
    lastChar (t ++ [e]) = e.getChar := by
  unfold lastChar
  rw [List.map_append, List.map_singleton, List.getLast?_concat]
  rfl

theorem setChildOffsetLast_map_getChar (off : Nat) : ∀ l : List Node,
    (setChildOffsetLast off l).map Node.getChar = l.map Node.getChar := by
  intro l
  induction l with
  | nil => rfl
  | cons a t ih =>
    cases t with
    | nil => simp [setChildOffsetLast, setChildOffset_getChar]
    | cons b t' =>
      show Node.getChar a :: _ = Node.getChar a :: _
      rw [ih]

theorem setEndOfNodeLast_map_getChar : ∀ l : List Node,
    (setEndOfNodeLast l).map Node.getChar = l.map Node.getChar := by
  intro l
  induction l with
  | nil => rfl
  | cons a t ih =>
    cases t with
    | nil => simp [setEndOfNodeLast, setEndOfNode_getChar]
    | cons b t' =>
      show Node.getChar a :: _ = Node.getChar a :: _
      rw [ih]

/-- A strictly increasing list of values below 256 has at most 256
entries. -/
theorem chain_lt_length_le (l : List Nat) (hc : List.Chain' (fun a b => a < b) l)
    (hb : ∀ x ∈ l, x < 256) : l.length ≤ 256 := by
  have hpw : List.Pairwise (fun a b => a < b) l :=
    List.chain'_iff_pairwise.mp hc
  have hnd : l.Nodup := hpw.imp Nat.ne_of_lt
  have hsub : l.toFinset ⊆ Finset.range 256 := by
    intro x hx
    exact Finset.mem_range.mpr (hb x (List.mem_toFinset.mp hx))
  calc l.length = l.toFinset.card := (List.toFinset_card_of_nodup hnd).symm
    _ ≤ (Finset.range 256).card := Finset.card_le_card hsub
    _ = 256 := Finset.card_range 256

/-! ### Denotation helpers for the unwind step -/

theorem edgeWords_setEndOfNode (D : List Node) (F : Nat) (e : Node) :
    edgeWords D F e.setEndOfNode = edgeWords D F e := by
  unfold edgeWords
  rw [setEndOfNode_isEndOfWord, setEndOfNode_getChar, setEndOfNode_getOffset]

theorem closedWords_concat (D : List Node) (F : Nat) (t : List Node) (e : Node) :
    closedWords D F (t ++ [e]) = closedWords D F t ++ edgeWords D F e := by
  rw [closedWords_append]
  simp [closedWords]

theorem closedWords_setEndOfNodeLast (D : List Node) (F : Nat) (l : List Node) :
    closedWords D F (setEndOfNodeLast l) = closedWords D F l := by
  rcases List.eq_nil_or_concat l with rfl | ⟨t, e, rfl⟩
  · rfl
  · rw [List.concat_eq_append, setEndOfNodeLast_append, closedWords_concat,
      closedWords_concat, edgeWords_setEndOfNode]

theorem wrapLevel_concat (D : List Node) (F : Nat) (t : List Node) (e : Node)
    (inner : List (List Nat)) :
    wrapLevel D F (t ++ [e]) inner =
      closedWords D F t ++
        ((if e.isEndOfWord then [[e.getChar]] else []) ++
          inner.map (fun w => e.getChar :: w)) := by
  unfold wrapLevel
  rw [List.getLast?_concat, List.dropLast_concat]

theorem edgeWords_offset_zero (D : List Node) (F : Nat) {e : Node}
    (h : e.getOffset = 0) :
    edgeWords D F e = if e.isEndOfWord then [[e.getChar]] else [] := by
  unfold edgeWords
  simp [h]

/-- Fuel- and arena-stability of `closedWords` for edge lists whose
children lie strictly below commit `j` (refines `closedWords_master`). -/
theorem closedWords_bounded (cs : List (List Node)) (hwf : OffWF cs)
    (dawg1 dawg2 : List Node) (hc1 : Contains dawg1 cs) (hc2 : Contains dawg2 cs)
    (l : List Node) (j : Nat) (hoff : ∀ e ∈ l, OffOkLt cs j e)
    (hj : j ≤ cs.length) (F1 F2 : Nat) (h1 : j ≤ F1) (h2 : j ≤ F2) :
    closedWords dawg1 F1 l = closedWords dawg2 F2 l := by
  induction l with
  | nil => rfl
  | cons e t iht =>
    rw [show (e :: t) = [e] ++ t from rfl, closedWords_append, closedWords_append,
      iht (fun x hx => hoff x (by simp [hx]))]
    congr 1
    rcases hoff e (by simp) with h0 | ⟨j', hj', he⟩
    · simp [closedWords, edgeWords, h0]
    · have hne : e.getOffset ≠ 0 := by
        rw [he]
        omega
      have hcs : e.getOffset - 1 = commitStart cs j' := by
        rw [he]
        omega
      simp only [closedWords, List.flatMap_cons, List.flatMap_nil,
        List.append_nil, edgeWords, if_pos hne, hcs]
      rw [groupWords_master cs hwf dawg1 dawg2 hc1 hc2 j' (by omega) F1 F2
        (by omega) (by omega)]

/-! ### Transfers along one appended commit -/

theorem OffOk_of_ext {cs cs' : List (List Node)}
    (h : cs' = cs ∨ ∃ A, cs' = cs ++ [A]) {e : Node} (he : OffOk cs e) :
    OffOk cs' e := by
  rcases h with rfl | ⟨A, rfl⟩
  · exact he
  · exact OffOk_append he

theorem Contains_drop_commit {D : List Node} {cs : List (List Node)}
    {A : List Node} (h : Contains D (cs ++ [A])) : Contains D cs := by
  intro j hj
  have hj' : j < (cs ++ [A]).length := by
    simp only [List.length_append, List.length_singleton]
    omega
  have hc := h j hj'
  rw [commitStart_append cs A (le_of_lt hj)] at hc
  have hget : (cs ++ [A]).get ⟨j, hj'⟩ = cs.get ⟨j, hj⟩ := by
    simp [List.get_eq_getElem, List.getElem_append_left hj]
  rwa [hget] at hc

theorem Contains_of_ext {D : List Node} {cs cs' : List (List Node)}
    (hext : cs' = cs ∨ ∃ A, cs' = cs ++ [A]) (h : Contains D cs') :
    Contains D cs := by
  rcases hext with rfl | ⟨A, rfl⟩
  · exact h
  · exact Contains_drop_commit h

/-- The start of a non-empty commit lies strictly inside the arena. -/
theorem commitStart_lt_length {D : List Node} {cs : List (List Node)}
    (hc : Contains D cs) {j : Nat} (hj : j < cs.length)
    (hne : cs.get ⟨j, hj⟩ ≠ []) : commitStart cs j < D.length := by
  have hpre := hc j hj
  rcases hget : cs.get ⟨j, hj⟩ with _ | ⟨e, t⟩
  · exact absurd hget hne
  · rw [hget] at hpre
    exact prefix_drop_lt hpre

/-! ### Soundness of one unwind step -/

/-- Arena growth across one unwind step. -/
theorem unwindOne_mono {d : DawgState} {ls : List (List Node)}
    {d1 : DawgState} {ls1 : List (List Node)}
    (h : unwindOne d ls = .ok (d1, ls1)) :
    d.dawg.length ≤ d1.dawg.length := by
  match ls with
  | [] => exact Except.noConfusion h
  | ready :: rest =>
    simp only [unwindOne] at h
    by_cases hre : ready.isEmpty
    · rw [if_pos hre] at h
      obtain ⟨h1, _⟩ := Prod.mk.inj (Except.ok.inj h)
      rw [← h1]
    · rw [if_neg hre] at h
      cases hi : Dawg.insertEdges d (setEndOfNodeLast ready) with
      | error e => rw [hi] at h; exact Except.noConfusion h
      | ok r =>
        obtain ⟨d', off⟩ := r
        rw [hi] at h
        dsimp only at h
        rcases insertEdgesLoop_inv d _ _ _ _ _ _ _ hi with
          ⟨s, _, hd', _⟩ | ⟨hd', _⟩
        · have hlen : d.dawg.length ≤ d'.dawg.length := by
            rw [hd']
            simp
          match rest with
          | [] => exact Except.noConfusion h
          | parent :: rs =>
            dsimp only at h
            by_cases hp : parent.isEmpty
            · rw [if_pos hp] at h
              exact Except.noConfusion h
            · rw [if_neg hp] at h
              obtain ⟨h1, _⟩ := Prod.mk.inj (Except.ok.inj h)
              rw [← h1]
              exact hlen
        · match rest with
          | [] => exact Except.noConfusion h
          | parent :: rs =>
            dsimp only at h
            by_cases hp : parent.isEmpty
            · rw [if_pos hp] at h
              exact Except.noConfusion h
            · rw [if_neg hp] at h
              obtain ⟨h1, _⟩ := Prod.mk.inj (Except.ok.inj h)
              rw [← h1, hd']

/-- Arena growth across the unwind loop. -/
theorem unwind_mono : ∀ (n : Nat) (d : DawgState) (ls : List (List Node))
    (d2 : DawgState) (ls2 : List (List Node)),
    unwind d ls n = .ok (d2, ls2) → d.dawg.length ≤ d2.dawg.length := by
  intro n
  induction n with
  | zero =>
    intro d ls d2 ls2 h
    obtain ⟨h1, _⟩ := Prod.mk.inj (Except.ok.inj h)
    rw [← h1]
  | succ n ih =>
    intro d ls d2 ls2 h
    simp only [unwind] at h
    cases hu : unwindOne d ls with
    | error e => rw [hu] at h; exact Except.noConfusion h
    | ok r =>
      obtain ⟨d1, ls1⟩ := r
      rw [hu] at h
      exact le_trans (unwindOne_mono hu) (ih d1 ls1 d2 ls2 h)

/-- Soundness of one unwind step: the state stays built, the commit list
grows by at most the interned group, the stack stays well-formed, only
the parent's last edge is touched, and the stack denotation is
preserved. -/
theorem unwindOne_sound {d : DawgState} {cs : List (List Node)}
    {ready parent : List Node} {rs : List (List Node)}
    {d1 : DawgState} {ls1 : List (List Node)}
    (hb : Built d cs) (hht : HTBuilt d cs) (hv : ValBound cs)
    (hwf : LevelsWF cs (ready :: parent :: rs))
    (h : unwindOne d (ready :: parent :: rs) = .ok (d1, ls1))
    (hbound : d1.dawg.length < 2 ^ 21) :
    ∃ cs', (cs' = cs ∨ ∃ A, cs' = cs ++ [A]) ∧
      Built d1 cs' ∧ HTBuilt d1 cs' ∧ ValBound cs' ∧
      LevelsWF cs' ls1 ∧
      (ls1 = parent :: rs ∨ ∃ off, ls1 = setChildOffsetLast off parent :: rs) ∧
      stackDen d1.dawg cs'.length ls1 =
        stackDen d.dawg cs.length (ready :: parent :: rs) := by
  obtain ⟨hlev, htail⟩ := hwf
  obtain ⟨pt, pe, hpdec, hpe0⟩ := htail parent (by simp)
  simp only [unwindOne] at h
  by_cases hre : ready.isEmpty
  · have hrnil : ready = [] := by
      cases ready with
      | nil => rfl
      | cons a t => simp [List.isEmpty] at hre
    rw [if_pos hre] at h
    obtain ⟨h1, h2⟩ := Prod.mk.inj (Except.ok.inj h)
    subst h1
    subst h2
    subst hrnil
    refine ⟨cs, Or.inl rfl, hb, hht, hv, ?_, Or.inl rfl, ?_⟩
    · exact ⟨fun l hl => hlev l (by simp [hl]),
        fun l hl => htail l (by simp at hl ⊢; exact Or.inr hl)⟩
    · simp only [stackDen]
      rw [List.foldl_cons]
      congr 1
      rw [hpdec, wrapLevel_concat, closedWords_concat,
        edgeWords_offset_zero _ _ hpe0]
      simp [closedWords]
  · have hrne : ready ≠ [] := by
      intro hc
      subst hc
      exact hre rfl
    rw [if_neg hre] at h
    cases hi : Dawg.insertEdges d (setEndOfNodeLast ready) with
    | error e => rw [hi] at h; exact Except.noConfusion h
    | ok r =>
      obtain ⟨d', off⟩ := r
      rw [hi] at h
      dsimp only at h
      have hpne : parent.isEmpty = false := by
        rw [hpdec]
        cases pt <;> rfl
      rw [if_neg (by simp [hpne])] at h
      obtain ⟨h1, h2⟩ := Prod.mk.inj (Except.ok.inj h)
      subst h1
      subst h2
      have hreadyok : ∀ e ∈ ready, EdgeOk cs e :=
        fun e he => (hlev ready (by simp)).1 e he
      have hA : EONOnlyAtEnd (setEndOfNodeLast ready) :=
        EONOnlyAtEnd_setEndOfNodeLast hrne (fun e he => (hreadyok e he).1)
      obtain ⟨rt, re, hrdec⟩ : ∃ rt re, ready = rt ++ [re] := by
        rcases List.eq_nil_or_concat ready with hc | ⟨rt, re, hc⟩
        · exact absurd hc hrne
        · exact ⟨rt, re, by rw [hc, List.concat_eq_append]⟩
      have hmemA : ∀ e ∈ setEndOfNodeLast ready,
          e = re.setEndOfNode ∨ e ∈ ready := by
        intro e he
        rw [hrdec, setEndOfNodeLast_append] at he
        rcases List.mem_append.mp he with h' | h'
        · exact Or.inr (by rw [hrdec]; exact List.mem_append_left _ h')
        · exact Or.inl (List.mem_singleton.mp h')
      have hreok : EdgeOk cs re := hreadyok re (by rw [hrdec]; simp)
      have hAoff : ∀ e ∈ setEndOfNodeLast ready, OffOk cs e := by
        intro e he
        rcases hmemA e he with rfl | h'
        · show OffOkLt cs cs.length re.setEndOfNode
          unfold OffOkLt
          rw [setEndOfNode_getOffset]
          exact hreok.2.1
        · exact (hreadyok e h').2.1
      obtain ⟨cs', hb', hht', hext, jA, hjA, hoffA, hgetA⟩ :=
        insert_commit hb hht hA hAoff hi
      have hext' : cs' = cs ∨ ∃ B, cs' = cs ++ [B] :=
        hext.imp id (fun h' => ⟨_, h'⟩)
      have hlenle : cs.length ≤ cs'.length := by
        rcases hext with rfl | rfl
        · exact le_refl _
        · simp
      have hAne : setEndOfNodeLast ready ≠ [] := hA.1
      have hcont' : Contains d'.dawg cs' := built_contains hb'
      have hcontcs : Contains d'.dawg cs := Contains_of_ext hext' hcont'
      have hcsstart : commitStart cs' jA < d'.dawg.length :=
        commitStart_lt_length hcont' hjA (by rw [hgetA]; exact hAne)
      have hoffsmall : off < 2 ^ 21 := by omega
      have hoffne : off ≠ 0 := by
        rw [hoffA]
        omega
      have hv' : ValBound cs' := by
        rcases hext with rfl | rfl
        · exact hv
        · intro B hB e he
          rcases List.mem_append.mp hB with h' | h'
          · exact hv B h' e he
          · rcases List.mem_singleton.mp h' with rfl
            rcases hmemA e he with rfl | h2
            · exact setEndOfNode_value_lt hreok.2.2
            · exact (hreadyok e h2).2.2
      have hlev' : ∀ l ∈ (setChildOffsetLast off parent :: rs),
          (∀ e ∈ l, EdgeOk cs' e) ∧
          List.Chain' (fun a b => a < b) (l.map Node.getChar) := by
        intro l hl
        rcases List.mem_cons.mp hl with rfl | hl'
        · constructor
          · intro e he
            rw [hpdec, setChildOffsetLast_append] at he
            rcases List.mem_append.mp he with h' | h'
            · have := (hlev parent (by simp)).1 e
                (by rw [hpdec]; exact List.mem_append_left _ h')
              exact ⟨this.1, OffOk_of_ext hext' this.2.1, this.2.2⟩
            · rcases List.mem_singleton.mp h' with rfl
              have hpeok : EdgeOk cs pe :=
                (hlev parent (by simp)).1 pe (by rw [hpdec]; simp)
              refine ⟨?_, ?_, setChildOffset_value_lt off hpeok.2.2⟩
              · rw [setChildOffset_isEndOfNode]
                exact hpeok.1
              · show OffOkLt cs' cs'.length (pe.setChildOffset off)
                refine Or.inr ⟨jA, hjA, ?_⟩
                rw [setChildOffset_getOffset_small pe off hpe0 hoffsmall,
                  hoffA]
          · rw [setChildOffsetLast_map_getChar]
            exact (hlev parent (by simp)).2
        · have := hlev l (by simp [hl'])
          exact ⟨fun e he => ⟨(this.1 e he).1,
            OffOk_of_ext hext' (this.1 e he).2.1, (this.1 e he).2.2⟩, this.2⟩
      have htail' : ∀ l ∈ (setChildOffsetLast off parent :: rs).tail,
          ∃ t e, l = t ++ [e] ∧ e.getOffset = 0 := by
        intro l hl
        exact htail l (by simp at hl ⊢; exact Or.inr hl)
      refine ⟨cs', hext', hb', hht', hv', ⟨hlev', htail'⟩,
        Or.inr ⟨off, rfl⟩, ?_⟩
      have hstep1 : stackDen d.dawg cs.length (ready :: parent :: rs) =
          stackDen d'.dawg cs'.length (ready :: parent :: rs) :=
        stackDen_master cs hb.2 d.dawg d'.dawg (built_contains hb) hcontcs
          _ (fun l hl e he => ((hlev l hl).1 e he).2.1) cs.length cs'.length
          (le_refl _) hlenle
      rw [hstep1]
      simp only [stackDen]
      rw [List.foldl_cons]
      congr 1
      rw [hpdec, setChildOffsetLast_append, closedWords_concat,
        wrapLevel_concat]
      congr 1
      have hgo : (pe.setChildOffset off).getOffset = off :=
        setChildOffset_getOffset_small pe off hpe0 hoffsmall
      unfold edgeWords
      rw [hgo, setChildOffset_isEndOfWord, setChildOffset_getChar,
        if_pos hoffne]
      congr 1
      have hoffm1 : off - 1 = commitStart cs' jA := by omega
      rw [hoffm1]
      have hAlt : ∀ e ∈ setEndOfNodeLast ready, OffOkLt cs' jA e := by
        have := (hb'.2 jA hjA).2
        rw [hgetA] at this
        exact this
      obtain ⟨F', hF'⟩ : ∃ F, cs'.length = F + 1 := ⟨cs'.length - 1, by omega⟩
      rw [hF']
      rw [groupWords_slice d'.dawg (setEndOfNodeLast ready) _ F' hA
        (by rw [← hgetA]; exact hcont' jA hjA)]
      rw [closedWords_bounded cs' hb'.2 d'.dawg d'.dawg hcont' hcont'
        (setEndOfNodeLast ready) jA hAlt (le_of_lt hjA) F' (F' + 1)
        (by omega) (by omega)]
      rw [closedWords_setEndOfNodeLast]

/-- Soundness of the unwind loop: `n` pops keep the state built and the
stack well-formed, remove the top `n` levels (the new top is the old
level `n` with at most its last edge's child pointer set), and preserve
the stack denotation. -/
theorem unwind_sound : ∀ (n : Nat) (d : DawgState) (cs : List (List Node))
    (ls : List (List Node)) (d2 : DawgState) (ls2 : List (List Node)),
    unwind d ls n = .ok (d2, ls2) →
    Built d cs → HTBuilt d cs → ValBound cs → LevelsWF cs ls →
    n < ls.length →
    d2.dawg.length < 2 ^ 21 →
    ∃ cs2, Built d2 cs2 ∧ HTBuilt d2 cs2 ∧ ValBound cs2 ∧
      cs.length ≤ cs2.length ∧
      LevelsWF cs2 ls2 ∧
      ls2.length + n = ls.length ∧
      (0 < n → ∃ l, ls2 = l :: ls.drop (n + 1) ∧
        ∃ hn : n < ls.length,
          l.map Node.getChar = (ls.get ⟨n, hn⟩).map Node.getChar) ∧
      (n = 0 → ls2 = ls) ∧
      stackDen d2.dawg cs2.length ls2 = stackDen d.dawg cs.length ls ∧
      d.dawg.length ≤ d2.dawg.length := by
  intro n
  induction n with
  | zero =>
    intro d cs ls d2 ls2 h hb hht hv hwf _ _
    obtain ⟨h1, h2⟩ := Prod.mk.inj (Except.ok.inj h)
    subst h1
    subst h2
    exact ⟨cs, hb, hht, hv, le_refl _, hwf, by simp,
      fun hc => absurd hc (by omega), fun _ => rfl, rfl, le_refl _⟩
  | succ n ih =>
    intro d cs ls d2 ls2 h hb hht hv hwf hn hbound
    simp only [unwind] at h
    cases hu : unwindOne d ls with
    | error e => rw [hu] at h; exact Except.noConfusion h
    | ok r =>
      obtain ⟨d1, ls1⟩ := r
      rw [hu] at h
      match ls, hn with
      | ready :: parent :: rs, hn =>
        have hd1bound : d1.dawg.length < 2 ^ 21 :=
          lt_of_le_of_lt (unwind_mono n d1 ls1 d2 ls2 h) hbound
        obtain ⟨cs1, hext1, hb1, hht1, hv1, hwf1, hstruct, hden1⟩ :=
          unwindOne_sound hb hht hv hwf hu hd1bound
        have hlen1 : cs.length ≤ cs1.length := by
          rcases hext1 with rfl | ⟨A, rfl⟩
          · exact le_refl _
          · simp
        have hls1len : ls1.length = rs.length + 1 := by
          rcases hstruct with rfl | ⟨off, rfl⟩ <;> simp
        have hnlt1 : n < ls1.length := by
          simp only [List.length_cons] at hn
          omega
        obtain ⟨cs2, hb2, hht2, hv2, hlen2, hwf2, hlslen, hhead, hzero,
          hden2, hmono2⟩ := ih d1 cs1 ls1 d2 ls2 h hb1 hht1 hv1 hwf1
            hnlt1 hbound
        refine ⟨cs2, hb2, hht2, hv2, le_trans hlen1 hlen2, hwf2, ?_, ?_,
          fun hc => absurd hc (by omega), hden2.trans hden1, ?_⟩
        · simp only [List.length_cons]
          omega
        · intro _
          cases n with
          | zero =>
            have hls2 : ls2 = ls1 := hzero rfl
            rcases hstruct with rfl | ⟨off, rfl⟩
            · exact ⟨parent, by rw [hls2]; rfl, hn, by simp⟩
            · exact ⟨setChildOffsetLast off parent, by rw [hls2]; rfl, hn,
                by rw [setChildOffsetLast_map_getChar]; simp⟩
          | succ m =>
            obtain ⟨l, hls2, hm1, hmap⟩ := hhead (by omega)
            refine ⟨l, ?_, hn, ?_⟩
            · rw [hls2]
              rcases hstruct with rfl | ⟨off, rfl⟩ <;> rfl
            · rw [hmap]
              rcases hstruct with rfl | ⟨off, rfl⟩ <;>
                simp [List.get_eq_getElem]
        · exact le_trans (unwindOne_mono hu) hmono2

/-! ### Soundness of the extend step -/

theorem foldl_cons_reverse (g : List Node → Nat) :
    ∀ (ls : List (List Node)) (w : List Nat),
      ls.foldl (fun w l => g l :: w) w = (ls.map g).reverse ++ w := by
  intro ls
  induction ls with
  | nil => intro w; rfl
  | cons l t ih =>
    intro w
    rw [List.foldl_cons, ih, List.map_cons, List.reverse_cons,
      List.append_assoc]
    rfl

/-- Wrapping a level distributes over a word appended to the inner
denotation. -/
theorem wrapLevel_append_inner (D : List Node) (F : Nat) {l : List Node}
    (hne : l ≠ []) (acc : List (List Nat)) (w : List Nat) :
    wrapLevel D F l (acc ++ [w]) =
      wrapLevel D F l acc ++ [lastChar l :: w] := by
  obtain ⟨t, e, rfl⟩ : ∃ t e, l = t ++ [e] := by
    rcases List.eq_nil_or_concat l with hc | ⟨t, e, hc⟩
    · exact absurd hc hne
    · exact ⟨t, e, by rw [hc, List.concat_eq_append]⟩
  rw [wrapLevel_concat, wrapLevel_concat, lastChar_concat, List.map_append]
  simp [List.append_assoc]

theorem foldl_wrap_concat (D : List Node) (F : Nat) :
    ∀ (ls : List (List Node)), (∀ l ∈ ls, l ≠ []) →
    ∀ (acc : List (List Nat)) (w : List Nat),
      ls.foldl (fun inner l => wrapLevel D F l inner) (acc ++ [w]) =
        ls.foldl (fun inner l => wrapLevel D F l inner) acc ++
          [ls.foldl (fun w l => lastChar l :: w) w] := by
  intro ls
  induction ls with
  | nil => intro _ acc w; rfl
  | cons l t ih =>
    intro hne acc w
    rw [List.foldl_cons, List.foldl_cons, List.foldl_cons,
      wrapLevel_append_inner D F (hne l (by simp)) acc w,
      ih (fun x hx => hne x (by simp [hx]))]

theorem edgeWords_make (D : List Node) (F : Nat) {c : Nat} (hc : c < 256)
    (b : Bool) :
    edgeWords D F (Node.make c b) = if b then [[c]] else [] := by
  unfold edgeWords
  rw [make_isEndOfWord, make_getChar c b hc, make_getOffset]
  simp

/-- The denotation after the extend loop: the new word — the spine of
the entry stack followed by the appended characters — is appended to the
stack denotation. -/
theorem extendFrom_den (D : List Node) (F : Nat) :
    ∀ (rest : List Nat) (top : List Node) (es : List (List Node))
      (idx total : Nat) (r : List (List Node) × Nat),
      extendFrom (top :: es) idx total rest = .ok r →
      rest ≠ [] → idx + rest.length = total →
      (∀ l ∈ es, l ≠ []) → (∀ c ∈ rest, c < 256) →
      stackDen D F r.1 =
        stackDen D F (top :: es) ++ [(es.map lastChar).reverse ++ rest] := by
  intro rest
  induction rest with
  | nil => intro top es idx total r _ hne; exact absurd rfl hne
  | cons c rest' ih =>
    intro top es idx total r h _ htotal hnes hbytes
    simp only [extendFrom] at h
    have hc : c < 256 := hbytes c (by simp)
    cases hrest' : rest' with
    | nil =>
      subst hrest'
      have htot : idx + 1 = total := by
        simp only [List.length_cons, List.length_nil] at htotal
        omega
      subst htot
      have hb : decide (idx + 1 = idx + 1) = true := by simp
      rw [hb] at h
      simp only [extendFrom] at h
      obtain ⟨h1, _⟩ := Prod.mk.inj (Except.ok.inj h)
      rw [← h1]
      simp only [stackDen]
      rw [List.foldl_cons]
      have hwrap : wrapLevel D F (top ++ [Node.make c true])
          (closedWords D F []) = closedWords D F top ++ [[c]] := by
        rw [wrapLevel_concat, make_isEndOfWord, make_getChar c true hc]
        simp [closedWords]
      rw [hwrap, foldl_wrap_concat D F es hnes, foldl_cons_reverse]
    | cons c2 r2 =>
      have hb : decide (idx + 1 = total) = false := by
        apply decide_eq_false
        subst hrest'
        simp only [List.length_cons] at htotal
        omega
      rw [hb] at h
      have htot' : (idx + 1) + rest'.length = total := by
        simp only [List.length_cons] at htotal
        omega
      have htop1 : (top ++ [Node.make c false]) ≠ [] := by simp
      have ihr := ih [] (((top ++ [Node.make c false])) :: es) (idx + 1)
        total r h (by rw [hrest']; simp) (by simpa using htot')
        (by
          intro l hl
          rcases List.mem_cons.mp hl with rfl | hl'
          · exact htop1
          · exact hnes l hl')
        (fun x hx => hbytes x (by simp [hrest'] at hx ⊢; tauto))
      rw [ihr]
      congr 1
      · simp only [stackDen]
        rw [List.foldl_cons]
        have hwrap : wrapLevel D F (top ++ [Node.make c false])
            (closedWords D F []) = closedWords D F top := by
          rw [wrapLevel_concat, make_isEndOfWord]
          simp [closedWords]
        rw [hwrap]
      · rw [List.map_cons, List.reverse_cons, lastChar_concat,
          make_getChar c false hc, List.append_assoc, hrest']
        rfl

/-- The stack length after the extend loop. -/
theorem extendFrom_length :
    ∀ (rest : List Nat) (ls : List (List Node)) (idx total : Nat)
      (r : List (List Node) × Nat),
      extendFrom ls idx total rest = .ok r →
      r.1.length = ls.length + rest.length := by
  intro rest
  induction rest with
  | nil =>
    intro ls idx total r h
    obtain ⟨h1, _⟩ := Prod.mk.inj (Except.ok.inj h)
    rw [← h1]
    simp
  | cons c rest' ih =>
    intro ls idx total r h
    cases ls with
    | nil => exact Except.noConfusion h
    | cons top es =>
      simp only [extendFrom] at h
      have := ih _ _ _ _ h
      simp only [List.length_cons] at this ⊢
      omega

/-- After a non-trivial extend the top level is freshly empty. -/
theorem extendFrom_head :
    ∀ (rest : List Nat) (top : List Node) (es : List (List Node))
      (idx total : Nat) (r : List (List Node) × Nat),
      extendFrom (top :: es) idx total rest = .ok r → rest ≠ [] →
      ∃ ls', r.1 = [] :: ls' := by
  intro rest
  induction rest with
  | nil => intro _ _ _ _ _ _ hne; exact absurd rfl hne
  | cons c rest' ih =>
    intro top es idx total r h _
    simp only [extendFrom] at h
    cases hrest' : rest' with
    | nil =>
      subst hrest'
      simp only [extendFrom] at h
      obtain ⟨h1, _⟩ := Prod.mk.inj (Except.ok.inj h)
      exact ⟨_, h1.symm⟩
    | cons c2 r2 =>
      exact ih _ _ _ _ _ h (by rw [hrest']; simp)

/-- The spine after the extend loop: the appended characters in order. -/
theorem extendFrom_spine :
    ∀ (rest : List Nat) (top : List Node) (es : List (List Node))
      (idx total : Nat) (r : List (List Node) × Nat),
      extendFrom (top :: es) idx total rest = .ok r →
      (∀ c ∈ rest, c < 256) →
      spineChars r.1 = spineChars (top :: es) ++ rest := by
  intro rest
  induction rest with
  | nil =>
    intro top es idx total r h _
    obtain ⟨h1, _⟩ := Prod.mk.inj (Except.ok.inj h)
    rw [← h1]
    simp
  | cons c rest' ih =>
    intro top es idx total r h hbytes
    simp only [extendFrom] at h
    have hc : c < 256 := hbytes c (by simp)
    rw [ih _ _ _ _ _ h (fun x hx => hbytes x (by simp [hx]))]
    unfold spineChars
    simp only [List.tail_cons, List.map_cons, List.reverse_cons,
      lastChar_concat, make_getChar c _ hc, List.append_assoc]
    rfl

/-- The extend loop preserves stack well-formedness provided the first
appended character exceeds the letter of the edge it is appended
after. -/
theorem extendFrom_wf (cs : List (List Node)) :
    ∀ (rest : List Nat) (top : List Node) (es : List (List Node))
      (idx total : Nat) (r : List (List Node) × Nat),
      extendFrom (top :: es) idx total rest = .ok r →
      LevelsWF cs (top :: es) →
      (∀ c, rest.head? = some c → ∀ x,
        (top.map Node.getChar).getLast? = some x → x < c) →
      (∀ c ∈ rest, c < 256) →
      LevelsWF cs r.1 := by
  intro rest
  induction rest with
  | nil =>
    intro top es idx total r h hwf _ _
    obtain ⟨h1, _⟩ := Prod.mk.inj (Except.ok.inj h)
    rw [← h1]
    exact hwf
  | cons c rest' ih =>
    intro top es idx total r h hwf hord hbytes
    simp only [extendFrom] at h
    have hc : c < 256 := hbytes c (by simp)
    obtain ⟨hlev, htail⟩ := hwf
    have hmake : EdgeOk cs (Node.make c (decide (idx + 1 = total))) :=
      ⟨make_isEndOfNode _ _, Or.inl (make_getOffset _ _), make_value_lt _ _⟩
    have hchain1 : List.Chain' (fun a b => a < b)
        ((top ++ [Node.make c (decide (idx + 1 = total))]).map
          Node.getChar) := by
      rw [List.map_append, List.map_singleton,
        make_getChar c _ hc]
      rw [List.chain'_append]
      refine ⟨(hlev top (by simp)).2, List.chain'_singleton c, ?_⟩
      intro x hx y hy
      rcases List.mem_singleton.mp (by simpa using hy) with rfl
      exact hord c rfl x hx
    refine ih _ _ _ _ _ h ⟨?_, ?_⟩ ?_
      (fun x hx => hbytes x (by simp [hx]))
    · intro l hl
      rcases List.mem_cons.mp hl with rfl | hl'
      · exact ⟨fun e he => absurd he (List.not_mem_nil e), List.chain'_nil⟩
      · rcases List.mem_cons.mp hl' with rfl | hl''
        · refine ⟨?_, hchain1⟩
          intro e he
          rcases List.mem_append.mp he with h' | h'
          · exact (hlev top (by simp)).1 e h'
          · rcases List.mem_singleton.mp h' with rfl
            exact hmake
        · exact hlev l (by simp [hl''])
    · intro l hl
      rcases List.mem_cons.mp (by simpa using hl) with rfl | hl'
      · exact ⟨top, Node.make c (decide (idx + 1 = total)), rfl,
          make_getOffset _ _⟩
      · exact htail l (by simp [hl'])
    · intro x hx y hy
      simp at hy

/-! ### Facts about `WordBuffer.next` and the parse loop -/

/-- Arena growth across the parse loop. -/
theorem parseLoop_mono : ∀ (fuel : Nat) (d : DawgState)
    (ls : List (List Node)) (idx : Nat) (wb : WordBuffer)
    (dF : DawgState) (lsF : List (List Node)),
    parseLoop fuel d ls idx wb = .ok (dF, lsF) →
    d.dawg.length ≤ dF.dawg.length := by
  intro fuel
  induction fuel with
  | zero => intro d ls idx wb dF lsF h; exact Except.noConfusion h
  | succ fuel ih =>
    intro d ls idx wb dF lsF h
    simp only [parseLoop] at h
    cases hn : WordBuffer.next wb with
    | error e => rw [hn] at h; exact Except.noConfusion h
    | ok r =>
      obtain ⟨p, s, wb'⟩ := r
      rw [hn] at h
      dsimp only at h
      by_cases hip : idx < p
      · rw [if_pos hip] at h
        exact Except.noConfusion h
      · rw [if_neg hip] at h
        cases hu : unwind d ls (idx - p) with
        | error e => rw [hu] at h; exact Except.noConfusion h
        | ok r' =>
          obtain ⟨d', ls'⟩ := r'
          rw [hu] at h
          dsimp only at h
          have hd' : d.dawg.length ≤ d'.dawg.length := unwind_mono _ _ _ _ _ hu
          by_cases hs : s = []
          · rw [if_pos hs] at h
            by_cases hp : p ≠ 0
            · rw [if_pos hp] at h
              exact Except.noConfusion h
            · rw [if_neg hp] at h
              obtain ⟨h1, _⟩ := Prod.mk.inj (Except.ok.inj h)
              rw [← h1]
              exact hd'
          · rw [if_neg hs] at h
            cases hx : extendSpine s ls' p with
            | error e => rw [hx] at h; exact Except.noConfusion h
            | ok r'' =>
              obtain ⟨ls'', idx''⟩ := r''
              rw [hx] at h
              exact le_trans hd' (ih d' ls'' idx'' wb' dF lsF h)

theorem mismatchIdx_le : ∀ (s cur : List Nat), mismatchIdx s cur ≤ s.length := by
  intro s
  induction s with
  | nil => intro cur; simp [mismatchIdx]
  | cons a t ih =>
    intro cur
    cases cur with
    | nil =>
      simp only [mismatchIdx]
      by_cases ha : a = 0
      · rw [if_pos ha]
        have := ih ([] : List Nat)
        simp only [List.length_cons]
        omega
      · rw [if_neg ha]
        simp
    | cons b cur' =>
      simp only [mismatchIdx]
      by_cases hab : a = b
      · rw [if_pos hab]
        have := ih cur'
        simp only [List.length_cons]
        omega
      · rw [if_neg hab]
        simp

/-- Below the mismatch index the new word agrees with the previous one
(whose null padding never matches a non-zero byte). -/
theorem mismatchIdx_spec : ∀ (s cur : List Nat), (∀ c ∈ s, c ≠ 0) →
    mismatchIdx s cur ≤ cur.length ∧
      s.take (mismatchIdx s cur) = cur.take (mismatchIdx s cur) := by
  intro s
  induction s with
  | nil => intro cur _; simp [mismatchIdx]
  | cons a t ih =>
    intro cur hnz
    cases cur with
    | nil =>
      have ha : a ≠ 0 := hnz a (by simp)
      simp [mismatchIdx, if_neg ha]
    | cons b cur' =>
      by_cases hab : a = b
      · simp only [mismatchIdx, if_pos hab]
        obtain ⟨h1, h2⟩ := ih cur' (fun c hc => hnz c (by simp [hc]))
        refine ⟨by simp only [List.length_cons]; omega, ?_⟩
        rw [List.take_succ_cons, List.take_succ_cons, hab, h2]
      · simp [mismatchIdx, if_neg hab]

/-- The new word differs from the (null-padded) previous word at the
mismatch index when it is not exhausted there. -/
theorem mismatchIdx_ne : ∀ (s cur : List Nat),
    mismatchIdx s cur < s.length →
    charAtZ s (mismatchIdx s cur) ≠ charAtZ cur (mismatchIdx s cur) := by
  intro s
  induction s with
  | nil => intro cur h; simp [mismatchIdx] at h
  | cons a t ih =>
    intro cur h
    cases cur with
    | nil =>
      by_cases ha : a = 0
      · simp only [mismatchIdx, if_pos ha] at h ⊢
        have := ih [] (by simp only [List.length_cons] at h; omega)
        simpa [charAtZ] using this
      · simp only [mismatchIdx, if_neg ha]
        simpa [charAtZ] using ha
    | cons b cur' =>
      by_cases hab : a = b
      · simp only [mismatchIdx, if_pos hab] at h ⊢
        have := ih cur' (by simp only [List.length_cons] at h; omega)
        simpa [charAtZ] using this
      · simp only [mismatchIdx, if_neg hab]
        simpa [charAtZ] using hab


/-- Inversion of a successful `WordBuffer.next`. -/
theorem next_ok_spec {wb : WordBuffer} {p : Nat} {s : List Nat}
    {wb' : WordBuffer} (h : WordBuffer.next wb = .ok (p, s, wb')) :
    wb'.current = s ∧ p = mismatchIdx s wb.current ∧
      (s = [] → skipShort wb.tokens = none ∧ p = 0 ∧ wb'.tokens = []) ∧
      (s ≠ [] → skipShort wb.tokens = some (s, wb'.tokens) ∧
        p < s.length ∧ charAtZ wb.current p < charAtZ s p) := by
  unfold WordBuffer.next at h
  rcases hsk : skipShort wb.tokens with _ | ⟨t, ts⟩ <;> rw [hsk] at h <;>
    dsimp only at h
  · rw [if_neg (by simp)] at h
    obtain ⟨h1, h23⟩ := Prod.mk.inj (Except.ok.inj h)
    obtain ⟨h2, h3⟩ := Prod.mk.inj h23
    subst h1
    subst h2
    subst h3
    exact ⟨rfl, rfl, fun _ => ⟨rfl, rfl, rfl⟩, fun hc => absurd rfl hc⟩
  · by_cases hg : t ≠ [] ∧ (mismatchIdx t wb.current = t.length ∨
        charAtZ t (mismatchIdx t wb.current) <
          charAtZ wb.current (mismatchIdx t wb.current))
    · rw [if_pos hg] at h
      exact Except.noConfusion h
    · rw [if_neg hg] at h
      obtain ⟨h1, h23⟩ := Prod.mk.inj (Except.ok.inj h)
      obtain ⟨h2, h3⟩ := Prod.mk.inj h23
      subst h1
      subst h2
      subst h3
      have htne : t ≠ [] := by
        intro ht
        have := (skipShort_some _ _ _ hsk).1
        rw [ht] at this
        simp at this
      have hng : ¬(mismatchIdx t wb.current = t.length ∨
          charAtZ t (mismatchIdx t wb.current) <
            charAtZ wb.current (mismatchIdx t wb.current)) :=
        fun hc => hg ⟨htne, hc⟩
      push_neg at hng
      obtain ⟨hne_len, hge⟩ := hng
      have hlt : mismatchIdx t wb.current < t.length :=
        lt_of_le_of_ne (mismatchIdx_le t wb.current) hne_len
      have hne := mismatchIdx_ne t wb.current hlt
      refine ⟨rfl, rfl, fun hc => absurd hc htne, fun _ => ⟨rfl, hlt, ?_⟩⟩
      omega

/-- The letter on the spine at depth `n`: reading the spine equality at
one position. -/
theorem spine_get {ls : List (List Node)} {cur : List Nat}
    (hsp : spineChars ls = cur) {n : Nat} (h1 : 1 ≤ n) (hn : n < ls.length) :
    lastChar (ls.get ⟨n, hn⟩) = charAtZ cur (cur.length - n) := by
  have hmap : ls.tail.map lastChar = cur.reverse := by
    rw [← hsp]
    unfold spineChars
    rw [List.reverse_reverse]
  have hlen : ls.tail.length = cur.length := by
    have := congrArg List.length hmap
    simpa using this
  have h2 : (ls.tail.map lastChar)[n - 1]? = cur.reverse[n - 1]? := by
    rw [hmap]
  rw [List.getElem?_map] at h2
  have htl : ls.tail[n - 1]? = some (ls.get ⟨n, hn⟩) := by
    rw [← List.drop_one, List.getElem?_drop,
      show 1 + (n - 1) = n from by omega, List.getElem?_eq_getElem hn]
    simp [List.get_eq_getElem]
  rw [htl] at h2
  have hrevlt : n - 1 < cur.length := by
    rw [← hlen, List.length_tail]
    omega
  rw [List.getElem?_reverse hrevlt,
    show cur.length - 1 - (n - 1) = cur.length - n from by omega] at h2
  have hcl : cur.length - n < cur.length := by
    rw [← hlen, List.length_tail] at *
    omega
  rw [List.getElem?_eq_getElem hcl] at h2
  have h3 := Option.some.inj h2
  unfold charAtZ
  rw [List.getD_eq_getElem cur 0 hcl]
  simpa using h3

theorem reverse_drop_reverse (l : List Nat) (n : Nat) (hn : n ≤ l.length) :
    (l.reverse.drop n).reverse = l.take (l.length - n) := by
  rw [show l.reverse.drop n = l.reverse.drop (l.length - (l.length - n)) from by
        rw [show l.length - (l.length - n) = n from by omega],
    ← List.reverse_take, List.reverse_reverse]

/-- Soundness of the parse loop: from a well-formed entry state a
successful run consumes all remaining tokens, appends each consumed word
to the stack denotation in input order, and finishes with a single root
level. -/
theorem parseLoop_sound : ∀ (fuel : Nat) (d : DawgState)
    (cs : List (List Node)) (ls : List (List Node)) (idx : Nat)
    (wb : WordBuffer) (dF : DawgState) (lsF : List (List Node)),
    parseLoop fuel d ls idx wb = .ok (dF, lsF) →
    Built d cs → HTBuilt d cs → ValBound cs → LevelsWF cs ls →
    ls.length = idx + 1 →
    spineChars ls = wb.current →
    wb.current.length = idx →
    ls.head? = some [] →
    (∀ t ∈ wb.tokens, 2 ≤ t.length ∧ ∀ c ∈ t, 0 < c ∧ c < 256) →
    dF.dawg.length < 2 ^ 21 →
    ∃ csF, Built dF csF ∧ HTBuilt dF csF ∧ ValBound csF ∧
      LevelsWF csF lsF ∧ lsF.length = 1 ∧
      stackDen dF.dawg csF.length lsF =
        stackDen d.dawg cs.length ls ++ wb.tokens := by
  intro fuel
  induction fuel with
  | zero =>
    intro d cs ls idx wb dF lsF h _ _ _ _ _ _ _ _ _ _
    exact Except.noConfusion h
  | succ fuel ih =>
    intro d cs ls idx wb dF lsF h hb hht hv hwf hlslen hspine hcurlen hhead
      htok hbound
    simp only [parseLoop] at h
    cases hn : WordBuffer.next wb with
    | error e => rw [hn] at h; exact Except.noConfusion h
    | ok r =>
      obtain ⟨p, s, wb'⟩ := r
      rw [hn] at h
      dsimp only at h
      obtain ⟨hcur', hpmm, hemp, hnemp⟩ := next_ok_spec hn
      by_cases hip : idx < p
      · rw [if_pos hip] at h
        exact Except.noConfusion h
      · rw [if_neg hip] at h
        cases hu : unwind d ls (idx - p) with
        | error e => rw [hu] at h; exact Except.noConfusion h
        | ok r' =>
          obtain ⟨d', ls'⟩ := r'
          rw [hu] at h
          dsimp only at h
          by_cases hs : s = []
          · subst hs
            obtain ⟨hsknone, hp0, hts⟩ := hemp rfl
            have htoksnil : wb.tokens = [] := by
              cases htk : wb.tokens with
              | nil => rfl
              | cons t ts =>
                exfalso
                rw [htk] at hsknone
                simp only [skipShort] at hsknone
                rw [if_neg (by
                  have := (htok t (by rw [htk]; simp)).1
                  omega)] at hsknone
                exact Option.noConfusion hsknone
            subst hp0
            rw [if_pos rfl, if_neg (by simp)] at h
            obtain ⟨h1, h2⟩ := Prod.mk.inj (Except.ok.inj h)
            subst h1
            subst h2
            have hnlt : idx - 0 < ls.length := by omega
            obtain ⟨cs2, hb2, hht2, hv2, _, hwf2, hlslen2, _, _, hden2, _⟩ :=
              unwind_sound (idx - 0) d cs ls d' ls' hu hb hht hv hwf hnlt
                hbound
            refine ⟨cs2, hb2, hht2, hv2, hwf2, by omega, ?_⟩
            rw [hden2, htoksnil, List.append_nil]
          · obtain ⟨hsksome, hplt, hord⟩ := hnemp hs
            rw [if_neg hs] at h
            cases hx : extendSpine s ls' p with
            | error e => rw [hx] at h; exact Except.noConfusion h
            | ok r'' =>
              obtain ⟨ls'', idx''⟩ := r''
              rw [hx] at h
              have htoksdecomp : wb.tokens = s :: wb'.tokens := by
                cases htk : wb.tokens with
                | nil =>
                  rw [htk] at hsksome
                  simp [skipShort] at hsksome
                | cons t ts =>
                  rw [htk] at hsksome
                  simp only [skipShort] at hsksome
                  rw [if_neg (by
                    have := (htok t (by rw [htk]; simp)).1
                    omega)] at hsksome
                  obtain ⟨ha, hb3⟩ := Prod.mk.inj (Option.some.inj hsksome)
                  rw [ha, hb3]
              have hsmem : s ∈ wb.tokens := by rw [htoksdecomp]; simp
              obtain ⟨hslen2, hsbytes⟩ := htok s hsmem
              have hsnz : ∀ c ∈ s, c ≠ 0 := by
                intro c hc
                have := (hsbytes c hc).1
                omega
              have hmspec := mismatchIdx_spec s wb.current hsnz
              rw [← hpmm] at hmspec
              obtain ⟨hple, htake⟩ := hmspec
              have hd'bound : d'.dawg.length < 2 ^ 21 :=
                lt_of_le_of_lt
                  (parseLoop_mono fuel d' ls'' idx'' wb' dF lsF h) hbound
              have hnlt : idx - p < ls.length := by omega
              obtain ⟨cs2, hb2, hht2, hv2, hcs2len, hwf2, hlslen2, hheadstruct,
                hzero, hden2, hmono2⟩ :=
                unwind_sound (idx - p) d cs ls d' ls' hu hb hht hv hwf hnlt
                  hd'bound
              have hls'len : ls'.length = p + 1 := by omega
              obtain ⟨top, es, rfl⟩ : ∃ top es, ls' = top :: es := by
                cases ls' with
                | nil => simp at hls'len
                | cons a b => exact ⟨a, b, rfl⟩
              have hmap : ls.tail.map lastChar = wb.current.reverse := by
                rw [← hspine]
                unfold spineChars
                rw [List.reverse_reverse]
              have hspine' : spineChars (top :: es) = wb.current.take p := by
                rcases Nat.eq_zero_or_pos (idx - p) with hz | hpos
                · rw [hzero hz, hspine,
                    show p = wb.current.length from by omega, List.take_length]
                · obtain ⟨l, hls'eq, hn2, hmapchar⟩ := hheadstruct hpos
                  obtain ⟨rfl, rfl⟩ : top = l ∧ es = ls.drop (idx - p + 1) :=
                    ⟨(List.cons.inj hls'eq).1, (List.cons.inj hls'eq).2⟩
                  unfold spineChars
                  simp only [List.tail_cons]
                  rw [show ls.drop (idx - p + 1) = ls.tail.drop (idx - p) from by
                        rw [show idx - p + 1 = 1 + (idx - p) from by omega,
                          ← List.drop_one, List.drop_drop],
                    List.map_drop, hmap,
                    reverse_drop_reverse wb.current (idx - p) (by omega)]
                  congr 1
                  omega
              have hordex : ∀ c, (s.drop p).head? = some c → ∀ x,
                  (top.map Node.getChar).getLast? = some x → x < c := by
                intro c hc x hx
                have hcval : c = charAtZ s p := by
                  rw [List.drop_eq_getElem_cons hplt] at hc
                  have h3 := Option.some.inj hc
                  unfold charAtZ
                  rw [List.getD_eq_getElem s 0 hplt]
                  exact h3.symm
                subst hcval
                rcases Nat.eq_zero_or_pos (idx - p) with hz | hpos
                · have hsome : ls.head? = some top := by
                    rw [← hzero hz]
                    rfl
                  rw [hhead] at hsome
                  rw [(Option.some.inj hsome).symm] at hx
                  simp at hx
                · obtain ⟨l, hls'eq, hn2, hmapchar⟩ := hheadstruct hpos
                  rw [(List.cons.inj hls'eq).1, hmapchar] at hx
                  have hmem : ls.get ⟨idx - p, hn2⟩ ∈ ls.tail := by
                    have h9 : ls.tail[idx - p - 1]? = ls[idx - p]? := by
                      rw [← List.drop_one, List.getElem?_drop,
                        show 1 + (idx - p - 1) = idx - p from by omega]
                    rw [List.getElem?_eq_getElem hn2] at h9
                    exact List.getElem?_mem
                      (by rw [h9, List.get_eq_getElem])
                  obtain ⟨t2, e2, hdec2, _⟩ := hwf.2 _ hmem
                  rw [hdec2, List.map_append, List.map_singleton,
                    List.getLast?_concat] at hx
                  have hxval : e2.getChar = x := Option.some.inj hx
                  have hlc := spine_get hspine
                    (show 1 ≤ idx - p from by omega) hn2
                  rw [hdec2, lastChar_concat,
                    show wb.current.length - (idx - p) = p from by omega]
                    at hlc
                  omega
              have hrestne : s.drop p ≠ [] := by
                intro hc
                have := congrArg List.length hc
                rw [List.length_drop] at this
                simp at this
                omega
              have hrestbytes : ∀ c ∈ s.drop p, c < 256 := by
                intro c hc
                exact (hsbytes c (List.drop_subset p s hc)).2
              have hesne : ∀ l ∈ es, l ≠ [] := by
                intro l hl
                obtain ⟨t2, e2, hdec2, _⟩ := hwf2.2 l (by simpa using hl)
                rw [hdec2]
                simp
              unfold extendSpine at hx
              have hdenx := extendFrom_den d'.dawg cs2.length (s.drop p) top es
                p s.length (ls'', idx'') hx hrestne
                (by rw [List.length_drop]; omega) hesne hrestbytes
              have hwfx := extendFrom_wf cs2 (s.drop p) top es p s.length
                (ls'', idx'') hx hwf2 hordex hrestbytes
              have hspx := extendFrom_spine (s.drop p) top es p s.length
                (ls'', idx'') hx hrestbytes
              obtain ⟨lsrest, hheadx⟩ := extendFrom_head (s.drop p) top es p
                s.length (ls'', idx'') hx hrestne
              have hlenx := extendFrom_length (s.drop p) (top :: es) p s.length
                (ls'', idx'') hx
              have hidxx := extendFrom_idx s.length (s.drop p) (top :: es) p
                (ls'', idx'') hx
              dsimp only at hdenx hwfx hspx hheadx hlenx hidxx
              have hspineNew : spineChars ls'' = wb'.current := by
                rw [hspx, hspine', hcur', ← htake, List.take_append_drop]
              have hcurlen' : wb'.current.length = idx'' := by
                rw [hcur', hidxx, List.length_drop]
                omega
              have hlslen'' : ls''.length = idx'' + 1 := by
                have hes : es.length = p := by
                  simp only [List.length_cons] at hls'len
                  omega
                rw [hlenx, hidxx, List.length_drop]
                simp only [List.length_cons]
                omega
              have htok' : ∀ t ∈ wb'.tokens,
                  2 ≤ t.length ∧ ∀ c ∈ t, 0 < c ∧ c < 256 := by
                intro t ht
                exact htok t (by rw [htoksdecomp]; simp [ht])
              obtain ⟨csF, hbF, hhtF, hvF, hwfF, hlsF1, hdenF⟩ :=
                ih d' cs2 ls'' idx'' wb' dF lsF h hb2 hht2 hv2 hwfx hlslen''
                  hspineNew hcurlen' (by rw [hheadx]; rfl) htok' hbound
              refine ⟨csF, hbF, hhtF, hvF, hwfF, hlsF1, ?_⟩
              rw [hdenF, hdenx, hden2, htoksdecomp]
              have hword : (es.map lastChar).reverse ++ s.drop p = s := by
                rw [show (es.map lastChar).reverse = spineChars (top :: es)
                      from rfl,
                  hspine', ← htake, List.take_append_drop]
              rw [hword, List.append_assoc]
              rfl

/-! ### Soundness of the finalisation (tail of `Dawg::parse`) -/

theorem listResize_length (l : List Node) (n : Nat) :
    (listResize l n).length = n := by
  unfold listResize
  simp only [List.length_append, List.length_take, List.length_replicate]
  omega

theorem listResize_of_le {l : List Node} {n : Nat} (h : l.length ≤ n) :
    listResize l n = l ++ List.replicate (n - l.length) ⟨0⟩ := by
  unfold listResize
  rw [List.take_of_length_le h]

theorem setEndOfNodeLast_append_left (a b : List Node) (hb : b ≠ []) :
    setEndOfNodeLast (a ++ b) = a ++ setEndOfNodeLast b := by
  obtain ⟨t, x, rfl⟩ : ∃ t x, b = t ++ [x] := by
    rcases List.eq_nil_or_concat b with hc | ⟨t, x, hc⟩
    · exact absurd hc hb
    · exact ⟨t, x, by rw [hc, List.concat_eq_append]⟩
  rw [setEndOfNodeLast_append, ← List.append_assoc, setEndOfNodeLast_append,
    List.append_assoc]

theorem setEndOfNodeLast_cases {l : List Node} {e : Node}
    (he : e ∈ setEndOfNodeLast l) :
    e ∈ l ∨ ∃ x, x ∈ l ∧ e = x.setEndOfNode := by
  rcases List.eq_nil_or_concat l with rfl | ⟨t, x, hl⟩
  · exact absurd he (List.not_mem_nil e)
  · rw [hl, List.concat_eq_append, setEndOfNodeLast_append] at he
    rcases List.mem_append.mp he with h' | h'
    · exact Or.inl (by rw [hl, List.concat_eq_append]
                       exact List.mem_append_left _ h')
    · exact Or.inr ⟨x, by rw [hl, List.concat_eq_append]; simp,
        List.mem_singleton.mp h'⟩

theorem zeroNode_isEndOfWord : (⟨0⟩ : Node).isEndOfWord = false := by decide

theorem zeroNode_isEndOfNode : (⟨0⟩ : Node).isEndOfNode = false := by decide

theorem zeroNode_getOffset : (⟨0⟩ : Node).getOffset = 0 := by decide

theorem closedWords_replicate_zero (D : List Node) (F : Nat) :
    ∀ n : Nat, closedWords D F (List.replicate n ⟨0⟩) = [] := by
  intro n
  induction n with
  | zero => rfl
  | succ n ih =>
    rw [List.replicate_succ, show ((⟨0⟩ : Node) :: List.replicate n ⟨0⟩) =
      [⟨0⟩] ++ List.replicate n ⟨0⟩ from rfl, closedWords_append, ih]
    simp [closedWords, edgeWords, zeroNode_isEndOfWord, zeroNode_getOffset]

/-- The `setEndOfNodeLast` pass is idempotent. -/
theorem setEndOfNodeLast_idem (l : List Node) :
    setEndOfNodeLast (setEndOfNodeLast l) = setEndOfNodeLast l := by
  rcases List.eq_nil_or_concat l with rfl | ⟨t, x, hl⟩
  · rfl
  · rw [hl, List.concat_eq_append, setEndOfNodeLast_append,
      setEndOfNodeLast_append, setEndOfNode_idem]

/-- Every entry of the padded, terminated root group comes from the root
list or from a zero node, possibly with `end_of_node` set. -/
theorem mem_resize_setEON {l : List Node} {e : Node} {n : Nat}
    (he : e ∈ setEndOfNodeLast (listResize l n)) :
    ∃ x, (x ∈ l ∨ x = ⟨0⟩) ∧ (e = x ∨ e = x.setEndOfNode) := by
  rcases setEndOfNodeLast_cases he with h' | ⟨x, hx, rfl⟩
  · unfold listResize at h'
    rcases List.mem_append.mp h' with h2 | h2
    · exact ⟨e, Or.inl (List.take_subset _ _ h2), Or.inl rfl⟩
    · exact ⟨⟨0⟩, Or.inr rfl, Or.inl (List.eq_of_mem_replicate h2)⟩
  · unfold listResize at hx
    rcases List.mem_append.mp hx with h2 | h2
    · exact ⟨x, Or.inl (List.take_subset _ _ h2), Or.inr rfl⟩
    · exact ⟨⟨0⟩, Or.inr rfl, Or.inr (by rw [List.eq_of_mem_replicate h2])⟩

/-- Soundness of `create`: a successful run leaves an arena whose first
group is a well-terminated group denoting exactly the input words, over
a well-formed commit list the arena contains. -/
theorem create_sound {L : List (List Nat)} {st : DawgState}
    (htok : ∀ t ∈ L, 2 ≤ t.length ∧ ∀ c ∈ t, 0 < c ∧ c < 256)
    (hcreate : dawgCreate L = .ok st)
    (hsize : st.dawg.length < 2 ^ 21) :
    ∃ (cs : List (List Node)) (G : List Node),
      OffWF cs ∧ Contains st.dawg cs ∧
      EONOnlyAtEnd G ∧ G <+: st.dawg ∧
      (∀ e ∈ G, OffOkLt cs cs.length e) ∧
      closedWords st.dawg cs.length G = L ∧
      (∀ n ∈ st.dawg, n.value < 2 ^ 32) ∧
      256 ≤ st.dawg.length := by
  unfold dawgCreate Dawg.parse at hcreate
  cases hpl : parseLoop (L.length + 1) Dawg.init [[]] 0 ⟨L, []⟩ with
  | error e => rw [hpl] at hcreate; exact Except.noConfusion hcreate
  | ok r =>
    obtain ⟨dF, lsF⟩ := r
    rw [hpl] at hcreate
    dsimp only at hcreate
    cases hls : lsF with
    | nil => rw [hls] at hcreate; exact Except.noConfusion hcreate
    | cons root restF =>
      rw [hls] at hcreate
      dsimp only at hcreate
      have hst : finalizeRoot dF root = st := Except.ok.inj hcreate
      have hM : MAX_CHARS = 256 := rfl
      have hge : 256 ≤ dF.dawg.length := by
        have h1 := parseLoop_mono _ _ _ _ _ _ _ hpl
        have h2 : Dawg.init.dawg.length = 256 := by
          show (List.replicate MAX_CHARS (⟨0⟩ : Node)).length = 256
          rw [List.length_replicate]
          rfl
        omega
      have hstlen : st.dawg.length = dF.dawg.length := by
        rw [← hst]
        show (setEndOfNodeLast (listResize _ MAX_CHARS) ++
          dF.dawg.drop MAX_CHARS).length = _
        simp only [List.length_append, List.length_drop,
          setEndOfNodeLast_length, listResize_length]
        omega
      have hbound : dF.dawg.length < 2 ^ 21 := by omega
      obtain ⟨csF, hbF, hhtF, hvF, hwfF, hlsF1, hdenF⟩ :=
        parseLoop_sound (L.length + 1) Dawg.init [] [[]] 0 ⟨L, []⟩ dF lsF hpl
          ⟨by simp [Dawg.init], fun j hj => absurd hj (by simp)⟩
          (fun s hs => absurd rfl hs)
          (fun A hA => absurd hA (List.not_mem_nil A))
          ⟨fun l hl => by
            rcases List.mem_singleton.mp hl with rfl
            exact ⟨fun e he => absurd he (List.not_mem_nil e),
              List.chain'_nil⟩,
            fun l hl => absurd hl (List.not_mem_nil l)⟩
          (by simp) rfl rfl rfl htok hbound
      have hrest : restF = [] := by
        rw [hls] at hlsF1
        simp only [List.length_cons] at hlsF1
        exact List.length_eq_zero.mp (by omega)
      subst hrest
      rw [hls] at hdenF hwfF
      have hroot_den : closedWords dF.dawg csF.length root = L := by
        have h1 : stackDen dF.dawg csF.length [root] =
            closedWords dF.dawg csF.length root := rfl
        have h2 : stackDen Dawg.init.dawg
            ([] : List (List Node)).length [[]] = [] := rfl
        rw [h1, h2] at hdenF
        simpa using hdenF
      obtain ⟨hlevF, _⟩ := hwfF
      obtain ⟨hrootedges, hrootchain⟩ := hlevF root (by simp)
      have hrootle : root.length ≤ 256 := by
        have := chain_lt_length_le (root.map Node.getChar) hrootchain
          (by
            intro x hx
            obtain ⟨e, _, rfl⟩ := List.mem_map.mp hx
            exact getChar_lt e)
        simpa using this
      have hcontF : Contains dF.dawg csF := built_contains hbF
      have hwfcs : OffWF csF := hbF.2
      have hdfin : st.dawg =
          setEndOfNodeLast (listResize
            (if root.isEmpty then root else setEndOfNodeLast root)
            MAX_CHARS) ++ dF.dawg.drop MAX_CHARS := by
        rw [← hst]
        rfl
      have hr2len : (setEndOfNodeLast (listResize
          (if root.isEmpty then root else setEndOfNodeLast root)
          MAX_CHARS)).length = MAX_CHARS := by
        rw [setEndOfNodeLast_length, listResize_length]
      have hdrop : ∀ k, st.dawg.drop (MAX_CHARS + k) =
          dF.dawg.drop (MAX_CHARS + k) := by
        intro k
        rw [hdfin, ← List.drop_drop, List.drop_left' hr2len,
          List.drop_drop]
      have hcontFin : Contains st.dawg csF := by
        intro j hj
        have hc := hcontF j hj
        show csF.get ⟨j, hj⟩ <+:
          st.dawg.drop (MAX_CHARS + ((csF.take j).flatten).length)
        rw [hdrop]
        exact hc
      have hvdF : ∀ n ∈ dF.dawg, n.value < 2 ^ 32 := by
        intro n hn
        rw [hbF.1] at hn
        rcases List.mem_append.mp hn with h' | h'
        · rw [List.eq_of_mem_replicate h']
          norm_num
        · obtain ⟨A, hA, hnA⟩ := List.mem_flatten.mp h'
          exact hvF A hA n hnA
      have hroot1val : ∀ x ∈
          (if root.isEmpty then root else setEndOfNodeLast root),
          x.value < 2 ^ 32 := by
        intro x hx
        split at hx
        · exact (hrootedges x hx).2.2
        · rcases setEndOfNodeLast_cases hx with h2 | ⟨y, hy, rfl⟩
          · exact (hrootedges x h2).2.2
          · exact setEndOfNode_value_lt (hrootedges y hy).2.2
      have hvals : ∀ n ∈ st.dawg, n.value < 2 ^ 32 := by
        intro n hn
        rw [hdfin] at hn
        rcases List.mem_append.mp hn with h' | h'
        · obtain ⟨x, hx1, hx2⟩ := mem_resize_setEON h'
          have hxval : x.value < 2 ^ 32 := by
            rcases hx1 with h2 | rfl
            · exact hroot1val x h2
            · norm_num
          rcases hx2 with rfl | rfl
          · exact hxval
          · exact setEndOfNode_value_lt hxval
        · exact hvdF n (List.mem_of_mem_drop h')
      have hlen256 : 256 ≤ st.dawg.length := by omega
      by_cases hroot : root = []
      · subst hroot
        have hLnil : L = [] := hroot_den.symm
        refine ⟨csF, setEndOfNodeLast (listResize [] MAX_CHARS), hwfcs,
          hcontFin, ?_, ?_, ?_, ?_, hvals, hlen256⟩
        · rw [listResize_of_le (by simp)]
          refine EONOnlyAtEnd_setEndOfNodeLast ?_ ?_
          · intro hc
            have := congrArg List.length hc
            simp at this
            omega
          · intro e he
            have he2 : e ∈ List.replicate (MAX_CHARS - ([] : List Node).length)
                (⟨0⟩ : Node) := by simpa using he
            rw [List.eq_of_mem_replicate he2]
            exact zeroNode_isEndOfNode
        · rw [hdfin]
          show setEndOfNodeLast (listResize [] MAX_CHARS) <+: _
          exact List.prefix_append _ _
        · intro e he
          obtain ⟨x, hx1, hx2⟩ := mem_resize_setEON he
          have hx0 : x = ⟨0⟩ := by
            rcases hx1 with h2 | rfl
            · exact absurd h2 (List.not_mem_nil x)
            · rfl
          subst hx0
          rcases hx2 with rfl | rfl
          · exact Or.inl zeroNode_getOffset
          · refine Or.inl ?_
            rw [setEndOfNode_getOffset]
            exact zeroNode_getOffset
        · rw [hLnil, listResize_of_le (by simp), closedWords_setEndOfNodeLast]
          simpa using closedWords_replicate_zero st.dawg csF.length (MAX_CHARS - 0)
      · have hifr : (if root.isEmpty then root else setEndOfNodeLast root) =
            setEndOfNodeLast root := by
          rw [if_neg (by
            cases root with
            | nil => exact absurd rfl hroot
            | cons a t => simp [List.isEmpty])]
        have hG : EONOnlyAtEnd (setEndOfNodeLast root) :=
          EONOnlyAtEnd_setEndOfNodeLast hroot
            (fun e he => (hrootedges e he).1)
        have hGpre : setEndOfNodeLast root <+: st.dawg := by
          rw [hdfin, hifr]
          rcases Nat.lt_or_ge root.length 256 with hlt | hge2
          · rw [listResize_of_le (by rw [setEndOfNodeLast_length]; omega),
              setEndOfNodeLast_append_left _ _ (by
                intro hc
                have := congrArg List.length hc
                rw [setEndOfNodeLast_length] at this
                simp at this
                omega),
              List.append_assoc]
            exact List.prefix_append _ _
          · have h256 : root.length = 256 := by omega
            rw [listResize_of_le (by rw [setEndOfNodeLast_length]; omega)]
            rw [show MAX_CHARS - (setEndOfNodeLast root).length = 0 from by
                  rw [setEndOfNodeLast_length]
                  show 256 - root.length = 0
                  omega]
            rw [List.replicate_zero, List.append_nil, setEndOfNodeLast_idem]
            exact List.prefix_append _ _
        refine ⟨csF, setEndOfNodeLast root, hwfcs, hcontFin, hG, hGpre,
          ?_, ?_, hvals, hlen256⟩
        · intro e he
          rcases setEndOfNodeLast_cases he with h2 | ⟨x, hx, rfl⟩
          · exact (hrootedges e h2).2.1
          · show OffOkLt csF csF.length x.setEndOfNode
            unfold OffOkLt
            rw [setEndOfNode_getOffset]
            exact (hrootedges x hx).2.1
        · rw [closedWords_setEndOfNodeLast]
          rw [closedWords_bounded csF hwfcs st.dawg dF.dawg hcontFin hcontF
            root csF.length (fun e he => (hrootedges e he).2.1) (le_refl _)
            csF.length csF.length (le_refl _) (le_refl _)]
          exact hroot_den

/-! ### The dump machine reaches the denotation -/

/-- Reachability in the dump machine's configuration graph. -/
def Reaches (D : List Node) :
    (List Nat × List (List Nat)) → (List Nat × List (List Nat)) → Prop :=
  Relation.ReflTransGen (fun c c' => dumpStep D c.1 c.2 = .inl c')

/-- A reachable terminating configuration gives a fuel on which the loop
returns its result. -/
theorem reaches_run {D : List Node} :
    ∀ {c c' : List Nat × List (List Nat)}, Reaches D c c' →
    ∀ {r}, dumpStep D c'.1 c'.2 = .inr r →
    ∃ fuel, dumpLoop D c.1 c.2 fuel = r := by
  intro c c' h
  induction h using Relation.ReflTransGen.head_induction_on with
  | refl =>
    intro r hr
    refine ⟨1, ?_⟩
    simp only [dumpLoop, hr]
  | head hstep _ ih =>
    intro r hr
    obtain ⟨fuel, hf⟩ := ih hr
    refine ⟨fuel + 1, ?_⟩
    simp only [dumpLoop, hstep, hf]

theorem popAdvance_cons_eon {D : List Node} {i : Nat} (stk : List Nat)
    (hi : i < D.length) (he : (D.get ⟨i, hi⟩).isEndOfNode = true) :
    popAdvance D (i :: stk) = popAdvance D stk := by
  simp only [popAdvance]
  rw [dif_pos hi, if_pos he]

theorem popAdvance_cons_adv {D : List Node} {i : Nat} (stk : List Nat)
    (hi : i < D.length) (he : (D.get ⟨i, hi⟩).isEndOfNode = false) :
    popAdvance D (i :: stk) = some ((i + 1) :: stk) := by
  simp only [popAdvance]
  rw [dif_pos hi, if_neg (by rw [he]; exact Bool.false_ne_true)]

theorem popAdvance_some {D : List Node} : ∀ {stk : List Nat},
    (∀ i ∈ stk, i < D.length) → ∃ r, popAdvance D stk = some r := by
  intro stk
  induction stk with
  | nil => intro _; exact ⟨[], rfl⟩
  | cons i t ih =>
    intro h
    have hi : i < D.length := h i (by simp)
    cases he : (D.get ⟨i, hi⟩).isEndOfNode
    · rw [popAdvance_cons_adv t hi he]
      exact ⟨_, rfl⟩
    · rw [popAdvance_cons_eon t hi he]
      exact ih (fun j hj => h j (by simp [hj]))

theorem stackWord_cons (D : List Node) (i : Nat) (stk : List Nat) :
    stackWord D (i :: stk) = stackWord D stk ++ [(D.getD i ⟨0⟩).getChar] := by
  unfold stackWord
  rw [List.reverse_cons, List.map_append]
  rfl

/-- Scanning a stored well-terminated group from its start emits exactly
its denoted words (prefixed by the context word) and then pops back into
the context. -/
theorem reach_list (D : List Node) (cs : List (List Node)) (hwf : OffWF cs)
    (hcont : Contains D cs) :
    ∀ (j : Nat), j ≤ cs.length →
    ∀ (l : List Node), EONOnlyAtEnd l → (∀ e ∈ l, OffOkLt cs j e) →
    ∀ (g : Nat), l <+: D.drop g →
    ∀ (stk : List Nat) (out : List (List Nat)),
    (∀ i ∈ stk, i < D.length) →
    ∃ r, popAdvance D stk = some r ∧
      Reaches D (g :: stk, out)
        (r, out ++ (closedWords D cs.length l).map
          (fun w => stackWord D stk ++ w)) := by
  intro j
  induction j using Nat.strong_induction_on with
  | _ j ihj =>
    intro hj l
    induction l with
    | nil =>
      intro hEON
      exact absurd rfl hEON.1
    | cons e l' ihl =>
      intro hEON hoff g hpre stk out hstk
      have hg : g < D.length := prefix_drop_lt hpre
      have hgete : D.get ⟨g, hg⟩ = e := prefix_drop_get hpre hg
      have hswg : stackWord D (g :: stk) = stackWord D stk ++ [e.getChar] := by
        rw [stackWord_cons]
        have : D.getD g ⟨0⟩ = e := by
          rw [List.getD_eq_getElem D ⟨0⟩ hg, ← hgete]
          simp [List.get_eq_getElem]
        rw [this]
      have hedge : ∀ rnext, popAdvance D (g :: stk) = some rnext →
          Reaches D (g :: stk, out) (rnext,
            out ++ (edgeWords D cs.length e).map
              (fun w => stackWord D stk ++ w)) := by
        intro rnext hpop
        by_cases hoffe : e.getOffset = 0
        · apply Relation.ReflTransGen.single
          show dumpStep D (g :: stk) out = .inl (rnext, _)
          simp only [dumpStep]
          rw [dif_pos hg]
          rw [hgete, if_neg (by rw [hoffe]; exact fun hc => hc rfl), hpop]
          congr 1
          congr 1
          rw [edgeWords_offset_zero _ _ hoffe]
          cases hEOW : e.isEndOfWord
          · simp
          · rw [hswg]
            simp
        · rcases hoff e (by simp) with h0 | ⟨j', hj', hoffe'⟩
          · exact absurd h0 hoffe
          have hj'cs : j' < cs.length := by omega
          obtain ⟨hEONc, hoffc⟩ := hwf j' hj'cs
          have hcne : cs.get ⟨j', hj'cs⟩ ≠ [] := hEONc.1
          have hcslt : commitStart cs j' < D.length :=
            commitStart_lt_length hcont hj'cs hcne
          have hstep : dumpStep D (g :: stk) out =
              .inl (commitStart cs j' :: g :: stk,
                out ++ (if e.isEndOfWord
                  then [stackWord D (g :: stk)] else [])) := by
            simp only [dumpStep]
            rw [dif_pos hg]
            have hsub : e.getOffset - 1 = commitStart cs j' := by omega
            rw [hgete, if_pos (show e.getOffset ≠ 0 from hoffe)]
            simp only [hsub]
            rw [if_pos hcslt]
            congr 1
            congr 1
            cases hEOW : e.isEndOfWord <;> simp
          obtain ⟨r', hpop', hreach'⟩ := ihj j' (by omega) (by omega)
            (cs.get ⟨j', hj'cs⟩) hEONc hoffc (commitStart cs j')
            (hcont j' hj'cs) (g :: stk)
            (out ++ (if e.isEndOfWord then [stackWord D (g :: stk)] else []))
            (by
              intro i hi
              rcases List.mem_cons.mp hi with rfl | hi'
              · exact hg
              · exact hstk i hi')
          have hr' : r' = rnext := by
            rw [hpop'] at hpop
            exact Option.some.inj hpop
          subst hr'
          have hgw : groupWords D cs.length (commitStart cs j') =
              closedWords D cs.length (cs.get ⟨j', hj'cs⟩) := by
            obtain ⟨F', hF'⟩ : ∃ F, cs.length = F + 1 :=
              ⟨cs.length - 1, by omega⟩
            nth_rewrite 1 [hF']
            rw [groupWords_slice D (cs.get ⟨j', hj'cs⟩) _ F' hEONc
              (hcont j' hj'cs)]
            exact closedWords_bounded cs hwf D D hcont hcont _ j' hoffc
              (le_of_lt hj'cs) F' cs.length (by omega) (by omega)
          have hout : out ++ (edgeWords D cs.length e).map
              (fun w => stackWord D stk ++ w) =
              (out ++ (if e.isEndOfWord
                then [stackWord D (g :: stk)] else [])) ++
              (closedWords D cs.length (cs.get ⟨j', hj'cs⟩)).map
                (fun w => stackWord D (g :: stk) ++ w) := by
            unfold edgeWords
            rw [if_pos (show e.getOffset ≠ 0 from hoffe),
              show e.getOffset - 1 = commitStart cs j' from by omega, hgw,
              List.map_append, List.map_map, List.append_assoc]
            congr 1
            congr 1
            · cases hEOW : e.isEndOfWord
              · simp
              · rw [hswg]
                simp
            · apply List.map_congr_left
              intro w _
              show stackWord D stk ++ (e.getChar :: w) = _
              rw [hswg, List.append_cons]
          rw [hout]
          exact Relation.ReflTransGen.head hstep hreach'
      rcases EONOnlyAtEnd_cons hEON with ⟨rfl, heon⟩ | ⟨hne, heon, hEON'⟩
      · obtain ⟨r, hr⟩ := popAdvance_some hstk
        have hpop : popAdvance D (g :: stk) = some r := by
          rw [popAdvance_cons_eon stk hg (by rw [hgete]; exact heon)]
          exact hr
        refine ⟨r, hr, ?_⟩
        have := hedge r hpop
        have hcw : closedWords D cs.length [e] = edgeWords D cs.length e := by
          simp [closedWords]
        rw [hcw]
        exact this
      · have hpop : popAdvance D (g :: stk) = some ((g + 1) :: stk) := by
          rw [popAdvance_cons_adv stk hg (by rw [hgete]; exact heon)]
        have hreach1 := hedge ((g + 1) :: stk) hpop
        obtain ⟨r, hr, hreach2⟩ := ihl hEON' (fun x hx => hoff x (by simp [hx]))
          (g + 1) (prefix_drop_succ hpre) stk
          (out ++ (edgeWords D cs.length e).map
            (fun w => stackWord D stk ++ w)) hstk
        refine ⟨r, hr, ?_⟩
        have hcw : closedWords D cs.length (e :: l') =
            edgeWords D cs.length e ++ closedWords D cs.length l' := by
          show closedWords D cs.length ([e] ++ l') = _
          rw [closedWords_append]
          simp [closedWords]
        rw [hcw, List.map_append, ← List.append_assoc]
        exact Relation.ReflTransGen.trans hreach1 hreach2

/-- A loaded arena whose initial group is well-terminated and denotes
`out` is dumped completely with output `out`. -/
theorem dump_completes_of {D : List Node} {cs : List (List Node)}
    (hwf : OffWF cs) (hcont : Contains D cs) {G : List Node}
    (hEON : EONOnlyAtEnd G) (hpre : G <+: D)
    (hoff : ∀ e ∈ G, OffOkLt cs cs.length e) :
    DumpCompletes D (closedWords D cs.length G) := by
  obtain ⟨r, hr, hreach⟩ := reach_list D cs hwf hcont cs.length (le_refl _)
    G hEON hoff 0 (by simpa using hpre) [] []
    (fun i hi => absurd hi (List.not_mem_nil i))
  have hrnil : r = [] := by
    simp only [popAdvance] at hr
    exact (Option.some.inj hr).symm
  subst hrnil
  have hmap : (closedWords D cs.length G).map
      (fun w => stackWord D [] ++ w) = closedWords D cs.length G := by
    have : stackWord D [] = [] := rfl
    rw [this]
    simp
  rw [hmap] at hreach
  have hfin : dumpStep D ([] : List Nat) (closedWords D cs.length G) =
      .inr (closedWords D cs.length G, .done) := rfl
  obtain ⟨fuel, hf⟩ := reaches_run hreach hfin
  exact ⟨fuel, hf⟩

/-! ### Save/load round trip -/

theorem charAtZ_add (l : List Nat) (m k : Nat) :
    charAtZ l (m + k) = charAtZ (l.drop m) k := by
  unfold charAtZ
  rw [List.getD_eq_getElem?_getD, List.getD_eq_getElem?_getD,
    List.getElem?_drop]

theorem le32At_drop4 (l : List Nat) (k : Nat) :
    le32At l (4 + k) = le32At (l.drop 4) k := by
  unfold le32At
  rw [show 4 + k + 1 = 4 + (k + 1) from by omega,
    show 4 + k + 2 = 4 + (k + 2) from by omega,
    show 4 + k + 3 = 4 + (k + 3) from by omega,
    charAtZ_add l 4 k, charAtZ_add l 4 (k + 1), charAtZ_add l 4 (k + 2),
    charAtZ_add l 4 (k + 3)]

theorem le32At_le4 (v : Nat) (hv : v < 2 ^ 32) (rest : List Nat) :
    le32At (le4 v ++ rest) 0 = v := by
  show le32At (v % 256 :: v / 256 % 256 :: v / 65536 % 256 ::
    v / 16777216 % 256 :: rest) 0 = v
  unfold le32At charAtZ
  simp only [List.getD_cons_zero, List.getD_cons_succ]
  omega

theorem flatMap_le4_length : ∀ vs : List Nat,
    (vs.flatMap le4).length = 4 * vs.length := by
  intro vs
  induction vs with
  | nil => rfl
  | cons v t ih =>
    rw [List.flatMap_cons, List.length_append, ih]
    show 4 + 4 * t.length = 4 * (t.length + 1)
    omega

theorem flatMap_le4_at : ∀ (vs : List Nat), (∀ v ∈ vs, v < 2 ^ 32) →
    ∀ (i : Nat), i < vs.length →
    le32At (vs.flatMap le4) (4 * i) = vs.getD i 0 := by
  intro vs
  induction vs with
  | nil => intro _ i hi; simp at hi
  | cons v t ih =>
    intro hb i hi
    cases i with
    | zero =>
      rw [List.flatMap_cons]
      exact le32At_le4 v (hb v (by simp)) _
    | succ i =>
      rw [List.flatMap_cons,
        show 4 * (i + 1) = 4 + 4 * i from by omega, le32At_drop4,
        List.drop_left' (by rfl)]
      rw [ih (fun x hx => hb x (by simp [hx])) i (by
        simp only [List.length_cons] at hi
        omega)]
      rfl

/-- `load` inverts `save`: the saved file passes the size check and reads
back to the same arena (for arenas of 32-bit nodes well below the wrap
threshold). -/
theorem saveLoad_roundtrip {d : DawgState}
    (hvals : ∀ n ∈ d.dawg, n.value < 2 ^ 32)
    (hlen : d.dawg.length < 2 ^ 21) :
    dawgLoad (saveBytes d) = .ok ⟨d.dawg, fun _ => 0⟩ := by
  have hNmod : d.dawg.length % 4294967296 = d.dawg.length :=
    Nat.mod_eq_of_lt (by omega)
  have hsw : saveBytes d = le4 d.dawg.length ++
      (d.dawg.map Node.value).flatMap le4 := by
    unfold saveBytes saveWords
    rw [List.flatMap_cons, hNmod]
  have hhdr : le32At (saveBytes d) 0 = d.dawg.length := by
    rw [hsw]
    exact le32At_le4 _ (by omega) _
  have hflen : (saveBytes d).length = 4 * (d.dawg.length + 1) := by
    unfold saveBytes
    rw [flatMap_le4_length]
    unfold saveWords
    simp
  unfold dawgLoad
  rw [if_neg (by
    rw [hhdr, hflen]
    have h1 : d.dawg.length * 4 % 4294967296 = d.dawg.length * 4 :=
      Nat.mod_eq_of_lt (by omega)
    rw [h1]
    intro hc
    rw [Nat.mod_eq_of_lt (by omega)] at hc
    omega)]
  congr 1
  rw [hhdr]
  apply congrArg (fun x => DawgState.mk x (fun _ => 0))
  apply List.ext_getElem
  · simp
  · intro i h1 h2
    simp only [List.getElem_map, List.getElem_range]
    have hle : le32At (saveBytes d) (4 + 4 * i) =
        (d.dawg.map Node.value).getD i 0 := by
      rw [hsw, le32At_drop4, List.drop_left' (by rfl)]
      exact flatMap_le4_at (d.dawg.map Node.value)
        (by
          intro x hx
          obtain ⟨n, hn, rfl⟩ := List.mem_map.mp hx
          exact hvals n hn) i (by simpa using h2)
    have hval : (d.dawg.map Node.value).getD i 0 = (d.dawg[i]).value := by
      rw [List.getD_eq_getElem (d.dawg.map Node.value) 0 (by simpa using h2)]
      simp only [List.getElem_map]
    rw [hle, hval]

/-- Extract the success payload of a builder run (placeholder state on
error). -/
def getOk : Except DawgError DawgState → DawgState
  | .ok s => s
  | .error _ => ⟨[], fun _ => 0⟩

/-- C1: the text-first round trip.  For a word list `L` whose tokens all
have length at least 2 and bytes in `1..255`, a successful `create` run
(the success itself enforces the strictly ascending input order) whose
final arena stays below the `2^21`-node offset capacity produces a file
that `load` reads back verbatim and whose `dump` traversal terminates
with output exactly the words of `L`, one per line, in the same order. -/
theorem create_dump_roundtrip (L : List (List Nat)) (st : DawgState)
    (hlen : ∀ w ∈ L, 2 ≤ w.length)
    (hbytes : ∀ w ∈ L, ∀ c ∈ w, 0 < c ∧ c < 256)
    (hcreate : dawgCreate L = .ok st)
    (hsize : st.dawg.length < 2 ^ 21) :
    ∃ d, dawgLoad (saveBytes st) = .ok d ∧ DumpCompletes d.dawg L := by
  obtain ⟨cs, G, hwf, hcont, hEON, hpre, hoff, hden, hvals, h256⟩ :=
    create_sound (fun t ht => ⟨hlen t ht, hbytes t ht⟩) hcreate hsize
  refine ⟨⟨st.dawg, fun _ => 0⟩, saveLoad_roundtrip hvals hsize, ?_⟩
  show DumpCompletes st.dawg L
  rw [← hden]
  exact dump_completes_of hwf hcont hEON hpre hoff

set_option maxRecDepth 20000 in
/-- Witness for C1 at the single word `"at"`: `create` succeeds, its
arena is far below the offset capacity, the saved file loads back, and
the dump completes with exactly `["at"]`. -/
theorem create_dump_roundtrip_witness :
    ∃ st, dawgCreate [[97, 116]] = .ok st ∧
      ∃ d, dawgLoad (saveBytes st) = .ok d ∧
        DumpCompletes d.dawg [[97, 116]] :=
  ⟨getOk (dawgCreate [[97, 116]]), rfl,
    create_dump_roundtrip [[97, 116]] (getOk (dawgCreate [[97, 116]]))
      (by decide) (by decide) rfl (by decide)⟩

end DawgModel
